import Mathlib

/-!
# jtree: trace-tree construction and filtering

A shallow embedding of `main.go` of `tomarrell/jtree`: the data model
(`span`, `trace`, `config`, `spanNode`), the filter predicates
(`hasError`, `matchesSelf`, `matchesFilter`), the tree builder (`buildTree`,
`getParentID`, `sortNodes`) and the traversal (`printRoots`, `printNode`).

Conventions.
* Go `int64` and `time.Duration` values are `Int`; where the source does
  arithmetic that can leave the 64-bit range the result is wrapped with
  `wrap64`.
* A Go `*spanNode` is an address into a `Heap` (the list of nodes allocated so
  far, an address being the allocation index).  `buildTree` works on that heap
  exactly as the source works on pointers.  The functions that walk a finished
  tree (`matchesFilter`, `printNode`) are recursive in the source and are
  embedded over the inductive type `spanNode`; `Heap.toTree` reads a tree off
  the heap.
* `printNode` writes one line per visited node; a written line is recorded as
  a `Line` (the node and its depth), in the order written.  `printNodeText`
  is `printNode` with the text of each line; `json.Marshal` and the wall-clock
  format of `time` are library functions and are parameters (`Library`).
-/

namespace Jtree

/-! ## Data model -/

/-- The dynamically typed value of a tag (`any` after JSON decoding): a string,
a boolean, or anything else (number, null, array, object), which is kept as
its JSON text. -/
inductive TagValue where
  | str (s : String)
  | bool (b : Bool)
  | other (json : String)
  deriving DecidableEq, Repr

/-- Go `type reference struct`. -/
structure reference where
  RefType : String
  SpanID : String
  deriving DecidableEq, Repr

/-- Go `type tag struct`. -/
structure tag where
  Key : String
  Value : TagValue
  deriving DecidableEq, Repr

/-- Go `type span struct`. `StartTime` and `Duration` are `int64` microseconds. -/
structure span where
  SpanID : String
  OperationName : String
  References : List reference
  StartTime : Int
  Duration : Int
  ProcessID : String
  Tags : List tag
  deriving DecidableEq, Repr

/-- Go `type process struct`. -/
structure process where
  ServiceName : String
  deriving DecidableEq, Repr

/-- Go `type trace struct`. `Processes` is a `map[string]process`, read only
through the lookup `t.Processes[id]`. -/
structure trace where
  TraceID : String
  Spans : List span
  Processes : String → Option process

/-- Go `type config struct`. `minDuration` is a `time.Duration` (nanoseconds). -/
structure config where
  jaegerURL : String
  jsonOutput : Bool
  minDuration : Int
  errorsOnly : Bool
  service : String
  maxDepth : Int
  relativeTime : Bool
  deriving DecidableEq, Repr

/-- Go `type spanNode struct`, as a finished tree. -/
inductive spanNode where
  | mk (span : span) (service : String) (children : List spanNode)
  deriving Repr

/-- Field `span` of a node. -/
def spanNode.span : spanNode → span
  | .mk s _ _ => s

/-- Field `service` of a node. -/
def spanNode.service : spanNode → String
  | .mk _ sv _ => sv

/-- Field `children` of a node. -/
def spanNode.children : spanNode → List spanNode
  | .mk _ _ cs => cs

/-- Two's-complement wrap of an integer into the `int64` range. -/
def wrap64 (x : Int) : Int := (x + 2 ^ 63) % 2 ^ 64 - 2 ^ 63

/-- The range of an `int64`. -/
def isInt64 (x : Int) : Prop := -(2 ^ 63) ≤ x ∧ x < 2 ^ 63

instance (x : Int) : Decidable (isInt64 x) := by unfold isInt64; infer_instance

/-! ## Filter predicates -/

/-- Loop body of `hasError` for one tag. -/
def tagIsError (t : tag) : Bool :=
  (t.Key == "otel.status_code" && t.Value == TagValue.str "ERROR") ||
  (t.Key == "error" && t.Value == TagValue.bool true)

/-- Go `func (n *spanNode) hasError() bool`. -/
def spanNode.hasError (n : spanNode) : Bool :=
  n.span.Tags.any tagIsError

/-- Go `func (n *spanNode) matchesSelf(cfg *config) bool`. The product
`time.Duration(n.span.Duration)*time.Microsecond` is an `int64` product. -/
def spanNode.matchesSelf (n : spanNode) (cfg : config) : Bool :=
  if decide (cfg.minDuration > 0) && decide (wrap64 (n.span.Duration * 1000) < cfg.minDuration) then
    false
  else if cfg.errorsOnly && !n.hasError then
    false
  else if cfg.service != "" && n.service != cfg.service then
    false
  else
    true

mutual
/-- Go `func (n *spanNode) matchesFilter(cfg *config) bool`. -/
def spanNode.matchesFilter : spanNode → config → Bool
  | .mk s sv cs, cfg =>
    if (spanNode.mk s sv cs).matchesSelf cfg then true
    else matchesFilterAny cs cfg
/-- The loop `for _, child := range n.children` of `matchesFilter`. -/
def matchesFilterAny : List spanNode → config → Bool
  | [], _ => false
  | c :: cs, cfg => if c.matchesFilter cfg then true else matchesFilterAny cs cfg
end

/-! ## Traversal -/

/-- One line written by `printNode`: the node it is written for and the depth
at which the node is visited (the line is indented by `depth` levels). -/
structure Line where
  depth : Nat
  node : spanNode

mutual
/-- Go `func printNode(node *spanNode, depth int, startTime int64, cfg *config)`.
The result is the sequence of lines written, in order. -/
def printNode : spanNode → Nat → Int → config → List Line
  | .mk s sv cs, depth, startTime, cfg =>
    if !(spanNode.mk s sv cs).matchesFilter cfg then
      []
    else if decide (cfg.maxDepth > 0) && decide ((depth : Int) ≥ cfg.maxDepth) then
      []
    else
      ⟨depth, .mk s sv cs⟩ :: printNodeChildren cs (depth + 1) startTime cfg
/-- The loop `for _, child := range node.children` of `printNode`. -/
def printNodeChildren : List spanNode → Nat → Int → config → List Line
  | [], _, _, _ => []
  | c :: cs, depth, startTime, cfg =>
    printNode c depth startTime cfg ++ printNodeChildren cs depth startTime cfg
end

/-- Go `func printRoots(roots []*spanNode, startTime int64, cfg *config)`. -/
def printRoots : List spanNode → Int → config → List Line
  | [], _, _ => []
  | root :: roots, startTime, cfg =>
    printNode root 0 startTime cfg ++ printRoots roots startTime cfg

/-! ## Tree builder -/

/-- A `spanNode` while the tree is built: its children are pointers. -/
structure Cell where
  span : span
  service : String
  children : List Nat
  deriving DecidableEq, Repr

/-- The allocated nodes; the address of a node is its index. -/
abbrev Heap := List Cell

/-- Go `map[string]*spanNode`: each key occurs once. -/
abbrev SpanMap := List (String × Nat)

/-- Map read `m[k]`, with the `ok` flag as `Option`. -/
def SpanMap.get (m : SpanMap) (k : String) : Option Nat :=
  List.lookup k m

/-- Map write `m[k] = v`: overwrites the entry of `k` when there is one. -/
def SpanMap.set : SpanMap → String → Nat → SpanMap
  | [], k, v => [(k, v)]
  | (k', v') :: m, k, v =>
    if k' == k then (k', v) :: m else (k', v') :: SpanMap.set m k v

/-- Go `func getParentID(s span) string`, on the reference list. -/
def getParentIDRefs : List reference → String
  | [] => ""
  | ref :: refs => if ref.RefType == "CHILD_OF" then ref.SpanID else getParentIDRefs refs

/-- Go `func getParentID(s span) string`. -/
def getParentID (s : span) : String :=
  getParentIDRefs s.References

/-- `nodes[i].span.StartTime` for a pointer into the heap. -/
def Heap.startTime (h : Heap) (a : Nat) : Int :=
  match h[a]? with
  | some c => c.span.StartTime
  | none => 0

/-- Go `func sortNodes(nodes []*spanNode)`: `sort.Slice` with the order
`nodes[i].span.StartTime < nodes[j].span.StartTime`. `sort.Slice` promises a
sorted rearrangement and no particular order among equal start times; here
equal elements keep their order (as the insertion sort `sort.Slice` runs on
slices of at most 12 elements does). -/
def sortNodes (h : Heap) (nodes : List Nat) : List Nat :=
  List.insertionSort (fun a b => h.startTime a ≤ h.startTime b) nodes

/-- State of the first loop of `buildTree`. -/
structure BuildState where
  heap : Heap
  spanMap : SpanMap
  startTime : Int

/-- The node `&spanNode{span: s, service: service}` of the first loop of
`buildTree`, with `service` resolved through `t.Processes[s.ProcessID]`. -/
def newNode (t : trace) (s : span) : Cell :=
  let service := match t.Processes s.ProcessID with
    | some p => p.ServiceName
    | none => ""
  { span := s, service := service, children := [] }

/-- Body of the first loop of `buildTree`: allocate the node of `s`, enter it
in `spanMap`, update `startTime`. -/
def allocStep (t : trace) (st : BuildState) (s : span) : BuildState :=
  { heap := st.heap ++ [newNode t s]
    spanMap := st.spanMap.set s.SpanID st.heap.length
    startTime :=
      if st.startTime == 0 || decide (s.StartTime < st.startTime) then s.StartTime
      else st.startTime }

/-- The statement `parent.children = append(parent.children, node)`. -/
def Heap.appendChild (h : Heap) (parent node : Nat) : Heap :=
  List.modify (fun c => { c with children := c.children ++ [node] }) parent h

/-- Body of the second loop of `buildTree`, on the heap and the root list.
Every `s.SpanID` is a key of `spanMap` after the first loop
(`allocFold_get_isSome`), so the first `none` branch is never taken. -/
def attachStep (spanMap : SpanMap) (st : Heap × List Nat) (s : span) : Heap × List Nat :=
  match spanMap.get s.SpanID with
  | none => st
  | some node =>
    let parentID := getParentID s
    if parentID != "" then
      match spanMap.get parentID with
      | some parent => (st.1.appendChild parent node, st.2)
      | none => (st.1, st.2 ++ [node])
    else
      (st.1, st.2 ++ [node])

/-- Body of the loop `for _, node := range spanMap { sortNodes(node.children) }`. -/
def sortStep (h : Heap) (e : String × Nat) : Heap :=
  List.modify (fun c => { c with children := sortNodes h c.children }) e.2 h

/-- The result of `buildTree`: the heap the returned pointers point into, the
root list and the trace start time. -/
structure BuildResult where
  heap : Heap
  roots : List Nat
  startTime : Int
  deriving DecidableEq, Repr

/-- Go `func buildTree(t trace) ([]*spanNode, int64)`. -/
def buildTree (t : trace) : BuildResult :=
  let st1 := t.Spans.foldl (allocStep t) { heap := [], spanMap := [], startTime := 0 }
  let st2 := t.Spans.foldl (attachStep st1.spanMap) (st1.heap, [])
  let roots := sortNodes st2.1 st2.2
  let heap := st1.spanMap.foldl sortStep st2.1
  { heap := heap, roots := roots, startTime := st1.startTime }

/-- Read a list of optional values, failing when one is missing. -/
def allSome {α : Type} : List (Option α) → Option (List α)
  | [] => some []
  | none :: _ => none
  | some a :: as =>
    match allSome as with
    | some l => some (a :: l)
    | none => none

/-- The tree below the pointer `a`, followed to at most `fuel` levels; `none`
when a pointer dangles or the structure below `a` is deeper than `fuel`. -/
def Heap.toTree (h : Heap) : Nat → Nat → Option spanNode
  | 0, _ => none
  | fuel + 1, a =>
    match h[a]? with
    | none => none
    | some c =>
      match allSome (c.children.map (Heap.toTree h fuel)) with
      | some cs => some (.mk c.span c.service cs)
      | none => none

/-- The forest `buildTree` returns, read off the heap. A chain of child
pointers without repetition has at most `heap.length` nodes, so the result is
`none` only when a node reachable from `roots` lies on a cycle. -/
def BuildResult.forest (r : BuildResult) : Option (List spanNode) :=
  allSome (r.roots.map (Heap.toTree r.heap r.heap.length))

/-! ## Tree structure -/

mutual
/-- The nodes of the subtree rooted at a node, in depth-first pre-order: the
node itself, then the subtrees of its children in child-list order. -/
def spanNode.preorder : spanNode → List spanNode
  | .mk s sv cs => .mk s sv cs :: preorderList cs
/-- The nodes of a forest in depth-first pre-order. -/
def preorderList : List spanNode → List spanNode
  | [] => []
  | c :: cs => c.preorder ++ preorderList cs
end

mutual
/-- The lines of the subtree rooted at a node visited at depth `d`, in
depth-first pre-order: each node with its depth. -/
def spanNode.preorderAt : spanNode → Nat → List Line
  | .mk s sv cs, d => ⟨d, .mk s sv cs⟩ :: preorderListAt cs (d + 1)
/-- The lines of a forest whose roots are visited at depth `d`, in depth-first
pre-order. -/
def preorderListAt : List spanNode → Nat → List Line
  | [], _ => []
  | c :: cs, d => c.preorderAt d ++ preorderListAt cs d
end

/-- `Descendant m n`: `m` is a proper descendant of `n`, at any depth. -/
inductive Descendant : spanNode → spanNode → Prop where
  | child {m n : spanNode} : m ∈ n.children → Descendant m n
  | deeper {m c n : spanNode} : c ∈ n.children → Descendant m c → Descendant m n

/-- The lines `printNode` keeps: within the depth limit and visible. -/
def keepLine (cfg : config) (l : Line) : Bool :=
  !(decide (cfg.maxDepth > 0) && decide ((l.depth : Int) ≥ cfg.maxDepth)) &&
    l.node.matchesFilter cfg

/-! ## Example values -/

/-- The zero `config`: no filter is active and the depth is unlimited. -/
def cfgZero : config :=
  { jaegerURL := "", jsonOutput := false, minDuration := 0, errorsOnly := false,
    service := "", maxDepth := 0, relativeTime := false }

/-- A `config` whose only active filter is `-min-duration 100ms`. -/
def cfg100ms : config := { cfgZero with minDuration := 100000000 }

/-- A span that has only a duration (microseconds). -/
def spanOfDuration (d : Int) : span :=
  { SpanID := "", OperationName := "", References := [], StartTime := 0, Duration := d,
    ProcessID := "", Tags := [] }

/-- A node that has only a duration (microseconds) and children. -/
def nodeOfDuration (d : Int) (children : List spanNode) : spanNode :=
  .mk (spanOfDuration d) "" children

/-- A root of 50 ms whose child has 60 ms and whose grandchild has 200 ms. -/
def chainTree : spanNode :=
  nodeOfDuration 50000 [nodeOfDuration 60000 [nodeOfDuration 200000 []]]

/-- A root of 50 ms with two children of 60 ms and 70 ms. -/
def shortTree : spanNode :=
  nodeOfDuration 50000 [nodeOfDuration 60000 [], nodeOfDuration 70000 []]

/-- A `config` whose filters are those of `cfg100ms` and whose depth limit is 2. -/
def cfg100msDepth2 : config := { cfg100ms with maxDepth := 2 }

/-- The first guard of `matchesSelf`, negated: the duration predicate. -/
def durationOK (n : spanNode) (cfg : config) : Bool :=
  !(decide (cfg.minDuration > 0) && decide (wrap64 (n.span.Duration * 1000) < cfg.minDuration))

/-- The second guard of `matchesSelf`, negated: the error predicate. -/
def errorOK (n : spanNode) (cfg : config) : Bool :=
  !(cfg.errorsOnly && !n.hasError)

/-- The third guard of `matchesSelf`, negated: the service predicate. -/
def serviceOK (n : spanNode) (cfg : config) : Bool :=
  !(cfg.service != "" && n.service != cfg.service)

/-- A node of service `api`, 200 ms long, with an error tag. -/
def apiErrorNode : spanNode :=
  .mk { SpanID := "s1", OperationName := "op", References := [], StartTime := 0,
        Duration := 200000, ProcessID := "p1", Tags := [⟨"error", TagValue.bool true⟩] }
    "api" []

/-- A `config` with the three filters active: 100 ms, errors only, service `api`. -/
def cfgAll : config :=
  { cfgZero with minDuration := 100000000, errorsOnly := true, service := "api" }

/-- A `config` whose only active filter is `-min-duration` of one nanosecond. -/
def cfg1ns : config := { cfgZero with minDuration := 1 }

/-- A `process` map with the single entry `p1 ↦ svc`. -/
def procs1 : String → Option process :=
  fun k => if k == "p1" then some ⟨"svc"⟩ else none

/-- A span with an identifier, a start time and references. -/
def spanAt (id : String) (start : Int) (refs : List reference) : span :=
  { SpanID := id, OperationName := id, References := refs, StartTime := start,
    Duration := 10, ProcessID := "p1", Tags := [] }

/-- A trace over the process map `procs1`. -/
def traceOf (spans : List span) : trace :=
  { TraceID := "t", Spans := spans, Processes := procs1 }

/-- The grandchild of `chainTree`: a childless node of 200 ms. -/
def chainLeaf : spanNode := nodeOfDuration 200000 []

/-- A trace whose two spans start at 0 and at 5 microseconds. -/
def traceStartsAtZero : trace :=
  traceOf [spanAt "a" 0 [], spanAt "b" 5 []]

/-- A `CHILD_OF` reference to a span. -/
def childOf (id : String) : reference := { RefType := "CHILD_OF", SpanID := id }

/-- Three parentless spans given with start times 3000, 1000, 2000. -/
def traceUnsortedRoots : trace :=
  traceOf [spanAt "span3" 3000 [], spanAt "span1" 1000 [], spanAt "span2" 2000 []]

/-- A parent and its three children given with start times 1300, 1200, 1100. -/
def traceUnsortedChildren : trace :=
  traceOf [spanAt "span1" 1000 [], spanAt "span3" 1300 [childOf "span1"],
    spanAt "span2" 1200 [childOf "span1"], spanAt "span4" 1100 [childOf "span1"]]

/-- The start times of a list of nodes of a build result. -/
def BuildResult.startTimes (r : BuildResult) (nodes : List Nat) : List Int :=
  nodes.map r.heap.startTime

/-- The child list of the node at address `a` of a heap. -/
def Heap.childrenAt (h : Heap) (a : Nat) : List Nat :=
  match h[a]? with
  | some c => c.children
  | none => []

/-- The child list of the node at address `a` of a build result. -/
def BuildResult.childrenOf (r : BuildResult) (a : Nat) : List Nat :=
  r.heap.childrenAt a

/-- The parent the second loop of `buildTree` attaches the node of `s` to:
the node `spanMap[parentID]` when `parentID` is not empty and is a key. -/
def attachTarget (m : SpanMap) (s : span) : Option Nat :=
  if getParentID s != "" then m.get (getParentID s) else none

/-- The target of the first `CHILD_OF` reference of a span, when it has one. -/
def firstChildOf (s : span) : Option String :=
  (s.References.find? (fun r => r.RefType == "CHILD_OF")).map reference.SpanID

/-- The node the second loop of `buildTree` appends to the root list for `s`,
if any: `spanMap[s.SpanID]` when `s` has no attach target. -/
def rootSel (m : SpanMap) (s : span) : Option Nat :=
  if attachTarget m s = none then m.get s.SpanID else none

/-- The node the second loop of `buildTree` appends to the child list of the
node at address `a` for `s`, if any. -/
def childSel (m : SpanMap) (a : Nat) (s : span) : Option Nat :=
  if attachTarget m s = some a then m.get s.SpanID else none

/-- The `spanMap` of `buildTree` after its first loop. -/
def spanMapOf (t : trace) : SpanMap :=
  (t.Spans.foldl (allocStep t) { heap := [], spanMap := [], startTime := 0 }).spanMap

/-- Two spans, the first with the empty identifier, the second with a
`CHILD_OF` reference whose target is the empty identifier. -/
def traceEmptyID : trace :=
  traceOf [spanAt "" 1000 [], spanAt "x" 2000 [childOf ""]]

/-- A parent, a child of it, and a span whose parent is not in the trace. -/
def traceParentChildOrphan : trace :=
  traceOf [spanAt "child" 1100 [childOf "parent"], spanAt "parent" 1000 [],
    spanAt "orphan" 1200 [childOf "nonexistent"]]

/-! ## Parent chains -/

/-- The `k`-th ancestor of `j` along a parent function, when the chain of
parents starting at `j` has that many steps. -/
def anc (par : Nat → Option Nat) : Nat → Nat → Option Nat
  | 0, j => some j
  | k + 1, j => (anc par k j).bind par

/-- The addresses met when following child pointers from `a` for at most
`fuel` levels, in depth-first pre-order. -/
def Heap.reach (h : Heap) : Nat → Nat → List Nat
  | 0, _ => []
  | fuel + 1, a => a :: (h.childrenAt a).flatMap (Heap.reach h fuel)

/-- The index of the span that the span at index `i` names as its parent: the
target of its first `CHILD_OF` reference, when that target is not empty and is
the identifier of a span of the trace. -/
def parentIndex (t : trace) (i : Nat) : Option Nat :=
  match t.Spans[i]? with
  | none => none
  | some s =>
    match firstChildOf s with
    | none => none
    | some tgt =>
      if tgt = "" then none
      else if (t.Spans.map span.SpanID).indexOf tgt < t.Spans.length then
        some ((t.Spans.map span.SpanID).indexOf tgt)
      else none

/-- Following parent references from a span never leads back to that span. -/
def Acyclic (t : trace) : Prop :=
  ∀ i k : Nat, 0 < k → anc (parentIndex t) k i ≠ some i

/-- Two spans with the same identifier. -/
def traceDuplicateID : trace :=
  traceOf [spanAt "a" 1000 [], spanAt "a" 2000 []]

/-- A span whose `CHILD_OF` reference names the span itself. -/
def traceSelfParent : trace :=
  traceOf [spanAt "a" 1000 [childOf "a"]]

/-- The spans wrapped by the nodes of a forest, in pre-order. -/
def forestSpans (f : List spanNode) : List span :=
  (preorderList f).map spanNode.span

/-- A node that has only tags. -/
def nodeOfTags (tags : List tag) : spanNode :=
  .mk { SpanID := "", OperationName := "", References := [], StartTime := 0, Duration := 0,
        ProcessID := "", Tags := tags } "" []

/-- Two spans with the same identifier, the first with a `CHILD_OF` reference
to an identifier that no span has. -/
def traceDuplicateOrphan : trace :=
  traceOf [spanAt "a" 1000 [childOf "nonexistent"], spanAt "a" 2000 []]

/-- A single span with a `CHILD_OF` reference to an identifier that no span has. -/
def traceSingleOrphan : trace :=
  traceOf [spanAt "orphan" 1000 [childOf "nonexistent"]]

/-- Two spans, the second with a `FOLLOWS_FROM` reference to the first. -/
def traceFollowsFrom : trace :=
  traceOf [spanAt "span1" 1000 [],
    spanAt "span2" 1100 [{ RefType := "FOLLOWS_FROM", SpanID := "span1" }]]

/-- No span of the trace carries a reference of kind `CHILD_OF`. -/
def NoChildOf (t : trace) : Prop :=
  ∀ s ∈ t.Spans, ∀ r ∈ s.References, r.RefType ≠ "CHILD_OF"

/-- The service name `buildTree` resolves for a process identifier:
`t.Processes[pid].ServiceName` when `pid` is a key, the empty string
otherwise. -/
def resolveService (t : trace) (pid : String) : String :=
  match t.Processes pid with
  | some p => p.ServiceName
  | none => ""

/-- A span of the process `p999`, which is not a key of `procs1`. -/
def spanUnknownProcess : span :=
  { SpanID := "span1", OperationName := "root", References := [], StartTime := 1000,
    Duration := 100, ProcessID := "p999", Tags := [] }

/-- A trace whose only span names a process that is not in the process map. -/
def traceUnknownProcess : trace := traceOf [spanUnknownProcess]

/-- A `process` map with the entries `p1 ↦ frontend` and `p2 ↦ backend`. -/
def procs2 : String → Option process :=
  fun k => if k == "p1" then some ⟨"frontend"⟩ else if k == "p2" then some ⟨"backend"⟩ else none

/-- A root of process `p1` and a child of it of process `p2`. -/
def traceTwoServices : trace :=
  { TraceID := "trace1"
    Spans := [
      { SpanID := "span1", OperationName := "root", References := [], StartTime := 1000,
        Duration := 200, ProcessID := "p1", Tags := [] },
      { SpanID := "span2", OperationName := "child", References := [childOf "span1"],
        StartTime := 1050, Duration := 100, ProcessID := "p2", Tags := [] }]
    Processes := procs2 }

/-! ## Argument resolution -/

/-- The fields of Go's `url.URL` that `parseInput` reads. `Path` is the path
in decoded form. -/
structure URL where
  Scheme : String
  Host : String
  Path : String
  deriving DecidableEq, Repr

/-- Go `strings.Trim(s, "/")`: `s` without its leading and trailing slashes. -/
def trimSlashes (s : String) : String :=
  String.mk ((s.data.dropWhile (fun c => c == '/')).rdropWhile (fun c => c == '/'))

/-- The first piece of a character list cut at every slash, and the pieces
after it. -/
def splitChars : List Char → List Char × List (List Char)
  | [] => ([], [])
  | c :: cs =>
    if c = '/' then ([], (splitChars cs).1 :: (splitChars cs).2)
    else (c :: (splitChars cs).1, (splitChars cs).2)

/-- Go `strings.Split(s, "/")`: the pieces of `s` between slashes; a string
without a slash, the empty string included, gives one piece. -/
def splitSlash (s : String) : List String :=
  (((splitChars s.data).1 :: (splitChars s.data).2).map String.mk)

/-- Go `func parseInput(input, defaultURL string) (baseURL, traceID string)`.
`urlParse` stands for `url.Parse` of the Go library: `none` for an error,
otherwise the parsed URL. -/
def parseInput (urlParse : String → Option URL) (input defaultURL : String) : String × String :=
  match urlParse input with
  | none => (defaultURL, input)
  | some u =>
    if u.Scheme == "" then
      (defaultURL, input)
    else
      match splitSlash (trimSlashes u.Path) with
      | p0 :: p1 :: _ =>
        if p0 == "trace" then (u.Scheme ++ "://" ++ u.Host, p1) else (defaultURL, input)
      | _ => (defaultURL, input)

/-- An excerpt of Go's `url.Parse`: its results on the inputs used in the
examples below (a missing scheme in `://invalid` is an error; a string without
`://` is a path; the path is stored decoded, so `%2F` becomes a slash; a query
is not part of the path; consecutive slashes are kept). Other inputs are
outside the excerpt. -/
def urlParseExcerpt (input : String) : Option URL :=
  if input == "http://jaeger:16686/trace/xyz789" then
    some ⟨"http", "jaeger:16686", "/trace/xyz789"⟩
  else if input == "http://localhost:16686/trace/abc123/" then
    some ⟨"http", "localhost:16686", "/trace/abc123/"⟩
  else if input == "http://localhost:16686/trace/abc123?uiEmbed=v0" then
    some ⟨"http", "localhost:16686", "/trace/abc123"⟩
  else if input == "http://localhost:16686/something/else" then
    some ⟨"http", "localhost:16686", "/something/else"⟩
  else if input == "http://localhost:16686/trace/abc/def" then
    some ⟨"http", "localhost:16686", "/trace/abc/def"⟩
  else if input == "http://jaeger:16686/trace/a%2Fb" then
    some ⟨"http", "jaeger:16686", "/trace/a/b"⟩
  else if input == "http://jaeger:16686/trace//abc" then
    some ⟨"http", "jaeger:16686", "/trace//abc"⟩
  else if input == "abc-123-def-456" then
    some ⟨"", "", "abc-123-def-456"⟩
  else if input == "" then
    some ⟨"", "", ""⟩
  else
    none

/-! ## Duration formatting

`formatDuration` converts its `int64` argument to `float64`, divides by a
constant and prints the quotient with the verb `%.2f`. The three library
operations are modelled exactly on natural numbers: a positive `float64` is a
53-bit mantissa with a binary exponent, the conversion and the division round to
the nearest representable value with ties to the even mantissa (IEEE 754
`roundTiesToEven`), and `%.2f` prints the exact binary value rounded to the
nearest hundredth, ties to even (`strconv` rounds the exact decimal expansion).
Only values of at least 1 occur: the float branches are taken for `us ≥ 1000`. -/

/-- Integer nearest to `n / d`; at a tie, the even one. -/
def roundHalfEven (n d : Nat) : Nat :=
  if 2 * (n % d) < d then n / d
  else if d < 2 * (n % d) then n / d + 1
  else if (n / d) % 2 = 0 then n / d
  else n / d + 1

/-- Floor of the base-2 logarithm, by halving at most `fuel` times. -/
def log2Fuel : Nat → Nat → Nat
  | 0, _ => 0
  | fuel + 1, n => if n < 2 then 0 else log2Fuel fuel (n / 2) + 1

/-- Floor of the base-2 logarithm of `n` (0 for `n ≤ 1`). -/
def log2 (n : Nat) : Nat := log2Fuel n n

/-- A `float64` of value at least 1: it denotes `mant * 2 ^ exp / 2 ^ 52`, with
`2 ^ 52 ≤ mant ≤ 2 ^ 53`. -/
structure Float64 where
  mant : Nat
  exp : Nat
  deriving DecidableEq, Repr

/-- Numerator of the value over the denominator `2 ^ 52`. -/
def Float64.num (x : Float64) : Nat := x.mant * 2 ^ x.exp

/-- The `float64` nearest to the rational `a / b ≥ 1`: the binary exponent is
that of the quotient, the mantissa is the quotient scaled to 53 bits and rounded. -/
def Float64.ofRat (a b : Nat) : Float64 :=
  ⟨roundHalfEven (a * 2 ^ 52) (b * 2 ^ log2 (a / b)), log2 (a / b)⟩

/-- Go conversion `float64(us)` of a positive integer. -/
def Float64.ofInt64 (us : Nat) : Float64 := Float64.ofRat us 1

/-- Go quotient `x / d` of a `float64` by the integer constant `d`. -/
def Float64.divConst (x : Float64) (d : Nat) : Float64 := Float64.ofRat x.num (2 ^ 52 * d)

/-- Number of hundredths that `%.2f` prints for `x`. -/
def Float64.hundredths (x : Float64) : Nat := roundHalfEven (x.num * 100) (2 ^ 52)

/-- Text of `h` hundredths: integer part, a point, two digits. -/
def fixed2 (h : Nat) : String :=
  toString (h / 100) ++ "." ++ String.mk [Nat.digitChar (h / 10 % 10), Nat.digitChar (h % 10)]

/-- Source `formatDuration` (main.go 279-287). -/
def formatDuration (us : Int) : String :=
  if us < 1000 then toString us ++ "us"
  else if us < 1000000 then
    fixed2 ((Float64.ofInt64 us.toNat).divConst 1000).hundredths ++ "ms"
  else fixed2 ((Float64.ofInt64 us.toNat).divConst 1000000).hundredths ++ "s"

/-- The spans of `traceParentChildOrphan` in another order: the parent now
comes before its child. -/
def traceParentFirst : trace :=
  traceOf [spanAt "parent" 1000 [], spanAt "orphan" 1200 [childOf "nonexistent"],
    spanAt "child" 1100 [childOf "parent"]]

/-! ## Output -/

/-- Go `map[string]any` holding the tags of a span: each key occurs once. -/
abbrev TagMap := List (String × TagValue)

/-- Map read `m[k]`, with the `ok` flag as `Option`. -/
def TagMap.get (m : TagMap) (k : String) : Option TagValue :=
  List.lookup k m

/-- Map write `m[k] = v`: overwrites the entry of `k` when there is one. -/
def TagMap.set : TagMap → String → TagValue → TagMap
  | [], k, v => [(k, v)]
  | (k', v') :: m, k, v =>
    if k' == k then (k', v) :: m else (k', v') :: TagMap.set m k v

/-- The loop `for _, t := range node.span.Tags { tags[t.Key] = t.Value }` of
`printNode`, from the empty map. -/
def collectTags (ts : List tag) : TagMap :=
  ts.foldl (fun m t => m.set t.Key t.Value) []

/-- A value stored in the map `out` of `printNode`: a string or the tag map. -/
inductive OutValue where
  | str (s : String)
  | tags (m : TagMap)
  deriving DecidableEq, Repr

/-- The map literal `out` of `printNode`, key by key. -/
def outRecord (node : spanNode) (duration : String) : List (String × OutValue) :=
  [("span_id", .str node.span.SpanID), ("service", .str node.service),
    ("duration", .str duration), ("tags", .tags (collectTags node.span.Tags))]

/-- The library functions `printNode` calls on its values: `json.Marshal`
(followed by the conversion to `string`) and
`time.UnixMicro(x).Format("15:04:05.000")`, which depends on the local time
zone. -/
structure Library where
  jsonMarshal : List (String × OutValue) → String
  clockFormat : Int → String

/-- Go `strings.Repeat("  ", depth)`. -/
def indentOf (depth : Nat) : String :=
  String.join (List.replicate depth "  ")

/-- The `int64` difference `node.span.StartTime - startTime` of `printNode`. -/
def relOffset (node : spanNode) (startTime : Int) : Int :=
  wrap64 (node.span.StartTime - startTime)

/-- The line `printNode` writes for a node it does not skip (main.go 247-272),
with its final newline. -/
def lineOf (lib : Library) (node : spanNode) (depth : Nat) (startTime : Int) (cfg : config) :
    String :=
  let indent := indentOf depth
  let duration := formatDuration node.span.Duration
  if cfg.jsonOutput then
    indent ++ node.span.OperationName ++ " " ++
      lib.jsonMarshal (outRecord node duration) ++ "\n"
  else
    let timeStr :=
      if cfg.relativeTime then "+" ++ formatDuration (relOffset node startTime)
      else lib.clockFormat node.span.StartTime
    indent ++ node.span.OperationName ++ " [" ++ node.service ++ "] " ++ timeStr ++ " " ++
      duration ++ "\n"

mutual
/-- Go `func printNode(node *spanNode, depth int, startTime int64, cfg *config)`,
with the text written to standard output as the result, line by line. -/
def printNodeText (lib : Library) : spanNode → Nat → Int → config → List String
  | .mk s sv cs, depth, startTime, cfg =>
    if !(spanNode.mk s sv cs).matchesFilter cfg then
      []
    else if decide (cfg.maxDepth > 0) && decide ((depth : Int) ≥ cfg.maxDepth) then
      []
    else
      lineOf lib (.mk s sv cs) depth startTime cfg ::
        printNodeChildrenText lib cs (depth + 1) startTime cfg
/-- The loop `for _, child := range node.children` of `printNode`. -/
def printNodeChildrenText (lib : Library) : List spanNode → Nat → Int → config → List String
  | [], _, _, _ => []
  | c :: cs, depth, startTime, cfg =>
    printNodeText lib c depth startTime cfg ++ printNodeChildrenText lib cs depth startTime cfg
end

/-- Go `func printRoots(roots []*spanNode, startTime int64, cfg *config)`, with
the text written as the result. -/
def printRootsText (lib : Library) : List spanNode → Int → config → List String
  | [], _, _ => []
  | root :: roots, startTime, cfg =>
    printNodeText lib root 0 startTime cfg ++ printRootsText lib roots startTime cfg

/-- A `Library` for examples: records are written as `<json>`, wall-clock
times as `<clock>`. -/
def libStub : Library :=
  { jsonMarshal := fun _ => "<json>", clockFormat := fun _ => "<clock>" }

/-- The zero `config` with `-relative`. -/
def cfgRelative : config := { cfgZero with relativeTime := true }

/-- The zero `config` with `-json`. -/
def cfgJson : config := { cfgZero with jsonOutput := true }

/-- The process map of `TestBuildTree_MultiLevelNesting`: `p1 ↦ service1`. -/
def procsService1 : String → Option process :=
  fun k => if k == "p1" then some ⟨"service1"⟩ else none

/-- The trace of `TestBuildTree_MultiLevelNesting`: a root, two children of it
and a grandchild under the first child. -/
def traceMultiLevel : trace :=
  { TraceID := "trace1"
    Spans := [
      { SpanID := "span1", OperationName := "root", References := [], StartTime := 1000,
        Duration := 300, ProcessID := "p1", Tags := [] },
      { SpanID := "span2", OperationName := "child1", References := [childOf "span1"],
        StartTime := 1050, Duration := 150, ProcessID := "p1", Tags := [] },
      { SpanID := "span3", OperationName := "grandchild", References := [childOf "span2"],
        StartTime := 1100, Duration := 50, ProcessID := "p1", Tags := [] },
      { SpanID := "span4", OperationName := "child2", References := [childOf "span1"],
        StartTime := 1250, Duration := 30, ProcessID := "p1", Tags := [] }]
    Processes := procsService1 }

/-- The forest of a build result, empty when it cannot be read off the heap. -/
def BuildResult.forestD (r : BuildResult) : List spanNode :=
  r.forest.getD []

/-- A node of operation `op` and service `svc` whose span `s1` lasts 1500
microseconds and carries the key `a` twice. -/
def nodeRepeatedTag : spanNode :=
  .mk { SpanID := "s1", OperationName := "op", References := [], StartTime := 1000,
        Duration := 1500, ProcessID := "p1",
        Tags := [⟨"a", TagValue.str "1"⟩, ⟨"b", TagValue.bool true⟩,
          ⟨"a", TagValue.other "2"⟩] } "svc" []

/-- Two spans whose start times, -1 and the largest `int64`, are `2 ^ 63`
microseconds apart. -/
def traceFarApart : trace :=
  traceOf [spanAt "a" (-1) [], spanAt "b" 9223372036854775807 []]

/-- A parentless span and two spans that name each other as parent. -/
def traceCycle : trace :=
  traceOf [spanAt "r" 1000 [], spanAt "a" 1100 [childOf "b"], spanAt "b" 1200 [childOf "a"]]

/-- `h.Rep a tr`: the finite tree `tr` is the structure below the pointer `a`
of the heap `h`. -/
def Heap.Rep (h : Heap) (a : Nat) (tr : spanNode) : Prop :=
  ∃ f, h.toTree f a = some tr

/-- No filter and no depth limit: every predicate of the `config` is disabled. -/
def config.unfiltered (cfg : config) : Prop :=
  cfg.minDuration = 0 ∧ cfg.errorsOnly = false ∧ cfg.service = "" ∧ cfg.maxDepth = 0

/-! ## Lemmas: filter predicates -/

theorem matchesFilter_eq (n : spanNode) (cfg : config) :
    n.matchesFilter cfg = (n.matchesSelf cfg || matchesFilterAny n.children cfg) := by
  cases n with
  | mk s sv cs =>
    rw [spanNode.matchesFilter]
    by_cases h : (spanNode.mk s sv cs).matchesSelf cfg = true <;> simp [h, spanNode.children]

theorem matchesFilterAny_iff (cs : List spanNode) (cfg : config) :
    matchesFilterAny cs cfg = true ↔ ∃ c ∈ cs, c.matchesFilter cfg = true := by
  induction cs with
  | nil => simp [matchesFilterAny]
  | cons c cs ih =>
    rw [matchesFilterAny]
    by_cases h : c.matchesFilter cfg = true
    · simp [h]
    · simp [h, ih]

theorem descendant_trans_child {m c n : spanNode} (hc : c ∈ n.children)
    (h : m = c ∨ Descendant m c) : Descendant m n := by
  rcases h with rfl | h
  · exact Descendant.child hc
  · exact Descendant.deeper hc h

theorem descendant_cases {m n : spanNode} (h : Descendant m n) :
    ∃ c ∈ n.children, m = c ∨ Descendant m c := by
  cases h with
  | child hc => exact ⟨m, hc, Or.inl rfl⟩
  | deeper hc hd => exact ⟨_, hc, Or.inr hd⟩

mutual
theorem matchesFilter_iff_aux (n : spanNode) (cfg : config) :
    n.matchesFilter cfg = true ↔
      (n.matchesSelf cfg = true ∨ ∃ m, Descendant m n ∧ m.matchesSelf cfg = true) := by
  match n with
  | .mk s sv cs =>
    have hcs : (spanNode.mk s sv cs).children = cs := rfl
    rw [matchesFilter_eq, Bool.or_eq_true, hcs, matchesFilterAny_iff_aux cs cfg]
    constructor
    · rintro (h | ⟨c, hc, m, hm, hms⟩)
      · exact Or.inl h
      · exact Or.inr ⟨m, descendant_trans_child hc hm, hms⟩
    · rintro (h | ⟨m, hd, hms⟩)
      · exact Or.inl h
      · obtain ⟨c, hc, hm⟩ := descendant_cases hd
        exact Or.inr ⟨c, hc, m, hm, hms⟩
theorem matchesFilterAny_iff_aux (cs : List spanNode) (cfg : config) :
    matchesFilterAny cs cfg = true ↔
      ∃ c ∈ cs, ∃ m, (m = c ∨ Descendant m c) ∧ m.matchesSelf cfg = true := by
  match cs with
  | [] => simp [matchesFilterAny]
  | c :: cs =>
    rw [matchesFilterAny]
    have h1 := matchesFilter_iff_aux c cfg
    have h2 := matchesFilterAny_iff_aux cs cfg
    by_cases h : c.matchesFilter cfg = true
    · simp only [h, if_true, true_iff]
      rcases h1.mp h with hs | ⟨m, hd, hms⟩
      · exact ⟨c, List.mem_cons_self _ _, c, Or.inl rfl, hs⟩
      · exact ⟨c, List.mem_cons_self _ _, m, Or.inr hd, hms⟩
    · simp only [h, if_false, Bool.false_eq_true]
      rw [h2]
      constructor
      · rintro ⟨c', hc', m, hm, hms⟩
        exact ⟨c', List.mem_cons_of_mem _ hc', m, hm, hms⟩
      · rintro ⟨c', hc', m, hm, hms⟩
        rcases List.mem_cons.mp hc' with rfl | hc''
        · exfalso
          apply h
          rw [h1]
          rcases hm with rfl | hd
          · exact Or.inl hms
          · exact Or.inr ⟨m, hd, hms⟩
        · exact ⟨c', hc'', m, hm, hms⟩
end

/-! ## Lemmas: traversal -/

mutual
theorem preorderAt_map_node (n : spanNode) (d : Nat) :
    (n.preorderAt d).map Line.node = n.preorder := by
  match n with
  | .mk s sv cs =>
    simp only [spanNode.preorderAt, spanNode.preorder, List.map_cons]
    rw [preorderListAt_map_node cs (d + 1)]
theorem preorderListAt_map_node (cs : List spanNode) (d : Nat) :
    (preorderListAt cs d).map Line.node = preorderList cs := by
  match cs with
  | [] => simp [preorderListAt, preorderList]
  | c :: cs =>
    simp only [preorderListAt, preorderList, List.map_append]
    rw [preorderAt_map_node c d, preorderListAt_map_node cs d]
end

mutual
theorem preorderAt_depth_ge (n : spanNode) (d : Nat) :
    ∀ l ∈ n.preorderAt d, d ≤ l.depth := by
  match n with
  | .mk s sv cs =>
    intro l hl
    simp only [spanNode.preorderAt, List.mem_cons] at hl
    rcases hl with rfl | hl
    · exact Nat.le_refl _
    · exact Nat.le_of_succ_le (preorderListAt_depth_ge cs (d + 1) l hl)
theorem preorderListAt_depth_ge (cs : List spanNode) (d : Nat) :
    ∀ l ∈ preorderListAt cs d, d ≤ l.depth := by
  match cs with
  | [] => simp [preorderListAt]
  | c :: cs =>
    intro l hl
    simp only [preorderListAt, List.mem_append] at hl
    rcases hl with hl | hl
    · exact preorderAt_depth_ge c d l hl
    · exact preorderListAt_depth_ge cs d l hl
end

mutual
theorem matchesFilter_of_mem_preorder (n : spanNode) (cfg : config) :
    ∀ m ∈ n.preorder, m.matchesFilter cfg = true → n.matchesFilter cfg = true := by
  match n with
  | .mk s sv cs =>
    intro m hm hmf
    simp only [spanNode.preorder, List.mem_cons] at hm
    rcases hm with rfl | hm
    · exact hmf
    · rw [matchesFilter_eq, Bool.or_eq_true]
      exact Or.inr (matchesFilterAny_of_mem_preorderList cs cfg m hm hmf)
theorem matchesFilterAny_of_mem_preorderList (cs : List spanNode) (cfg : config) :
    ∀ m ∈ preorderList cs, m.matchesFilter cfg = true → matchesFilterAny cs cfg = true := by
  match cs with
  | [] => simp [preorderList]
  | c :: cs =>
    intro m hm hmf
    simp only [preorderList, List.mem_append] at hm
    rw [matchesFilterAny_iff]
    rcases hm with hm | hm
    · exact ⟨c, List.mem_cons_self _ _, matchesFilter_of_mem_preorder c cfg m hm hmf⟩
    · obtain ⟨c', hc', hcf⟩ :=
        (matchesFilterAny_iff cs cfg).mp (matchesFilterAny_of_mem_preorderList cs cfg m hm hmf)
      exact ⟨c', List.mem_cons_of_mem _ hc', hcf⟩
end

mutual
theorem printNode_eq_filter (n : spanNode) (d : Nat) (st : Int) (cfg : config) :
    printNode n d st cfg = (n.preorderAt d).filter (keepLine cfg) := by
  match n with
  | .mk s sv cs =>
    rw [printNode]
    by_cases hf : (spanNode.mk s sv cs).matchesFilter cfg = true
    · by_cases hd : (decide (cfg.maxDepth > 0) && decide ((d : Int) ≥ cfg.maxDepth)) = true
      · simp only [hf, hd, Bool.not_true, Bool.false_eq_true, if_false, if_true]
        symm
        rw [List.filter_eq_nil_iff]
        intro l hl
        have hge := preorderAt_depth_ge _ d l hl
        simp only [Bool.and_eq_true, decide_eq_true_eq] at hd
        have : (decide (cfg.maxDepth > 0) && decide ((l.depth : Int) ≥ cfg.maxDepth)) = true := by
          simp only [Bool.and_eq_true, decide_eq_true_eq]
          refine ⟨hd.1, ?_⟩
          have : (d : Int) ≤ (l.depth : Int) := by exact_mod_cast hge
          omega
        simp [keepLine, this]
      · simp only [hf, hd, Bool.not_true, Bool.false_eq_true, if_false]
        rw [spanNode.preorderAt, List.filter_cons]
        have hk : keepLine cfg ⟨d, .mk s sv cs⟩ = true := by
          simp only [Bool.not_eq_true] at hd
          simp [keepLine, hd, hf]
        rw [if_pos hk, printNodeChildren_eq_filter cs (d + 1) st cfg]
    · simp only [hf, Bool.not_false, if_true]
      symm
      rw [List.filter_eq_nil_iff]
      intro l hl hk
      apply hf
      have hm : l.node ∈ (spanNode.mk s sv cs).preorder := by
        rw [← preorderAt_map_node _ d]
        exact List.mem_map_of_mem _ hl
      simp only [keepLine, Bool.and_eq_true] at hk
      exact matchesFilter_of_mem_preorder _ cfg l.node hm hk.2
theorem printNodeChildren_eq_filter (cs : List spanNode) (d : Nat) (st : Int) (cfg : config) :
    printNodeChildren cs d st cfg = (preorderListAt cs d).filter (keepLine cfg) := by
  match cs with
  | [] => simp [printNodeChildren, preorderListAt]
  | c :: cs =>
    rw [printNodeChildren, preorderListAt, List.filter_append,
      printNode_eq_filter c d st cfg, printNodeChildren_eq_filter cs d st cfg]
end

theorem printRoots_eq_children (roots : List spanNode) (st : Int) (cfg : config) :
    printRoots roots st cfg = printNodeChildren roots 0 st cfg := by
  induction roots with
  | nil => simp [printRoots, printNodeChildren]
  | cons r rs ih => rw [printRoots, printNodeChildren, ih]

theorem printRoots_eq_filter (roots : List spanNode) (st : Int) (cfg : config) :
    printRoots roots st cfg = (preorderListAt roots 0).filter (keepLine cfg) := by
  rw [printRoots_eq_children, printNodeChildren_eq_filter]

mutual
theorem preorder_sublist_of_mem (n : spanNode) :
    ∀ a ∈ n.preorder, a.preorder.Sublist n.preorder := by
  match n with
  | .mk s sv cs =>
    intro a ha
    simp only [spanNode.preorder, List.mem_cons] at ha
    rcases ha with rfl | ha
    · exact List.Sublist.refl _
    · rw [spanNode.preorder]
      exact List.Sublist.cons _ (preorderList_sublist_of_mem cs a ha)
theorem preorderList_sublist_of_mem (cs : List spanNode) :
    ∀ a ∈ preorderList cs, a.preorder.Sublist (preorderList cs) := by
  match cs with
  | [] => simp [preorderList]
  | c :: cs =>
    intro a ha
    simp only [preorderList, List.mem_append] at ha
    rw [preorderList]
    rcases ha with ha | ha
    · exact (preorder_sublist_of_mem c a ha).trans (List.sublist_append_left _ _)
    · exact (preorderList_sublist_of_mem cs a ha).trans (List.sublist_append_right _ _)
end

theorem preorder_eq (n : spanNode) : n.preorder = n :: preorderList n.children := by
  cases n with
  | mk s sv cs => simp [spanNode.preorder, spanNode.children]

theorem mem_preorderList_of_mem {c : spanNode} {cs : List spanNode} (hc : c ∈ cs) :
    ∀ x ∈ c.preorder, x ∈ preorderList cs := by
  induction cs with
  | nil => simp at hc
  | cons c' cs ih =>
    intro x hx
    rw [preorderList, List.mem_append]
    rcases List.mem_cons.mp hc with rfl | hc'
    · exact Or.inl hx
    · exact Or.inr (ih hc' x hx)

theorem mem_preorderList_of_descendant {m a : spanNode} (h : Descendant m a) :
    m ∈ preorderList a.children := by
  induction h with
  | child hc =>
    apply mem_preorderList_of_mem hc
    rw [preorder_eq]
    exact List.mem_cons_self _ _
  | deeper hc _ ih =>
    apply mem_preorderList_of_mem hc
    rw [preorder_eq]
    exact List.mem_cons_of_mem _ ih

theorem printRoots_nodes_unlimited (roots : List spanNode) (st : Int) (cfg : config)
    (hd : cfg.maxDepth ≤ 0) :
    (printRoots roots st cfg).map Line.node =
      (preorderList roots).filter (fun n => n.matchesFilter cfg) := by
  rw [printRoots_eq_filter, ← preorderListAt_map_node roots 0, List.filter_map]
  congr 1
  apply List.filter_congr
  intro l _
  have : ¬ cfg.maxDepth > 0 := by omega
  simp [keepLine, this]

/-! ## Lemmas: tree builder -/

theorem startTime_congr {h1 h2 : Heap} (e : h1.map Cell.span = h2.map Cell.span) :
    Heap.startTime h1 = Heap.startTime h2 := by
  funext a
  have ha : (h1.map Cell.span)[a]? = (h2.map Cell.span)[a]? := by rw [e]
  simp only [List.getElem?_map] at ha
  unfold Heap.startTime
  cases h1a : h1[a]? <;> cases h2a : h2[a]? <;> simp_all

theorem map_span_modify (f : Cell → Cell) (hf : ∀ c, (f c).span = c.span) (a : Nat) (h : Heap) :
    (List.modify f a h).map Cell.span = h.map Cell.span := by
  apply List.ext_getElem?
  intro i
  simp only [List.getElem?_map, List.getElem?_modify]
  cases h[i]? with
  | none => rfl
  | some c => by_cases e : a = i <;> simp [e, hf]

theorem map_span_appendChild (h : Heap) (p n : Nat) :
    (h.appendChild p n).map Cell.span = h.map Cell.span := by
  unfold Heap.appendChild
  apply map_span_modify
  intro c
  rfl

theorem map_span_sortStep (h : Heap) (e : String × Nat) :
    (sortStep h e).map Cell.span = h.map Cell.span := by
  unfold sortStep
  apply map_span_modify
  intro c
  rfl

theorem map_span_attachStep (m : SpanMap) (st : Heap × List Nat) (s : span) :
    (attachStep m st s).1.map Cell.span = st.1.map Cell.span := by
  unfold attachStep
  split
  · rfl
  · dsimp only
    split
    · split
      · exact map_span_appendChild _ _ _
      · rfl
    · rfl

theorem map_span_attachFold (m : SpanMap) (spans : List span) (st : Heap × List Nat) :
    (spans.foldl (attachStep m) st).1.map Cell.span = st.1.map Cell.span := by
  induction spans generalizing st with
  | nil => rfl
  | cons s ss ih => rw [List.foldl_cons, ih, map_span_attachStep]

theorem map_span_sortFold (m : SpanMap) (h : Heap) :
    (m.foldl sortStep h).map Cell.span = h.map Cell.span := by
  induction m generalizing h with
  | nil => rfl
  | cons e m ih => rw [List.foldl_cons, ih, map_span_sortStep]

theorem sortNodes_sorted (h : Heap) (nodes : List Nat) :
    List.Sorted (fun a b => h.startTime a ≤ h.startTime b) (sortNodes h nodes) := by
  have : IsTotal Nat (fun a b => h.startTime a ≤ h.startTime b) :=
    ⟨fun a b => le_total (h.startTime a) (h.startTime b)⟩
  have : IsTrans Nat (fun a b => h.startTime a ≤ h.startTime b) :=
    ⟨fun _ _ _ hab hbc => le_trans hab hbc⟩
  exact List.sorted_insertionSort _ nodes

theorem sortNodes_perm (h : Heap) (nodes : List Nat) : (sortNodes h nodes).Perm nodes :=
  List.perm_insertionSort _ nodes

theorem mem_values_of_get {m : SpanMap} {k : String} {v : Nat} (h : m.get k = some v) :
    v ∈ m.map Prod.snd := by
  unfold SpanMap.get at h
  induction m with
  | nil => simp at h
  | cons e m ih =>
    obtain ⟨k', v'⟩ := e
    rw [List.lookup_cons] at h
    by_cases hk : (k == k') = true
    · simp only [hk] at h
      simp only [Option.some.injEq] at h
      subst h
      simp
    · simp only [hk] at h
      simp only [List.map_cons, List.mem_cons]
      exact Or.inr (ih h)

theorem allocFold_children (t : trace) (spans : List span) (st : BuildState)
    (h0 : ∀ c ∈ st.heap, c.children = []) :
    ∀ c ∈ (spans.foldl (allocStep t) st).heap, c.children = [] := by
  induction spans generalizing st with
  | nil => exact h0
  | cons s ss ih =>
    rw [List.foldl_cons]
    apply ih
    intro c hc
    simp only [allocStep, List.mem_append, List.mem_singleton] at hc
    rcases hc with hc | rfl
    · exact h0 c hc
    · rfl

theorem attachStep_children (m : SpanMap) (st : Heap × List Nat) (s : span)
    (h0 : ∀ a c, st.1[a]? = some c → c.children = [] ∨ a ∈ m.map Prod.snd) :
    ∀ a c, (attachStep m st s).1[a]? = some c → c.children = [] ∨ a ∈ m.map Prod.snd := by
  unfold attachStep
  split
  · exact h0
  · dsimp only
    split
    · split
      · rename_i parent hp
        intro a c hc
        by_cases e : parent = a
        · subst e
          exact Or.inr (mem_values_of_get hp)
        · rw [Heap.appendChild, List.getElem?_modify_ne _ _ e] at hc
          exact h0 a c hc
      · exact h0
    · exact h0

theorem attachFold_children (m : SpanMap) (spans : List span) (st : Heap × List Nat)
    (h0 : ∀ a c, st.1[a]? = some c → c.children = [] ∨ a ∈ m.map Prod.snd) :
    ∀ a c, (spans.foldl (attachStep m) st).1[a]? = some c →
      c.children = [] ∨ a ∈ m.map Prod.snd := by
  induction spans generalizing st with
  | nil => exact h0
  | cons s ss ih =>
    rw [List.foldl_cons]
    exact ih _ (attachStep_children m st s h0)

theorem sortFold_sorted (g : Nat → Int) (m : SpanMap) (h : Heap)
    (hg : Heap.startTime h = g)
    (h0 : ∀ a c, h[a]? = some c →
      List.Sorted (fun x y => g x ≤ g y) c.children ∨ a ∈ m.map Prod.snd) :
    ∀ (a : Nat) (c : Cell), (m.foldl sortStep h)[a]? = some c →
      List.Sorted (fun x y => g x ≤ g y) c.children := by
  induction m generalizing h with
  | nil =>
    intro a c hc
    rcases h0 a c hc with hs | hm
    · exact hs
    · simp at hm
  | cons e m ih =>
    rw [List.foldl_cons]
    apply ih
    · rw [startTime_congr (map_span_sortStep h e), hg]
    · intro a c hc
      rw [sortStep, List.getElem?_modify] at hc
      cases hha : h[a]? with
      | none => rw [hha] at hc; simp at hc
      | some c0 =>
        rw [hha] at hc
        simp only [Option.map_eq_map, Option.map_some', Option.some.injEq] at hc
        by_cases ea : e.2 = a
        · left
          rw [if_pos ea] at hc
          subst hc
          dsimp only
          have := sortNodes_sorted h c0.children
          rw [hg] at this
          exact this
        · rw [if_neg ea] at hc
          subst hc
          rcases h0 a c0 hha with hs | hm
          · exact Or.inl hs
          · right
            simp only [List.map_cons, List.mem_cons] at hm
            rcases hm with hm | hm
            · exact absurd hm.symm ea
            · exact hm

theorem buildTree_startTime_fun (t : trace) :
    Heap.startTime (buildTree t).heap =
      Heap.startTime (t.Spans.foldl (allocStep t)
        { heap := [], spanMap := [], startTime := 0 }).heap := by
  apply startTime_congr
  simp only [buildTree]
  rw [map_span_sortFold, map_span_attachFold]

theorem buildTree_sorted (t : trace) :
    List.Sorted (fun a b => (buildTree t).heap.startTime a ≤ (buildTree t).heap.startTime b)
        (buildTree t).roots ∧
      ∀ c ∈ (buildTree t).heap,
        List.Sorted (fun a b => (buildTree t).heap.startTime a ≤ (buildTree t).heap.startTime b)
          c.children := by
  have hfun := buildTree_startTime_fun t
  rw [hfun]
  set st1 := t.Spans.foldl (allocStep t) { heap := [], spanMap := [], startTime := 0 } with hst1
  set st2 := t.Spans.foldl (attachStep st1.spanMap) (st1.heap, []) with hst2
  have h2 : Heap.startTime st2.1 = Heap.startTime st1.heap :=
    startTime_congr (map_span_attachFold _ _ _)
  constructor
  · have := sortNodes_sorted st2.1 st2.2
    rw [h2] at this
    exact this
  · intro c hc
    obtain ⟨a, ha⟩ := List.mem_iff_getElem?.mp hc
    refine sortFold_sorted (Heap.startTime st1.heap) st1.spanMap st2.1 h2 ?_ a c ha
    intro a c hc
    have hall : ∀ c ∈ st1.heap, c.children = [] :=
      allocFold_children t t.Spans _ (by simp)
    have := attachFold_children st1.spanMap t.Spans (st1.heap, []) (by
      intro a c hc
      exact Or.inl (hall c (List.mem_iff_getElem?.mpr ⟨a, hc⟩))) a c hc
    rcases this with hnil | hm
    · left; rw [hnil]; exact List.sorted_nil
    · exact Or.inr hm

theorem SpanMap.get_set_self (m : SpanMap) (k : String) (v : Nat) :
    (m.set k v).get k = some v := by
  induction m with
  | nil => simp [SpanMap.set, SpanMap.get, List.lookup]
  | cons e m ih =>
    obtain ⟨k', v'⟩ := e
    unfold SpanMap.get at ih ⊢
    by_cases hk : k' = k
    · subst hk
      simp [SpanMap.set, List.lookup]
    · have hk2 : (k == k') = false := by
        simp only [beq_eq_false_iff_ne, ne_eq]
        exact fun h => hk h.symm
      have hk3 : (k' == k) = false := by
        simp only [beq_eq_false_iff_ne, ne_eq]
        exact hk
      simp only [SpanMap.set, hk3, Bool.false_eq_true, ↓reduceIte, List.lookup, hk2]
      exact ih

theorem SpanMap.get_set_ne (m : SpanMap) (k k2 : String) (v : Nat) (hne : k2 ≠ k) :
    (m.set k v).get k2 = m.get k2 := by
  induction m with
  | nil =>
    have : (k2 == k) = false := by simpa using hne
    simp [SpanMap.set, SpanMap.get, List.lookup, this]
  | cons e m ih =>
    obtain ⟨k', v'⟩ := e
    unfold SpanMap.get at ih ⊢
    by_cases hk : k' = k
    · subst hk
      have : (k2 == k') = false := by simpa using hne
      simp [SpanMap.set, List.lookup, this]
    · have hk3 : (k' == k) = false := by simpa using hk
      simp only [SpanMap.set, hk3, Bool.false_eq_true, ↓reduceIte, List.lookup]
      cases h : k2 == k'
      · exact ih
      · rfl

theorem allocFold_heap (t : trace) (spans : List span) (st : BuildState) :
    (spans.foldl (allocStep t) st).heap = st.heap ++ spans.map (newNode t) := by
  induction spans generalizing st with
  | nil => simp
  | cons s ss ih =>
    rw [List.foldl_cons, ih]
    simp [allocStep]

theorem allocFold_get_of_not_mem (t : trace) (spans : List span) (st : BuildState)
    (k : String) (hk : ∀ s ∈ spans, s.SpanID ≠ k) :
    (spans.foldl (allocStep t) st).spanMap.get k = st.spanMap.get k := by
  induction spans generalizing st with
  | nil => rfl
  | cons s ss ih =>
    rw [List.foldl_cons, ih _ (fun s' hs' => hk s' (List.mem_cons_of_mem _ hs'))]
    simp only [allocStep]
    exact SpanMap.get_set_ne _ _ _ _ (fun h => hk s (List.mem_cons_self _ _) h.symm)

theorem allocFold_get_of_nodup (t : trace) (spans : List span) (st : BuildState)
    (hnd : (spans.map span.SpanID).Nodup) (j : Nat) (s : span) (hs : spans[j]? = some s) :
    (spans.foldl (allocStep t) st).spanMap.get s.SpanID = some (st.heap.length + j) := by
  induction spans generalizing st j with
  | nil => simp at hs
  | cons s0 ss ih =>
    rw [List.map_cons, List.nodup_cons] at hnd
    rw [List.foldl_cons]
    cases j with
    | zero =>
      simp only [List.getElem?_cons_zero, Option.some.injEq] at hs
      subst hs
      rw [allocFold_get_of_not_mem]
      · simp only [allocStep, Nat.add_zero]
        exact SpanMap.get_set_self _ _ _
      · intro s' hs' heq
        exact hnd.1 (List.mem_map.mpr ⟨s', hs', heq⟩)
    | succ j =>
      simp only [List.getElem?_cons_succ] at hs
      rw [ih _ hnd.2 j hs]
      simp only [allocStep, List.length_append, List.length_singleton]
      congr 1
      omega

theorem allocFold_get_some (t : trace) (spans : List span) (st : BuildState)
    (k : String) (p : Nat) (h : (spans.foldl (allocStep t) st).spanMap.get k = some p) :
    st.spanMap.get k = some p ∨
      ∃ j s, spans[j]? = some s ∧ s.SpanID = k ∧ p = st.heap.length + j := by
  induction spans generalizing st with
  | nil => exact Or.inl h
  | cons s0 ss ih =>
    rw [List.foldl_cons] at h
    rcases ih _ h with h1 | ⟨j, s, hj, hk, hp⟩
    · simp only [allocStep] at h1
      by_cases e : k = s0.SpanID
      · subst e
        rw [SpanMap.get_set_self] at h1
        simp only [Option.some.injEq] at h1
        exact Or.inr ⟨0, s0, by simp, rfl, by omega⟩
      · rw [SpanMap.get_set_ne _ _ _ _ e] at h1
        exact Or.inl h1
    · refine Or.inr ⟨j + 1, s, by simpa using hj, hk, ?_⟩
      simp only [allocStep, List.length_append, List.length_singleton] at hp
      omega

theorem allocFold_get_isSome_of_isSome (t : trace) (spans : List span) (st : BuildState)
    (k : String) (h : (st.spanMap.get k).isSome = true) :
    ((spans.foldl (allocStep t) st).spanMap.get k).isSome = true := by
  induction spans generalizing st with
  | nil => exact h
  | cons s ss ih =>
    rw [List.foldl_cons]
    apply ih
    simp only [allocStep]
    by_cases e : k = s.SpanID
    · subst e
      rw [SpanMap.get_set_self]
      rfl
    · rw [SpanMap.get_set_ne _ _ _ _ e]
      exact h

/-- After the first loop of `buildTree` every span identifier is a key of
`spanMap`. -/
theorem allocFold_get_isSome (t : trace) (spans : List span) (st : BuildState)
    (s : span) (hs : s ∈ spans) :
    ((spans.foldl (allocStep t) st).spanMap.get s.SpanID).isSome = true := by
  induction spans generalizing st with
  | nil => simp at hs
  | cons s0 ss ih =>
    rw [List.foldl_cons]
    rcases List.mem_cons.mp hs with rfl | hs2
    · apply allocFold_get_isSome_of_isSome
      simp only [allocStep]
      rw [SpanMap.get_set_self]
      rfl
    · exact ih _ hs2

/-- The state after the first loop of `buildTree`. -/
theorem alloc_heap (t : trace) :
    (t.Spans.foldl (allocStep t) { heap := [], spanMap := [], startTime := 0 }).heap =
      t.Spans.map (newNode t) := by
  rw [allocFold_heap]; rfl

theorem alloc_get_of_nodup (t : trace) (hnd : (t.Spans.map span.SpanID).Nodup)
    (j : Nat) (s : span) (hs : t.Spans[j]? = some s) :
    (t.Spans.foldl (allocStep t) { heap := [], spanMap := [], startTime := 0 }).spanMap.get
      s.SpanID = some j := by
  rw [allocFold_get_of_nodup t t.Spans _ hnd j s hs]
  simp

theorem alloc_get_some (t : trace) (k : String) (p : Nat)
    (h : (t.Spans.foldl (allocStep t)
      { heap := [], spanMap := [], startTime := 0 }).spanMap.get k = some p) :
    ∃ s, t.Spans[p]? = some s ∧ s.SpanID = k := by
  rcases allocFold_get_some t t.Spans _ k p h with h1 | ⟨j, s, hj, hk, hp⟩
  · simp [SpanMap.get] at h1
  · simp only [List.length_nil, Nat.zero_add] at hp
    subst hp
    exact ⟨s, hj, hk⟩

theorem attachStep_eq (m : SpanMap) (st : Heap × List Nat) (s : span) :
    attachStep m st s =
      match m.get s.SpanID with
      | none => st
      | some node =>
        match attachTarget m s with
        | some p => (st.1.appendChild p node, st.2)
        | none => (st.1, st.2 ++ [node]) := by
  unfold attachStep attachTarget
  cases m.get s.SpanID with
  | none => rfl
  | some node =>
    dsimp only
    by_cases h : (getParentID s != "") = true
    · simp only [h, if_true]
    · simp only [h, if_false, Bool.false_eq_true]

theorem length_appendChild (h : Heap) (p n : Nat) : (h.appendChild p n).length = h.length := by
  simp [Heap.appendChild]

theorem length_attachStep (m : SpanMap) (st : Heap × List Nat) (s : span) :
    (attachStep m st s).1.length = st.1.length := by
  have := congrArg List.length (map_span_attachStep m st s)
  simpa using this

theorem childrenAt_appendChild (h : Heap) (p n a : Nat) (ha : a < h.length) :
    (h.appendChild p n).childrenAt a = h.childrenAt a ++ (if p = a then [n] else []) := by
  unfold Heap.childrenAt Heap.appendChild
  rw [List.getElem?_modify]
  have : h[a]? = some h[a] := List.getElem?_eq_getElem ha
  rw [this]
  by_cases e : p = a <;> simp [e]

theorem attachStep_roots (m : SpanMap) (st : Heap × List Nat) (s : span) :
    (attachStep m st s).2 = st.2 ++ (rootSel m s).toList := by
  rw [attachStep_eq, rootSel]
  cases m.get s.SpanID with
  | none => simp
  | some node =>
    cases h : attachTarget m s with
    | none => simp
    | some p => simp

theorem attachStep_childrenAt (m : SpanMap) (st : Heap × List Nat) (s : span) (a : Nat)
    (ha : a < st.1.length) :
    (attachStep m st s).1.childrenAt a = st.1.childrenAt a ++ (childSel m a s).toList := by
  rw [attachStep_eq, childSel]
  cases m.get s.SpanID with
  | none => simp
  | some node =>
    cases h : attachTarget m s with
    | none => simp
    | some p =>
      simp only [childrenAt_appendChild _ _ _ _ ha, Option.some.injEq]
      by_cases e : p = a <;> simp [e]

theorem filterMap_cons_toList {α β : Type} (f : α → Option β) (x : α) (xs : List α) :
    (x :: xs).filterMap f = (f x).toList ++ xs.filterMap f := by
  rw [List.filterMap_cons]
  cases f x <;> simp

theorem attachFold_roots (m : SpanMap) (spans : List span) (st : Heap × List Nat) :
    (spans.foldl (attachStep m) st).2 = st.2 ++ spans.filterMap (rootSel m) := by
  induction spans generalizing st with
  | nil => simp
  | cons s ss ih =>
    rw [List.foldl_cons, ih, attachStep_roots, filterMap_cons_toList, List.append_assoc]

theorem attachFold_childrenAt (m : SpanMap) (spans : List span) (st : Heap × List Nat)
    (a : Nat) (ha : a < st.1.length) :
    (spans.foldl (attachStep m) st).1.childrenAt a =
      st.1.childrenAt a ++ spans.filterMap (childSel m a) := by
  induction spans generalizing st with
  | nil => simp
  | cons s ss ih =>
    rw [List.foldl_cons, ih _ (by rw [length_attachStep]; exact ha),
      attachStep_childrenAt _ _ _ _ ha, filterMap_cons_toList, List.append_assoc]

theorem childrenAt_sortStep_perm (h : Heap) (e : String × Nat) (a : Nat) :
    ((sortStep h e).childrenAt a).Perm (h.childrenAt a) := by
  unfold Heap.childrenAt sortStep
  rw [List.getElem?_modify]
  cases h[a]? with
  | none => simp
  | some c =>
    by_cases ea : e.2 = a
    · simp only [ea, if_true, Option.map_eq_map, Option.map_some']
      exact sortNodes_perm _ _
    · simp [ea]

theorem childrenAt_sortFold_perm (m : SpanMap) (h : Heap) (a : Nat) :
    ((m.foldl sortStep h).childrenAt a).Perm (h.childrenAt a) := by
  induction m generalizing h with
  | nil => exact List.Perm.refl _
  | cons e m ih =>
    rw [List.foldl_cons]
    exact (ih _).trans (childrenAt_sortStep_perm h e a)

theorem childrenAt_newNodes (t : trace) (spans : List span) (a : Nat) :
    Heap.childrenAt (spans.map (newNode t)) a = [] := by
  unfold Heap.childrenAt
  rw [List.getElem?_map]
  cases spans[a]? <;> simp [newNode]

theorem childrenAt_of_length_le (h : Heap) (a : Nat) (ha : h.length ≤ a) :
    h.childrenAt a = [] := by
  unfold Heap.childrenAt
  rw [List.getElem?_eq_none ha]

theorem length_buildTree_heap (t : trace) : (buildTree t).heap.length = t.Spans.length := by
  have h1 : (buildTree t).heap.map Cell.span = (t.Spans.map (newNode t)).map Cell.span := by
    simp only [buildTree]
    rw [map_span_sortFold, map_span_attachFold, alloc_heap]
  simpa using congrArg List.length h1

/-- The root list of `buildTree` is a rearrangement of the nodes the second
loop appends to it. -/
theorem buildTree_roots_perm (t : trace) :
    (buildTree t).roots.Perm
      (t.Spans.filterMap (rootSel (t.Spans.foldl (allocStep t)
        { heap := [], spanMap := [], startTime := 0 }).spanMap)) := by
  simp only [buildTree]
  refine (sortNodes_perm _ _).trans ?_
  rw [attachFold_roots]
  simp

/-- The child list of a node is a rearrangement of the nodes the second loop
appends to it. -/
theorem buildTree_children_perm (t : trace) (a : Nat) :
    ((buildTree t).childrenOf a).Perm
      (t.Spans.filterMap (childSel (t.Spans.foldl (allocStep t)
        { heap := [], spanMap := [], startTime := 0 }).spanMap a)) := by
  by_cases ha : a < t.Spans.length
  · simp only [buildTree, BuildResult.childrenOf]
    refine (childrenAt_sortFold_perm _ _ _).trans ?_
    rw [attachFold_childrenAt _ _ _ _ (by simp [alloc_heap]; exact ha)]
    simp only [alloc_heap, childrenAt_newNodes, List.nil_append]
    exact List.Perm.refl _
  · have h0 : (buildTree t).childrenOf a = [] :=
      childrenAt_of_length_le _ _ (by rw [length_buildTree_heap]; omega)
    rw [h0]
    have : t.Spans.filterMap (childSel (t.Spans.foldl (allocStep t)
        { heap := [], spanMap := [], startTime := 0 }).spanMap a) = [] := by
      rw [List.filterMap_eq_nil_iff]
      intro s _
      unfold childSel
      split
      · rename_i htgt
        unfold attachTarget at htgt
        split at htgt
        · obtain ⟨s', hs', _⟩ := alloc_get_some t _ _ htgt
          have := (List.getElem?_eq_some.mp hs').1
          omega
        · simp at htgt
      · rfl
    rw [this]

theorem getParentID_eq (s : span) : getParentID s = (firstChildOf s).getD "" := by
  unfold getParentID firstChildOf
  induction s.References with
  | nil => rfl
  | cons r rs ih =>
    rw [getParentIDRefs, List.find?_cons]
    by_cases h : (r.RefType == "CHILD_OF") = true
    · simp [h]
    · simp only [h, Bool.false_eq_true, if_false]
      exact ih

theorem nodup_getElem?_inj {spans : List span} (hnd : (spans.map span.SpanID).Nodup)
    {i j : Nat} {s s2 : span} (hi : spans[i]? = some s) (hj : spans[j]? = some s2)
    (hid : s.SpanID = s2.SpanID) : i = j := by
  have hi2 : (spans.map span.SpanID)[i]? = some s.SpanID := by simp [hi]
  have hj2 : (spans.map span.SpanID)[j]? = some s.SpanID := by simp [hj, hid]
  obtain ⟨hil, hie⟩ := List.getElem?_eq_some.mp hi2
  obtain ⟨hjl, hje⟩ := List.getElem?_eq_some.mp hj2
  exact (List.Nodup.getElem_inj_iff hnd).mp (hie.trans hje.symm)

theorem spanMapOf_get_of_nodup (t : trace) (hnd : (t.Spans.map span.SpanID).Nodup)
    (j : Nat) (s : span) (hs : t.Spans[j]? = some s) :
    (spanMapOf t).get s.SpanID = some j :=
  alloc_get_of_nodup t hnd j s hs

theorem spanMapOf_get_some (t : trace) (k : String) (p : Nat)
    (h : (spanMapOf t).get k = some p) : ∃ s, t.Spans[p]? = some s ∧ s.SpanID = k :=
  alloc_get_some t k p h

theorem spanMapOf_get_none (t : trace) (k : String) (h : ∀ s ∈ t.Spans, s.SpanID ≠ k) :
    (spanMapOf t).get k = none := by
  unfold spanMapOf
  rw [allocFold_get_of_not_mem t t.Spans _ k h]
  rfl

theorem mem_roots_iff (t : trace) (hnd : (t.Spans.map span.SpanID).Nodup) (i : Nat) :
    i ∈ (buildTree t).roots ↔
      ∃ s, t.Spans[i]? = some s ∧ attachTarget (spanMapOf t) s = none := by
  have hp : (buildTree t).roots.Perm (t.Spans.filterMap (rootSel (spanMapOf t))) :=
    buildTree_roots_perm t
  rw [hp.mem_iff, List.mem_filterMap]
  constructor
  · rintro ⟨s, hs, hsel⟩
    obtain ⟨j, hj⟩ := List.mem_iff_getElem?.mp hs
    have hget := spanMapOf_get_of_nodup t hnd j s hj
    unfold rootSel at hsel
    split at hsel
    · rename_i hnone
      have : (spanMapOf t).get s.SpanID = some i := hsel
      rw [hget] at this
      simp only [Option.some.injEq] at this
      subst this
      exact ⟨s, hj, hnone⟩
    · simp at hsel
  · rintro ⟨s, hs, hnone⟩
    refine ⟨s, List.mem_iff_getElem?.mpr ⟨i, hs⟩, ?_⟩
    unfold rootSel
    rw [if_pos hnone]
    exact spanMapOf_get_of_nodup t hnd i s hs

theorem mem_childrenOf_iff (t : trace) (hnd : (t.Spans.map span.SpanID).Nodup) (a i : Nat) :
    i ∈ (buildTree t).childrenOf a ↔
      ∃ s, t.Spans[i]? = some s ∧ attachTarget (spanMapOf t) s = some a := by
  have hp : ((buildTree t).childrenOf a).Perm (t.Spans.filterMap (childSel (spanMapOf t) a)) :=
    buildTree_children_perm t a
  rw [hp.mem_iff, List.mem_filterMap]
  constructor
  · rintro ⟨s, hs, hsel⟩
    obtain ⟨j, hj⟩ := List.mem_iff_getElem?.mp hs
    have hget := spanMapOf_get_of_nodup t hnd j s hj
    unfold childSel at hsel
    split at hsel
    · rename_i htgt
      have : (spanMapOf t).get s.SpanID = some i := hsel
      rw [hget] at this
      simp only [Option.some.injEq] at this
      subst this
      exact ⟨s, hj, htgt⟩
    · simp at hsel
  · rintro ⟨s, hs, htgt⟩
    refine ⟨s, List.mem_iff_getElem?.mpr ⟨i, hs⟩, ?_⟩
    unfold childSel
    rw [if_pos htgt]
    exact spanMapOf_get_of_nodup t hnd i s hs

theorem attachTarget_none_of (t : trace) (s : span)
    (h : firstChildOf s = none ∨ firstChildOf s = some "" ∨
      ∃ tgt, firstChildOf s = some tgt ∧ ∀ s2 ∈ t.Spans, s2.SpanID ≠ tgt) :
    attachTarget (spanMapOf t) s = none := by
  unfold attachTarget
  rw [getParentID_eq]
  rcases h with h | h | ⟨tgt, h, hno⟩
  · simp [h]
  · simp [h]
  · simp only [h, Option.getD_some]
    split
    · exact spanMapOf_get_none t tgt hno
    · rfl

theorem attachTarget_some_of (t : trace) (hnd : (t.Spans.map span.SpanID).Nodup) (s : span)
    (tgt : String) (p : Nat) (s2 : span) (h : firstChildOf s = some tgt) (hne : tgt ≠ "")
    (hp : t.Spans[p]? = some s2) (hid : s2.SpanID = tgt) :
    attachTarget (spanMapOf t) s = some p := by
  unfold attachTarget
  rw [getParentID_eq]
  simp only [h, Option.getD_some]
  have : (tgt != "") = true := by simpa using hne
  rw [if_pos this, ← hid]
  exact spanMapOf_get_of_nodup t hnd p s2 hp

theorem buildTree_heap_getElem? (t : trace) (i : Nat) (s : span) (hs : t.Spans[i]? = some s) :
    ∃ c, (buildTree t).heap[i]? = some c ∧ c.span = s := by
  have h1 : (buildTree t).heap.map Cell.span = t.Spans := by
    simp only [buildTree]
    rw [map_span_sortFold, map_span_attachFold, alloc_heap, List.map_map]
    apply List.map_id''
    intro x
    rfl
  have h2 : ((buildTree t).heap.map Cell.span)[i]? = some s := by rw [h1]; exact hs
  rw [List.getElem?_map] at h2
  cases hc : (buildTree t).heap[i]? with
  | none => rw [hc] at h2; simp at h2
  | some c =>
    rw [hc] at h2
    simp only [Option.map_some', Option.some.injEq] at h2
    exact ⟨c, rfl, h2⟩

/-! ## Lemmas: parent chains -/

theorem anc_add (par : Nat → Option Nat) (a b j : Nat) :
    anc par (a + b) j = (anc par a j).bind (anc par b) := by
  induction b with
  | zero =>
    simp only [Nat.add_zero]
    cases anc par a j <;> simp [anc]
  | succ b ih =>
    rw [← Nat.add_assoc, anc, ih]
    cases anc par a j with
    | none => rfl
    | some x => simp [anc]

theorem anc_succ_left (par : Nat → Option Nat) (k j : Nat) :
    anc par (k + 1) j = (par j).bind (anc par k) := by
  rw [Nat.add_comm, anc_add]
  simp [anc]

theorem anc_some_of_le (par : Nat → Option Nat) {k j a : Nat} (h : anc par k j = some a)
    {i : Nat} (hi : i ≤ k) : ∃ x, anc par i j = some x ∧ anc par (k - i) x = some a := by
  have hk : k = i + (k - i) := by omega
  rw [hk, anc_add] at h
  cases hx : anc par i j with
  | none => rw [hx] at h; simp at h
  | some x =>
    rw [hx] at h
    exact ⟨x, rfl, by simpa using h⟩

theorem anc_lt (par : Nat → Option Nat) (n : Nat) (hpar : ∀ j p, par j = some p → p < n)
    {k j a : Nat} (hj : j < n) (h : anc par k j = some a) : a < n := by
  induction k generalizing a with
  | zero =>
    simp only [anc, Option.some.injEq] at h
    omega
  | succ k ih =>
    rw [anc] at h
    cases hx : anc par k j with
    | none => rw [hx] at h; simp at h
    | some x =>
      rw [hx] at h
      exact hpar x a (by simpa using h)

theorem anc_inj (par : Nat → Option Nat) (hac : ∀ i k : Nat, 0 < k → anc par k i ≠ some i)
    {k1 k2 j a : Nat} (h1 : anc par k1 j = some a) (h2 : anc par k2 j = some a) : k1 = k2 := by
  by_contra hne
  rcases Nat.lt_or_gt_of_ne hne with hlt | hlt
  · obtain ⟨x, hx, hxa⟩ := anc_some_of_le par h2 (Nat.le_of_lt hlt)
    rw [h1] at hx
    simp only [Option.some.injEq] at hx
    subst hx
    exact hac a (k2 - k1) (by omega) hxa
  · obtain ⟨x, hx, hxa⟩ := anc_some_of_le par h1 (Nat.le_of_lt hlt)
    rw [h2] at hx
    simp only [Option.some.injEq] at hx
    subst hx
    exact hac a (k1 - k2) (by omega) hxa

/-- A chain of parents without repetition among `n` nodes has fewer than `n`
steps. -/
theorem anc_steps_lt (par : Nat → Option Nat) (n : Nat)
    (hpar : ∀ j p, par j = some p → p < n)
    (hac : ∀ i k : Nat, 0 < k → anc par k i ≠ some i)
    {k j a : Nat} (hj : j < n) (h : anc par k j = some a) : k < n := by
  by_contra hk
  have hk : n ≤ k := by omega
  have hmaps : ∀ i ∈ Finset.range (n + 1), (anc par i j).getD 0 ∈ Finset.range n := by
    intro i hi
    rw [Finset.mem_range] at hi
    obtain ⟨x, hx, _⟩ := anc_some_of_le par h (show i ≤ k by omega)
    rw [hx, Option.getD_some, Finset.mem_range]
    exact anc_lt par n hpar hj hx
  obtain ⟨i1, hi1, i2, hi2, hne, heq⟩ :=
    Finset.exists_ne_map_eq_of_card_lt_of_maps_to (by simp) hmaps
  rw [Finset.mem_range] at hi1 hi2
  obtain ⟨x1, hx1, _⟩ := anc_some_of_le par h (show i1 ≤ k by omega)
  obtain ⟨x2, hx2, _⟩ := anc_some_of_le par h (show i2 ≤ k by omega)
  rw [hx1, hx2] at heq
  simp only [Option.getD_some] at heq
  subst heq
  exact hne (anc_inj par hac hx1 hx2)

theorem mem_reach (h : Heap) (par : Nat → Option Nat)
    (hch : ∀ a j, j ∈ h.childrenAt a ↔ par j = some a) (f a j : Nat) :
    j ∈ h.reach f a ↔ ∃ k, k < f ∧ anc par k j = some a := by
  induction f generalizing a with
  | zero => simp [Heap.reach]
  | succ f ih =>
    rw [Heap.reach, List.mem_cons, List.mem_flatMap]
    constructor
    · rintro (rfl | ⟨c, hc, hj⟩)
      · exact ⟨0, by omega, rfl⟩
      · obtain ⟨k, hk, hkc⟩ := (ih c).mp hj
        refine ⟨k + 1, by omega, ?_⟩
        rw [anc, hkc]
        exact (hch a c).mp hc
    · rintro ⟨k, hk, hka⟩
      cases k with
      | zero =>
        simp only [anc, Option.some.injEq] at hka
        exact Or.inl hka
      | succ k =>
        right
        rw [anc] at hka
        cases hx : anc par k j with
        | none => rw [hx] at hka; simp at hka
        | some c =>
          rw [hx] at hka
          have hpc : par c = some a := by simpa using hka
          exact ⟨c, (hch a c).mpr hpc, (ih c).mpr ⟨k, by omega, hx⟩⟩

theorem nodup_reach (h : Heap) (par : Nat → Option Nat)
    (hch : ∀ a j, j ∈ h.childrenAt a ↔ par j = some a)
    (hnd : ∀ a, (h.childrenAt a).Nodup)
    (hac : ∀ i k : Nat, 0 < k → anc par k i ≠ some i) (f a : Nat) :
    (h.reach f a).Nodup := by
  induction f generalizing a with
  | zero => simp [Heap.reach]
  | succ f ih =>
    rw [Heap.reach, List.nodup_cons, List.nodup_flatMap]
    refine ⟨?_, fun c _ => ih c, ?_⟩
    · rw [List.mem_flatMap]
      rintro ⟨c, hc, ha⟩
      obtain ⟨k, _, hk⟩ := (mem_reach h par hch f c a).mp ha
      apply hac a (k + 1) (by omega)
      rw [anc, hk]
      exact (hch a c).mp hc
    · refine List.Pairwise.imp_of_mem ?_ (hnd a)
      intro c1 c2 hc1 hc2 hne
      rw [Function.onFun, List.disjoint_left]
      intro j hj1 hj2
      obtain ⟨k1, _, hk1⟩ := (mem_reach h par hch f c1 j).mp hj1
      obtain ⟨k2, _, hk2⟩ := (mem_reach h par hch f c2 j).mp hj2
      have h1 : anc par (k1 + 1) j = some a := by
        rw [anc, hk1]; exact (hch a c1).mp hc1
      have h2 : anc par (k2 + 1) j = some a := by
        rw [anc, hk2]; exact (hch a c2).mp hc2
      have hk : k1 = k2 := by
        have := anc_inj par hac h1 h2
        omega
      subst hk
      rw [hk1] at hk2
      exact hne (by simpa using hk2)

theorem exists_root_of_lt (par : Nat → Option Nat) (n : Nat)
    (hpar : ∀ j p, par j = some p → p < n)
    (hac : ∀ i k : Nat, 0 < k → anc par k i ≠ some i) {j : Nat} (hj : j < n) :
    ∃ k, k < n ∧ ∃ r, anc par k j = some r ∧ par r = none := by
  have key : ∀ m, (∃ x, anc par m j = some x) ∨
      ∃ k, k < m ∧ ∃ r, anc par k j = some r ∧ par r = none := by
    intro m
    induction m with
    | zero => exact Or.inl ⟨j, rfl⟩
    | succ m ih =>
      rcases ih with ⟨x, hx⟩ | ⟨k, hk, r, hr, hp⟩
      · cases hp : par x with
        | none => exact Or.inr ⟨m, by omega, x, hx, hp⟩
        | some p => exact Or.inl ⟨p, by rw [anc, hx]; exact hp⟩
      · exact Or.inr ⟨k, by omega, r, hr, hp⟩
  rcases key n with ⟨x, hx⟩ | h
  · exact absurd (anc_steps_lt par n hpar hac hj hx) (by omega)
  · exact h

/-- With a parent function that describes the child lists and the root list
of a heap of `n` nodes and has no cycle, the addresses reached from the roots
are the addresses `0 .. n-1`, each once. -/
theorem reach_roots_perm (h : Heap) (par : Nat → Option Nat) (n : Nat) (roots : List Nat)
    (hpar : ∀ j p, par j = some p → j < n ∧ p < n)
    (hroots : ∀ j, j ∈ roots ↔ j < n ∧ par j = none) (hrnd : roots.Nodup)
    (hch : ∀ a j, j ∈ h.childrenAt a ↔ par j = some a)
    (hnd : ∀ a, (h.childrenAt a).Nodup)
    (hac : ∀ i k : Nat, 0 < k → anc par k i ≠ some i) :
    (roots.flatMap (h.reach n)).Perm (List.range n) := by
  have hpar2 : ∀ j p, par j = some p → p < n := fun j p hp => (hpar j p hp).2
  have hnodup : (roots.flatMap (h.reach n)).Nodup := by
    rw [List.nodup_flatMap]
    refine ⟨fun r _ => nodup_reach h par hch hnd hac n r, ?_⟩
    refine List.Pairwise.imp_of_mem ?_ hrnd
    intro r1 r2 hr1 hr2 hne
    rw [Function.onFun, List.disjoint_left]
    intro j hj1 hj2
    obtain ⟨k1, _, hk1⟩ := (mem_reach h par hch n r1 j).mp hj1
    obtain ⟨k2, _, hk2⟩ := (mem_reach h par hch n r2 j).mp hj2
    have hp1 := ((hroots r1).mp hr1).2
    have hp2 := ((hroots r2).mp hr2).2
    have hnone : ∀ (r d : Nat), par r = none → anc par (d + 1) r = none := by
      intro r d hp
      rw [anc_succ_left, hp]
      rfl
    have hk : k1 = k2 := by
      by_contra hk
      rcases Nat.lt_or_gt_of_ne hk with hlt | hlt
      · obtain ⟨x, hx, hxa⟩ := anc_some_of_le par hk2 (Nat.le_of_lt hlt)
        rw [hk1] at hx
        simp only [Option.some.injEq] at hx
        subst hx
        have : k2 - k1 = (k2 - k1 - 1) + 1 := by omega
        rw [this, hnone r1 _ hp1] at hxa
        simp at hxa
      · obtain ⟨x, hx, hxa⟩ := anc_some_of_le par hk1 (Nat.le_of_lt hlt)
        rw [hk2] at hx
        simp only [Option.some.injEq] at hx
        subst hx
        have : k1 - k2 = (k1 - k2 - 1) + 1 := by omega
        rw [this, hnone r2 _ hp2] at hxa
        simp at hxa
    subst hk
    rw [hk1] at hk2
    exact hne (by simpa using hk2)
  rw [List.perm_ext_iff_of_nodup hnodup (List.nodup_range n)]
  intro j
  rw [List.mem_flatMap, List.mem_range]
  constructor
  · rintro ⟨r, hr, hj⟩
    obtain ⟨k, _, hk⟩ := (mem_reach h par hch n r j).mp hj
    have hrn := ((hroots r).mp hr).1
    cases k with
    | zero =>
      simp only [anc, Option.some.injEq] at hk
      omega
    | succ k =>
      rw [anc_succ_left] at hk
      cases hp : par j with
      | none => rw [hp] at hk; simp at hk
      | some p => exact (hpar j p hp).1
  · intro hj
    obtain ⟨k, hk, r, hr, hp⟩ := exists_root_of_lt par n hpar2 hac hj
    have hrn : r < n := anc_lt par n hpar2 hj hr
    exact ⟨r, (hroots r).mpr ⟨hrn, hp⟩, (mem_reach h par hch n r j).mpr ⟨k, hk, hr⟩⟩

theorem range_filterMap_getElem? {α : Type} (l : List α) :
    (List.range l.length).filterMap (fun j => l[j]?) = l := by
  induction l using List.reverseRecOn with
  | nil => rfl
  | append_singleton l a ih =>
    rw [List.length_append, List.length_singleton, List.range_succ, List.filterMap_append]
    have h1 : (List.range l.length).filterMap (fun j => (l ++ [a])[j]?) =
        (List.range l.length).filterMap (fun j => l[j]?) := by
      apply List.filterMap_congr
      intro j hj
      rw [List.mem_range] at hj
      exact List.getElem?_append_left hj
    rw [h1, ih]
    simp

theorem allSome_map_toTree (h : Heap) (f : Nat) (g : Nat → Option span) (l : List Nat)
    (hl : ∀ c ∈ l, ∃ tr, h.toTree f c = some tr ∧
      tr.preorder.map spanNode.span = (h.reach f c).filterMap g) :
    ∃ trs, allSome (l.map (h.toTree f)) = some trs ∧
      (preorderList trs).map spanNode.span = (l.flatMap (h.reach f)).filterMap g := by
  induction l with
  | nil => exact ⟨[], rfl, rfl⟩
  | cons c cs ih =>
    obtain ⟨tr, htr, hpre⟩ := hl c (List.mem_cons_self _ _)
    obtain ⟨trs, htrs, hpres⟩ := ih (fun c' hc' => hl c' (List.mem_cons_of_mem _ hc'))
    refine ⟨tr :: trs, ?_, ?_⟩
    · simp only [List.map_cons, htr, allSome, htrs]
    · rw [preorderList, List.map_append, hpre, hpres, List.flatMap_cons, List.filterMap_append]

theorem toTree_reach (h : Heap) (par : Nat → Option Nat)
    (hpar : ∀ j p, par j = some p → j < h.length ∧ p < h.length)
    (hch : ∀ a j, j ∈ h.childrenAt a ↔ par j = some a) (f a : Nat) (ha : a < h.length)
    (hdepth : ∀ j k, anc par k j = some a → k < f) :
    ∃ tr, h.toTree f a = some tr ∧
      tr.preorder.map spanNode.span =
        (h.reach f a).filterMap (fun j => (h.map Cell.span)[j]?) := by
  induction f generalizing a with
  | zero => exact absurd (hdepth a 0 rfl) (by omega)
  | succ f ih =>
    have hc : h[a]? = some h[a] := List.getElem?_eq_getElem ha
    have hca : h.childrenAt a = h[a].children := by
      unfold Heap.childrenAt
      rw [hc]
    obtain ⟨trs, htrs, hpres⟩ := allSome_map_toTree h f (fun j => (h.map Cell.span)[j]?)
      h[a].children (by
        intro c hcm
        have hpc : par c = some a := (hch a c).mp (by rw [hca]; exact hcm)
        apply ih c (hpar c a hpc).1
        intro j k hk
        have : anc par (k + 1) j = some a := by rw [anc, hk]; exact hpc
        have := hdepth j (k + 1) this
        omega)
    refine ⟨.mk h[a].span h[a].service trs, ?_, ?_⟩
    · simp only [Heap.toTree, hc, htrs]
    · rw [spanNode.preorder, List.map_cons, hpres, Heap.reach, hca, List.filterMap_cons]
      simp [hc, spanNode.span]

/-- With a parent function that describes the child lists and the root list
of a heap and has no cycle, the forest read off the heap exists and its nodes
wrap the spans of the heap, each once. -/
theorem forest_perm (h : Heap) (par : Nat → Option Nat) (roots : List Nat)
    (hpar : ∀ j p, par j = some p → j < h.length ∧ p < h.length)
    (hroots : ∀ j, j ∈ roots ↔ j < h.length ∧ par j = none) (hrnd : roots.Nodup)
    (hch : ∀ a j, j ∈ h.childrenAt a ↔ par j = some a)
    (hnd : ∀ a, (h.childrenAt a).Nodup)
    (hac : ∀ i k : Nat, 0 < k → anc par k i ≠ some i) :
    ∃ trs, allSome (roots.map (h.toTree h.length)) = some trs ∧
      ((preorderList trs).map spanNode.span).Perm (h.map Cell.span) := by
  obtain ⟨trs, htrs, hpres⟩ := allSome_map_toTree h h.length
    (fun j => (h.map Cell.span)[j]?) roots (by
      intro r hr
      have hrn := ((hroots r).mp hr).1
      apply toTree_reach h par hpar hch h.length r hrn
      intro j k hk
      have hj : j < h.length := by
        cases k with
        | zero =>
          simp only [anc, Option.some.injEq] at hk
          omega
        | succ k =>
          rw [anc_succ_left] at hk
          cases hp : par j with
          | none => rw [hp] at hk; simp at hk
          | some p => exact (hpar j p hp).1
      exact anc_steps_lt par h.length (fun j p hp => (hpar j p hp).2) hac hj hk)
  refine ⟨trs, htrs, ?_⟩
  rw [hpres]
  have hperm := reach_roots_perm h par h.length roots hpar hroots hrnd hch hnd hac
  have h2 := hperm.filterMap (fun j => (h.map Cell.span)[j]?)
  have h3 := range_filterMap_getElem? (h.map Cell.span)
  rw [List.length_map] at h3
  rw [h3] at h2
  exact h2

theorem parentIndex_lt (t : trace) (j p : Nat) (h : parentIndex t j = some p) :
    j < t.Spans.length ∧ p < t.Spans.length := by
  unfold parentIndex at h
  cases hs : t.Spans[j]? with
  | none => rw [hs] at h; simp at h
  | some s =>
    have hj : j < t.Spans.length := (List.getElem?_eq_some.mp hs).1
    rw [hs] at h
    dsimp only at h
    cases hf : firstChildOf s with
    | none => rw [hf] at h; simp at h
    | some tgt =>
      rw [hf] at h
      dsimp only at h
      split at h
      · simp at h
      · split at h
        · rename_i hlt
          simp only [Option.some.injEq] at h
          subst h
          exact ⟨hj, hlt⟩
        · simp at h

theorem attachTarget_eq_parentIndex (t : trace) (hnd : (t.Spans.map span.SpanID).Nodup)
    (i : Nat) (s : span) (hs : t.Spans[i]? = some s) :
    attachTarget (spanMapOf t) s = parentIndex t i := by
  unfold parentIndex
  rw [hs]
  dsimp only
  cases hf : firstChildOf s with
  | none => exact attachTarget_none_of t s (Or.inl hf)
  | some tgt =>
    dsimp only
    by_cases he : tgt = ""
    · rw [if_pos he]
      subst he
      exact attachTarget_none_of t s (Or.inr (Or.inl hf))
    · rw [if_neg he]
      by_cases hlt : (t.Spans.map span.SpanID).indexOf tgt < t.Spans.length
      · rw [if_pos hlt]
        have hlt2 : (t.Spans.map span.SpanID).indexOf tgt < (t.Spans.map span.SpanID).length := by
          simpa using hlt
        have hget := List.getElem_indexOf hlt2
        rw [List.getElem_map] at hget
        exact attachTarget_some_of t hnd s tgt _ _ hf he (List.getElem?_eq_getElem hlt) hget
      · rw [if_neg hlt]
        apply attachTarget_none_of t s
        refine Or.inr (Or.inr ⟨tgt, hf, ?_⟩)
        intro s2 hs2 hid
        apply hlt
        have : tgt ∈ t.Spans.map span.SpanID := List.mem_map.mpr ⟨s2, hs2, hid⟩
        simpa using List.indexOf_lt_length.mpr this

theorem pairwise_id_ne (t : trace) (hnd : (t.Spans.map span.SpanID).Nodup) :
    t.Spans.Pairwise (fun s s2 => s.SpanID ≠ s2.SpanID) := by
  unfold List.Nodup at hnd
  rw [List.pairwise_map] at hnd
  exact hnd

theorem spanMapOf_get_inj (t : trace) {s s2 : span} {b : Nat}
    (h1 : (spanMapOf t).get s.SpanID = some b) (h2 : (spanMapOf t).get s2.SpanID = some b) :
    s.SpanID = s2.SpanID := by
  obtain ⟨x, hx, hxid⟩ := spanMapOf_get_some t _ _ h1
  obtain ⟨y, hy, hyid⟩ := spanMapOf_get_some t _ _ h2
  rw [hx] at hy
  simp only [Option.some.injEq] at hy
  subst hy
  rw [← hxid, hyid]

theorem buildTree_roots_nodup (t : trace) (hnd : (t.Spans.map span.SpanID).Nodup) :
    (buildTree t).roots.Nodup := by
  have hp : (buildTree t).roots.Perm (t.Spans.filterMap (rootSel (spanMapOf t))) :=
    buildTree_roots_perm t
  rw [hp.nodup_iff]
  refine List.Pairwise.filterMap _ ?_ (pairwise_id_ne t hnd)
  intro s s2 hne b hb b2 hb2 heq
  subst heq
  apply hne
  unfold rootSel at hb hb2
  split at hb
  · split at hb2
    · exact spanMapOf_get_inj t hb hb2
    · simp at hb2
  · simp at hb

theorem buildTree_children_nodup (t : trace) (hnd : (t.Spans.map span.SpanID).Nodup)
    (a : Nat) : ((buildTree t).childrenOf a).Nodup := by
  have hp : ((buildTree t).childrenOf a).Perm (t.Spans.filterMap (childSel (spanMapOf t) a)) :=
    buildTree_children_perm t a
  rw [hp.nodup_iff]
  refine List.Pairwise.filterMap _ ?_ (pairwise_id_ne t hnd)
  intro s s2 hne b hb b2 hb2 heq
  subst heq
  apply hne
  unfold childSel at hb hb2
  split at hb
  · split at hb2
    · exact spanMapOf_get_inj t hb hb2
    · simp at hb2
  · simp at hb

theorem buildTree_map_span (t : trace) : (buildTree t).heap.map Cell.span = t.Spans := by
  simp only [buildTree]
  rw [map_span_sortFold, map_span_attachFold, alloc_heap, List.map_map]
  apply List.map_id''
  intro x
  rfl

/-- For a trace with pairwise distinct span identifiers and no cycle of
parent references, the forest of `buildTree` exists and its nodes wrap the
spans of the trace, each once. -/
theorem buildTree_forest_perm (t : trace) (hnd : (t.Spans.map span.SpanID).Nodup)
    (hac : Acyclic t) :
    ∃ f, (buildTree t).forest = some f ∧ (forestSpans f).Perm t.Spans := by
  have hlen := length_buildTree_heap t
  have hmem : ∀ j (s : span), t.Spans[j]? = some s → j < t.Spans.length :=
    fun j s hs => (List.getElem?_eq_some.mp hs).1
  obtain ⟨f, hf, hperm⟩ := forest_perm (buildTree t).heap (parentIndex t) (buildTree t).roots
    (by rw [hlen]; exact parentIndex_lt t)
    (by
      intro j
      rw [hlen, mem_roots_iff t hnd j]
      constructor
      · rintro ⟨s, hs, hnone⟩
        exact ⟨hmem j s hs, by rw [← attachTarget_eq_parentIndex t hnd j s hs]; exact hnone⟩
      · rintro ⟨hj, hnone⟩
        refine ⟨t.Spans[j], List.getElem?_eq_getElem hj, ?_⟩
        rw [attachTarget_eq_parentIndex t hnd j _ (List.getElem?_eq_getElem hj)]
        exact hnone)
    (buildTree_roots_nodup t hnd)
    (by
      intro a j
      have := mem_childrenOf_iff t hnd a j
      rw [BuildResult.childrenOf] at this
      rw [this]
      constructor
      · rintro ⟨s, hs, htgt⟩
        rw [← attachTarget_eq_parentIndex t hnd j s hs]; exact htgt
      · intro hp
        have hj := (parentIndex_lt t j a hp).1
        refine ⟨t.Spans[j], List.getElem?_eq_getElem hj, ?_⟩
        rw [attachTarget_eq_parentIndex t hnd j _ (List.getElem?_eq_getElem hj)]
        exact hp)
    (fun a => buildTree_children_nodup t hnd a)
    hac
  refine ⟨f, hf, ?_⟩
  rw [buildTree_map_span] at hperm
  exact hperm

theorem anc_mul_self (par : Nat → Option Nat) {i k : Nat} (h : anc par k i = some i) (m : Nat) :
    anc par (k * m) i = some i := by
  induction m with
  | zero => rfl
  | succ m ih =>
    rw [Nat.mul_succ, anc_add, ih]
    exact h

/-- A trace in which every chain of parent references ends within as many
steps as there are spans has no cycle. -/
theorem acyclic_of_chains_end (t : trace)
    (h : ∀ i, i < t.Spans.length → anc (parentIndex t) t.Spans.length i = none) :
    Acyclic t := by
  intro i k hk hcyc
  by_cases hi : i < t.Spans.length
  · have h1 := anc_mul_self (parentIndex t) hcyc t.Spans.length
    have hle : t.Spans.length ≤ k * t.Spans.length := Nat.le_mul_of_pos_left _ hk
    obtain ⟨x, hx, _⟩ := anc_some_of_le (parentIndex t) h1 hle
    rw [h i hi] at hx
    simp at hx
  · have hk2 : k = (k - 1) + 1 := by omega
    rw [hk2, anc_succ_left] at hcyc
    cases hp : parentIndex t i with
    | none => rw [hp] at hcyc; simp at hcyc
    | some p => exact hi (parentIndex_lt t i p hp).1

theorem firstChildOf_none_of_noChildOf (s : span)
    (h : ∀ r ∈ s.References, r.RefType ≠ "CHILD_OF") : firstChildOf s = none := by
  unfold firstChildOf
  rw [Option.map_eq_none', List.find?_eq_none]
  intro r hr
  simpa using h r hr

theorem length_filterMap_of_isSome {α β : Type} (f : α → Option β) (l : List α)
    (h : ∀ x ∈ l, (f x).isSome = true) : (l.filterMap f).length = l.length := by
  induction l with
  | nil => rfl
  | cons x xs ih =>
    have hx := h x (List.mem_cons_self _ _)
    obtain ⟨y, hy⟩ := Option.isSome_iff_exists.mp hx
    rw [List.filterMap_cons, hy]
    simp only [List.length_cons]
    rw [ih (fun z hz => h z (List.mem_cons_of_mem _ hz))]

theorem spanMapOf_get_isSome (t : trace) (s : span) (hs : s ∈ t.Spans) :
    ((spanMapOf t).get s.SpanID).isSome = true :=
  allocFold_get_isSome t t.Spans _ s hs

theorem children_nil_of_childrenOf (t : trace) (h : ∀ a, (buildTree t).childrenOf a = []) :
    ∀ c ∈ (buildTree t).heap, c.children = [] := by
  intro c hc
  obtain ⟨a, ha⟩ := List.mem_iff_getElem?.mp hc
  have := h a
  unfold BuildResult.childrenOf Heap.childrenAt at this
  rw [ha] at this
  exact this

/-- Without `CHILD_OF` references the second loop of `buildTree` appends the
node of every span to the root list and nothing to a child list. -/
theorem buildTree_noChildOf (t : trace) (h : NoChildOf t) :
    (buildTree t).roots.Perm (t.Spans.filterMap (fun s => (spanMapOf t).get s.SpanID)) ∧
      ∀ a, (buildTree t).childrenOf a = [] := by
  have htgt : ∀ s ∈ t.Spans, attachTarget (spanMapOf t) s = none := fun s hs =>
    attachTarget_none_of t s (Or.inl (firstChildOf_none_of_noChildOf s (h s hs)))
  constructor
  · have hp : (buildTree t).roots.Perm (t.Spans.filterMap (rootSel (spanMapOf t))) :=
      buildTree_roots_perm t
    refine hp.trans (List.Perm.of_eq ?_)
    apply List.filterMap_congr
    intro s hs
    unfold rootSel
    rw [if_pos (htgt s hs)]
  · intro a
    have hp : ((buildTree t).childrenOf a).Perm
        (t.Spans.filterMap (childSel (spanMapOf t) a)) := buildTree_children_perm t a
    have hnil : t.Spans.filterMap (childSel (spanMapOf t) a) = [] := by
      rw [List.filterMap_eq_nil_iff]
      intro s hs
      unfold childSel
      rw [htgt s hs]
      simp
    rw [hnil] at hp
    exact List.Perm.eq_nil hp

/-! ## Lemmas: services -/

theorem map_service_modify (f : Cell → Cell) (hf : ∀ c, (f c).service = c.service) (a : Nat)
    (h : Heap) : (List.modify f a h).map Cell.service = h.map Cell.service := by
  apply List.ext_getElem?
  intro i
  simp only [List.getElem?_map, List.getElem?_modify]
  cases h[i]? with
  | none => rfl
  | some c => by_cases e : a = i <;> simp [e, hf]

theorem map_service_attachStep (m : SpanMap) (st : Heap × List Nat) (s : span) :
    (attachStep m st s).1.map Cell.service = st.1.map Cell.service := by
  rw [attachStep_eq]
  cases m.get s.SpanID with
  | none => rfl
  | some node =>
    cases attachTarget m s with
    | none => rfl
    | some p =>
      dsimp only
      unfold Heap.appendChild
      apply map_service_modify
      intro c
      rfl

theorem map_service_attachFold (m : SpanMap) (spans : List span) (st : Heap × List Nat) :
    (spans.foldl (attachStep m) st).1.map Cell.service = st.1.map Cell.service := by
  induction spans generalizing st with
  | nil => rfl
  | cons s ss ih => rw [List.foldl_cons, ih, map_service_attachStep]

theorem map_service_sortFold (m : SpanMap) (h : Heap) :
    (m.foldl sortStep h).map Cell.service = h.map Cell.service := by
  induction m generalizing h with
  | nil => rfl
  | cons e m ih =>
    rw [List.foldl_cons, ih]
    unfold sortStep
    apply map_service_modify
    intro c
    rfl

theorem buildTree_map_service (t : trace) :
    (buildTree t).heap.map Cell.service =
      t.Spans.map (fun s => resolveService t s.ProcessID) := by
  simp only [buildTree]
  rw [map_service_sortFold, map_service_attachFold, alloc_heap, List.map_map]
  apply List.map_congr_left
  intro s _
  simp only [Function.comp, newNode, resolveService]

/-- Every node `buildTree` allocates carries the service resolved for the
process of its span. -/
theorem buildTree_service (t : trace) :
    ∀ c ∈ (buildTree t).heap, c.service = resolveService t c.span.ProcessID := by
  intro c hc
  obtain ⟨a, ha⟩ := List.mem_iff_getElem?.mp hc
  have h1 : ((buildTree t).heap.map Cell.service)[a]? = some c.service := by
    rw [List.getElem?_map, ha]; rfl
  have h2 : ((buildTree t).heap.map Cell.span)[a]? = some c.span := by
    rw [List.getElem?_map, ha]; rfl
  rw [buildTree_map_service, List.getElem?_map] at h1
  rw [buildTree_map_span] at h2
  rw [h2] at h1
  simp only [Option.map_some', Option.some.injEq] at h1
  exact h1.symm

theorem allSome_mem {α : Type} (l : List (Option α)) (r : List α) (h : allSome l = some r) :
    ∀ x ∈ r, some x ∈ l := by
  induction l generalizing r with
  | nil =>
    simp only [allSome, Option.some.injEq] at h
    subst h
    simp
  | cons o os ih =>
    cases o with
    | none => simp [allSome] at h
    | some a =>
      rw [allSome] at h
      cases hos : allSome os with
      | none => rw [hos] at h; simp at h
      | some r2 =>
        rw [hos] at h
        simp only [Option.some.injEq] at h
        subst h
        intro x hx
        rcases List.mem_cons.mp hx with rfl | hx2
        · exact List.mem_cons_self _ _
        · exact List.mem_cons_of_mem _ (ih r2 hos x hx2)

/-- The nodes of a tree read off a heap carry the span and the service of
cells of the heap. -/
theorem toTree_nodes (h : Heap) (f a : Nat) (tr : spanNode) (htr : h.toTree f a = some tr) :
    ∀ n ∈ tr.preorder, ∃ c ∈ h, n.span = c.span ∧ n.service = c.service := by
  induction f generalizing a tr with
  | zero => simp [Heap.toTree] at htr
  | succ f ih =>
    rw [Heap.toTree] at htr
    cases hc : h[a]? with
    | none => rw [hc] at htr; simp at htr
    | some c =>
      rw [hc] at htr
      dsimp only at htr
      cases hcs : allSome (c.children.map (Heap.toTree h f)) with
      | none => rw [hcs] at htr; simp at htr
      | some cs =>
        rw [hcs] at htr
        simp only [Option.some.injEq] at htr
        subst htr
        intro n hn
        rw [spanNode.preorder, List.mem_cons] at hn
        rcases hn with rfl | hn
        · exact ⟨c, List.mem_iff_getElem?.mpr ⟨a, hc⟩, rfl, rfl⟩
        · have hsub : ∀ (l : List spanNode), (∀ x ∈ l, some x ∈ c.children.map (Heap.toTree h f)) →
              ∀ n ∈ preorderList l, ∃ c ∈ h, n.span = c.span ∧ n.service = c.service := by
            intro l
            induction l with
            | nil => intro _ n hn; simp [preorderList] at hn
            | cons x xs ihx =>
              intro hl n hn
              rw [preorderList, List.mem_append] at hn
              rcases hn with hn | hn
              · obtain ⟨b, _, hb⟩ := List.mem_map.mp (hl x (List.mem_cons_self _ _))
                exact ih b x hb n hn
              · exact ihx (fun y hy => hl y (List.mem_cons_of_mem _ hy)) n hn
          exact hsub cs (allSome_mem _ cs hcs) n hn

theorem forest_nodes (r : BuildResult) (f : List spanNode) (hf : r.forest = some f) :
    ∀ n ∈ preorderList f, ∃ c ∈ r.heap, n.span = c.span ∧ n.service = c.service := by
  have hmem := allSome_mem _ f hf
  have hsub : ∀ (l : List spanNode),
      (∀ x ∈ l, some x ∈ r.roots.map (Heap.toTree r.heap r.heap.length)) →
      ∀ n ∈ preorderList l, ∃ c ∈ r.heap, n.span = c.span ∧ n.service = c.service := by
    intro l
    induction l with
    | nil => intro _ n hn; simp [preorderList] at hn
    | cons x xs ihx =>
      intro hl n hn
      rw [preorderList, List.mem_append] at hn
      rcases hn with hn | hn
      · obtain ⟨b, _, hb⟩ := List.mem_map.mp (hl x (List.mem_cons_self _ _))
        exact toTree_nodes r.heap _ b x hb n hn
      · exact ihx (fun y hy => hl y (List.mem_cons_of_mem _ hy)) n hn
  exact hsub f hmem

/-! ## Lemmas: argument resolution -/

theorem splitChars_of_not_mem (b : List Char) (hb : '/' ∉ b) : splitChars b = (b, []) := by
  induction b with
  | nil => rfl
  | cons c cs ih =>
    have hc : c ≠ '/' := fun h => hb (h ▸ List.mem_cons_self _ _)
    have hcs : '/' ∉ cs := fun h => hb (List.mem_cons_of_mem _ h)
    rw [splitChars, if_neg hc, ih hcs]

theorem splitChars_append_slash (a b : List Char) (ha : '/' ∉ a) :
    splitChars (a ++ '/' :: b) = (a, (splitChars b).1 :: (splitChars b).2) := by
  induction a with
  | nil => simp [splitChars]
  | cons c cs ih =>
    have hc : c ≠ '/' := fun h => ha (h ▸ List.mem_cons_self _ _)
    have hcs : '/' ∉ cs := fun h => ha (List.mem_cons_of_mem _ h)
    rw [List.cons_append, splitChars, if_neg hc, ih hcs]

theorem rdropWhile_slash_of_not_mem (a b : List Char) (hb : b ≠ []) (hno : '/' ∉ b) :
    (a ++ b).rdropWhile (fun c => c == '/') = a ++ b := by
  rw [List.rdropWhile_eq_self_iff]
  intro hl
  rw [List.getLast_append_of_ne_nil hb]
  have hmem := List.getLast_mem hb
  intro h
  simp only [beq_iff_eq] at h
  exact hno (h ▸ hmem)

/-- The segments of the path `/trace/<id>`, with or without a trailing slash,
after trimming and splitting, when `<id>` is not empty and has no slash. -/
theorem split_trim_trace_path (path id : String) (hid : id ≠ "") (hno : '/' ∉ id.data)
    (hpath : path = "/trace/" ++ id ∨ path = "/trace/" ++ id ++ "/") :
    splitSlash (trimSlashes path) = ["trace", id] := by
  have hidne : id.data ≠ [] := by
    intro h
    apply hid
    cases id
    simp only at h
    subst h
    rfl
  have htrim : trimSlashes path = String.mk ("trace".data ++ '/' :: id.data) := by
    unfold trimSlashes
    congr 1
    rcases hpath with h | h
    · subst h
      have : ("/trace/" ++ id).data = '/' :: (['t', 'r', 'a', 'c', 'e', '/'] ++ id.data) := by
        rw [String.data_append]; rfl
      rw [this, List.dropWhile_cons_of_pos (by decide)]
      have h2 : (['t', 'r', 'a', 'c', 'e', '/'] ++ id.data).dropWhile (fun c => c == '/') =
          ['t', 'r', 'a', 'c', 'e', '/'] ++ id.data := by
        rw [List.cons_append, List.dropWhile_cons_of_neg (by decide)]
      rw [h2, rdropWhile_slash_of_not_mem _ _ hidne hno]
      rfl
    · subst h
      have : ("/trace/" ++ id ++ "/").data =
          '/' :: ((['t', 'r', 'a', 'c', 'e', '/'] ++ id.data) ++ ['/']) := by
        rw [String.data_append, String.data_append]; rfl
      rw [this, List.dropWhile_cons_of_pos (by decide)]
      have h2 : ((['t', 'r', 'a', 'c', 'e', '/'] ++ id.data) ++ ['/']).dropWhile
          (fun c => c == '/') = (['t', 'r', 'a', 'c', 'e', '/'] ++ id.data) ++ ['/'] := by
        rw [List.cons_append, List.cons_append, List.dropWhile_cons_of_neg (by decide)]
      rw [h2, List.rdropWhile_concat_pos _ _ _ (by decide),
        rdropWhile_slash_of_not_mem _ _ hidne hno]
      rfl
  rw [htrim]
  unfold splitSlash
  have hsplit : splitChars ("trace".data ++ '/' :: id.data) = ("trace".data, [id.data]) := by
    rw [splitChars_append_slash _ _ (by decide), splitChars_of_not_mem _ hno]
  show List.map String.mk ((splitChars ("trace".data ++ '/' :: id.data)).1 ::
    (splitChars ("trace".data ++ '/' :: id.data)).2) = _
  rw [hsplit]
  rfl

/-! ## Lemmas: duration formatting -/

theorem roundHalfEven_bounds (n d : Nat) (hd : 0 < d) :
    2 * (d * roundHalfEven n d) ≤ 2 * n + d ∧ 2 * n ≤ 2 * (d * roundHalfEven n d) + d := by
  have h := Nat.div_add_mod n d
  have hr := Nat.mod_lt n hd
  unfold roundHalfEven
  generalize n / d = q at *
  generalize n % d = r at *
  split_ifs <;> (try simp only [Nat.mul_add, Nat.mul_one]) <;> omega

theorem roundHalfEven_mul_self (k d : Nat) (hd : 0 < d) : roundHalfEven (k * d) d = k := by
  unfold roundHalfEven
  rw [Nat.mul_mod_left, Nat.mul_div_cancel _ hd]
  simp [hd]

theorem two_pow_log2Fuel_le : ∀ (fuel n : Nat), 0 < n → 2 ^ log2Fuel fuel n ≤ n
  | 0, n, h => by simpa [log2Fuel] using h
  | fuel + 1, n, h => by
    unfold log2Fuel
    split_ifs with h2
    · simpa using h
    · have := two_pow_log2Fuel_le fuel (n / 2) (by omega)
      rw [pow_succ]
      omega

theorem two_pow_log2_le (n : Nat) (h : 0 < n) : 2 ^ log2 n ≤ n :=
  two_pow_log2Fuel_le n n h

/-- Below `2 ^ 53` the conversion to `float64` is exact. -/
theorem num_ofInt64 (us : Nat) (h0 : 0 < us) (h : us < 2 ^ 53) :
    (Float64.ofInt64 us).num = us * 2 ^ 52 := by
  have hT := two_pow_log2_le us h0
  have he : log2 us ≤ 52 := by
    by_contra hcon
    have : 2 ^ 53 ≤ 2 ^ log2 us := Nat.pow_le_pow_right (by decide) (by omega)
    omega
  unfold Float64.ofInt64 Float64.ofRat Float64.num
  simp only [Nat.div_one, Nat.one_mul]
  have hsplit : us * 2 ^ 52 = us * 2 ^ (52 - log2 us) * 2 ^ log2 us := by
    rw [Nat.mul_assoc, ← pow_add, Nat.sub_add_cancel he]
  rw [hsplit, roundHalfEven_mul_self _ _ (by positivity)]

/-- Below `2 ^ 53` the hundredths printed for `us / (100 * c)` are within half a
hundredth of the exact quotient: `|us - c * H| ≤ c / 2`. -/
theorem hundredths_near (us c : Nat) (hc : c = 10 ∨ c = 10000) (h1 : 100 * c ≤ us)
    (h2 : us < 2 ^ 53) :
    2 * (c * ((Float64.ofInt64 us).divConst (100 * c)).hundredths) ≤ 2 * us + c ∧
      2 * us ≤ 2 * (c * ((Float64.ofInt64 us).divConst (100 * c)).hundredths) + c := by
  have hc0 : 0 < 100 * c := by rcases hc with h | h <;> omega
  have h0 : 0 < us := by omega
  have hq : us * 2 ^ 52 / (2 ^ 52 * (100 * c)) = us / (100 * c) := by
    rw [Nat.mul_comm (2 ^ 52) (100 * c)]
    exact Nat.mul_div_mul_right _ _ (by positivity)
  have hqpos : 0 < us / (100 * c) := Nat.div_pos h1 hc0
  have hT := two_pow_log2_le _ hqpos
  have hT2 : 100 * c * 2 ^ log2 (us / (100 * c)) ≤ us :=
    (Nat.le_div_iff_mul_le hc0).1 hT |>.trans_eq' (Nat.mul_comm _ _)
  unfold Float64.divConst Float64.hundredths
  rw [num_ofInt64 us h0 h2]
  unfold Float64.ofRat Float64.num
  simp only [hq]
  have hTpos : 0 < 2 ^ log2 (us / (100 * c)) := by positivity
  generalize 2 ^ log2 (us / (100 * c)) = T at *
  have hA := roundHalfEven_bounds (us * 2 ^ 52 * 2 ^ 52) (2 ^ 52 * (100 * c) * T) (by positivity)
  generalize roundHalfEven (us * 2 ^ 52 * 2 ^ 52) (2 ^ 52 * (100 * c) * T) = m at *
  have hN : 2 ^ 52 * (100 * c) * T * m = 2 ^ 52 * (100 * c) * (m * T) := by ring
  rw [hN] at hA
  generalize m * T = N at *
  have hB := roundHalfEven_bounds (N * 100) (2 ^ 52) (by positivity)
  generalize roundHalfEven (N * 100) (2 ^ 52) = H at *
  rcases hc with rfl | rfl <;> norm_num at * <;> omega

theorem formatDuration_us (us : Int) (h : us < 1000) :
    formatDuration us = toString us ++ "us" := by
  unfold formatDuration
  rw [if_pos h]

theorem formatDuration_ms (us : Int) (h1 : 1000 ≤ us) (h2 : us < 1000000) :
    formatDuration us =
      fixed2 ((Float64.ofInt64 us.toNat).divConst 1000).hundredths ++ "ms" := by
  unfold formatDuration
  rw [if_neg (by omega), if_pos h2]

theorem formatDuration_s (us : Int) (h1 : 1000000 ≤ us) :
    formatDuration us =
      fixed2 ((Float64.ofInt64 us.toNat).divConst 1000000).hundredths ++ "s" := by
  unfold formatDuration
  rw [if_neg (by omega), if_neg (by omega)]

theorem digitChar_ne_letter (n : Nat) (h : n < 10) :
    Nat.digitChar n ≠ 'm' ∧ Nat.digitChar n ≠ 'u' := by
  interval_cases n <;> decide

/-- A two-character suffix of a list that ends in `[a, b]` is `[a, b]`. -/
theorem suffix_pair_iff (pre : List Char) (a b x y : Char) :
    [x, y] <:+ pre ++ [a, b] ↔ x = a ∧ y = b := by
  constructor
  · intro h
    have h2 : [a, b] <:+ pre ++ [a, b] := List.suffix_append pre [a, b]
    have h3 := List.suffix_of_suffix_length_le h h2 (by simp)
    have h4 := h3.eq_of_length (by simp)
    simpa using h4
  · rintro ⟨rfl, rfl⟩
    exact List.suffix_append pre [x, y]

/-- The text of a number of hundredths ends in a digit. -/
theorem fixed2_data (h : Nat) (sfx : String) :
    (fixed2 h ++ sfx).data =
      ((toString (h / 100)).data ++ ['.', Nat.digitChar (h / 10 % 10)]) ++
        Nat.digitChar (h % 10) :: sfx.data := by
  simp [fixed2, String.data_append]

/-! ## Lemmas: input order -/

theorem anc_none_of_root (par : Nat → Option Nat) {r : Nat} (hr : par r = none) (d : Nat)
    (hd : 0 < d) : anc par d r = none := by
  obtain ⟨e, rfl⟩ : ∃ e, d = e + 1 := ⟨d - 1, by omega⟩
  rw [anc_succ_left, hr]
  rfl

/-- A chain of parents among `n` nodes that ends at a node without parent has
fewer than `n` steps. -/
theorem anc_steps_lt_of_root (par : Nat → Option Nat) (n : Nat)
    (hpar : ∀ j p, par j = some p → p < n)
    {k j r : Nat} (hj : j < n) (h : anc par k j = some r) (hr : par r = none) : k < n := by
  by_contra hk
  have hk : n ≤ k := by omega
  have hmaps : ∀ i ∈ Finset.range (n + 1), (anc par i j).getD 0 ∈ Finset.range n := by
    intro i hi
    rw [Finset.mem_range] at hi
    obtain ⟨x, hx, _⟩ := anc_some_of_le par h (show i ≤ k by omega)
    rw [hx, Option.getD_some, Finset.mem_range]
    exact anc_lt par n hpar hj hx
  obtain ⟨i1, hi1, i2, hi2, hne, heq⟩ :=
    Finset.exists_ne_map_eq_of_card_lt_of_maps_to (by simp) hmaps
  rw [Finset.mem_range] at hi1 hi2
  have key : ∀ a b : Nat, a < b → b ≤ k → ∀ x, anc par a j = some x → anc par b j = some x →
      False := by
    intro a b hab hbk x hxa hxb
    obtain ⟨y, hy, hyr⟩ := anc_some_of_le par h (show a ≤ k by omega)
    obtain ⟨z, hz, hzr⟩ := anc_some_of_le par h hbk
    rw [hxa] at hy
    rw [hxb] at hz
    simp only [Option.some.injEq] at hy hz
    subst hy
    subst hz
    obtain ⟨w, hw, hwr⟩ := anc_some_of_le par hyr (show k - b ≤ k - a by omega)
    rw [hzr] at hw
    simp only [Option.some.injEq] at hw
    subst hw
    rw [anc_none_of_root par hr _ (by omega)] at hwr
    simp at hwr
  obtain ⟨x1, hx1, _⟩ := anc_some_of_le par h (show i1 ≤ k by omega)
  obtain ⟨x2, hx2, _⟩ := anc_some_of_le par h (show i2 ≤ k by omega)
  rw [hx1, hx2] at heq
  simp only [Option.getD_some] at heq
  subst heq
  rcases Nat.lt_or_gt_of_ne hne with hlt | hlt
  · exact key i1 i2 hlt (by omega) x1 hx1 hx2
  · exact key i2 i1 hlt (by omega) x1 hx2 hx1

theorem buildTree_roots_iff_parentIndex (t : trace) (hnd : (t.Spans.map span.SpanID).Nodup)
    (j : Nat) :
    j ∈ (buildTree t).roots ↔ j < t.Spans.length ∧ parentIndex t j = none := by
  rw [mem_roots_iff t hnd j]
  constructor
  · rintro ⟨s, hs, hnone⟩
    exact ⟨(List.getElem?_eq_some.mp hs).1,
      by rw [← attachTarget_eq_parentIndex t hnd j s hs]; exact hnone⟩
  · rintro ⟨hj, hnone⟩
    refine ⟨t.Spans[j], List.getElem?_eq_getElem hj, ?_⟩
    rw [attachTarget_eq_parentIndex t hnd j _ (List.getElem?_eq_getElem hj)]
    exact hnone

theorem buildTree_childrenAt_iff_parentIndex (t : trace)
    (hnd : (t.Spans.map span.SpanID).Nodup) (a j : Nat) :
    j ∈ (buildTree t).heap.childrenAt a ↔ parentIndex t j = some a := by
  have := mem_childrenOf_iff t hnd a j
  rw [BuildResult.childrenOf] at this
  rw [this]
  constructor
  · rintro ⟨s, hs, htgt⟩
    rw [← attachTarget_eq_parentIndex t hnd j s hs]; exact htgt
  · intro hp
    have hj := (parentIndex_lt t j a hp).1
    refine ⟨t.Spans[j], List.getElem?_eq_getElem hj, ?_⟩
    rw [attachTarget_eq_parentIndex t hnd j _ (List.getElem?_eq_getElem hj)]
    exact hp

/-- With pairwise distinct span identifiers the forest can always be read off
the heap: a node on a cycle of parent references is not reachable from a root. -/
theorem buildTree_forest_isSome (t : trace) (hnd : (t.Spans.map span.SpanID).Nodup) :
    ∃ f, (buildTree t).forest = some f := by
  have hlen := length_buildTree_heap t
  have hpar : ∀ j p, parentIndex t j = some p →
      j < (buildTree t).heap.length ∧ p < (buildTree t).heap.length := by
    rw [hlen]; exact parentIndex_lt t
  obtain ⟨trs, htrs, _⟩ := allSome_map_toTree (buildTree t).heap (buildTree t).heap.length
    (fun j => ((buildTree t).heap.map Cell.span)[j]?) (buildTree t).roots (by
      intro r hr
      have hr2 := (buildTree_roots_iff_parentIndex t hnd r).mp hr
      apply toTree_reach (buildTree t).heap (parentIndex t) hpar
        (buildTree_childrenAt_iff_parentIndex t hnd) _ r (by rw [hlen]; exact hr2.1)
      intro j k hk
      have hj : j < (buildTree t).heap.length := by
        cases k with
        | zero =>
          simp only [anc, Option.some.injEq] at hk
          rw [hlen]
          omega
        | succ k =>
          rw [anc_succ_left] at hk
          cases hp : parentIndex t j with
          | none => rw [hp] at hk; simp at hk
          | some p => exact (hpar j p hp).1
      exact anc_steps_lt_of_root (parentIndex t) _ (fun j p hp => (hpar j p hp).2) hj hk hr2.2)
  exact ⟨trs, htrs⟩

theorem attachTarget_eq_some_iff (t : trace) (hnd : (t.Spans.map span.SpanID).Nodup)
    (s : span) (a : Nat) (p : span) (hp : t.Spans[a]? = some p) :
    attachTarget (spanMapOf t) s = some a ↔
      getParentID s ≠ "" ∧ p.SpanID = getParentID s := by
  unfold attachTarget
  constructor
  · intro h
    split at h
    · rename_i hne
      obtain ⟨s2, hs2, hid⟩ := spanMapOf_get_some t _ _ h
      rw [hp] at hs2
      simp only [Option.some.injEq] at hs2
      subst hs2
      exact ⟨by simpa using hne, hid⟩
    · simp at h
  · rintro ⟨hne, hid⟩
    rw [if_pos (by simpa using hne), ← hid]
    exact spanMapOf_get_of_nodup t hnd a p hp

theorem attachTarget_eq_none_iff (t : trace) (s : span) :
    attachTarget (spanMapOf t) s = none ↔
      getParentID s = "" ∨ ∀ s2 ∈ t.Spans, s2.SpanID ≠ getParentID s := by
  unfold attachTarget
  constructor
  · intro h
    by_cases he : getParentID s = ""
    · exact Or.inl he
    · right
      rw [if_pos (by simpa using he)] at h
      intro s2 hs2 hid
      have := spanMapOf_get_isSome t s2 hs2
      rw [hid, h] at this
      simp at this
  · rintro (he | hno)
    · rw [if_neg (by simp [he])]
    · split
      · exact spanMapOf_get_none t _ hno
      · rfl

/-- Two duplicate-free lists with the same elements, both sorted by a key that
tells their elements apart, are equal. -/
theorem eq_of_sorted_of_mem_iff {α : Type} (key : α → Int) (l1 l2 : List α)
    (hnd1 : l1.Nodup) (hnd2 : l2.Nodup) (hmem : ∀ x, x ∈ l1 ↔ x ∈ l2)
    (hinj : ∀ x ∈ l1, ∀ y ∈ l1, key x = key y → x = y)
    (hs1 : l1.Pairwise (fun x y => key x ≤ key y))
    (hs2 : l2.Pairwise (fun x y => key x ≤ key y)) : l1 = l2 := by
  refine List.Perm.eq_of_sorted ?_ hs1 hs2 ((List.perm_ext_iff_of_nodup hnd1 hnd2).mpr hmem)
  intro a b ha hb hab hba
  exact hinj a ha b ((hmem b).mpr hb) (le_antisymm hab hba)

theorem buildTree_startTime_eq (t : trace) (a : Nat) :
    (buildTree t).heap.startTime a = ((t.Spans[a]?).map span.StartTime).getD 0 := by
  have h2 : ((buildTree t).heap.map Cell.span)[a]? = t.Spans[a]? := by
    rw [buildTree_map_span]
  rw [List.getElem?_map] at h2
  unfold Heap.startTime
  rw [← h2]
  cases (buildTree t).heap[a]? <;> rfl

theorem mem_map_roots (t : trace) (hnd : (t.Spans.map span.SpanID).Nodup) (o : Option span) :
    o ∈ (buildTree t).roots.map (fun i => t.Spans[i]?) ↔
      ∃ s, o = some s ∧ s ∈ t.Spans ∧ attachTarget (spanMapOf t) s = none := by
  rw [List.mem_map]
  constructor
  · rintro ⟨i, hi, rfl⟩
    obtain ⟨s, hs, hnone⟩ := (mem_roots_iff t hnd i).mp hi
    exact ⟨s, hs, List.mem_iff_getElem?.mpr ⟨i, hs⟩, hnone⟩
  · rintro ⟨s, rfl, hs, hnone⟩
    obtain ⟨i, hi⟩ := List.mem_iff_getElem?.mp hs
    exact ⟨i, (mem_roots_iff t hnd i).mpr ⟨s, hi, hnone⟩, hi⟩

theorem mem_map_children (t : trace) (hnd : (t.Spans.map span.SpanID).Nodup) (a : Nat)
    (o : Option span) :
    o ∈ ((buildTree t).childrenOf a).map (fun i => t.Spans[i]?) ↔
      ∃ s, o = some s ∧ s ∈ t.Spans ∧ attachTarget (spanMapOf t) s = some a := by
  rw [List.mem_map]
  constructor
  · rintro ⟨i, hi, rfl⟩
    obtain ⟨s, hs, htgt⟩ := (mem_childrenOf_iff t hnd a i).mp hi
    exact ⟨s, hs, List.mem_iff_getElem?.mpr ⟨i, hs⟩, htgt⟩
  · rintro ⟨s, rfl, hs, htgt⟩
    obtain ⟨i, hi⟩ := List.mem_iff_getElem?.mp hs
    exact ⟨i, (mem_childrenOf_iff t hnd a i).mpr ⟨s, hi, htgt⟩, hi⟩

theorem nodup_map_getElem? (t : trace) (hnd : (t.Spans.map span.SpanID).Nodup) (l : List Nat)
    (hl : l.Nodup) (hv : ∀ i ∈ l, i < t.Spans.length) :
    (l.map (fun i => t.Spans[i]?)).Nodup := by
  apply List.Nodup.map_on _ hl
  intro i hi j hj h
  have hi2 := hv i hi
  have hj2 := hv j hj
  rw [List.getElem?_eq_getElem hi2, List.getElem?_eq_getElem hj2] at h
  simp only [Option.some.injEq] at h
  exact nodup_getElem?_inj hnd (List.getElem?_eq_getElem hi2) (List.getElem?_eq_getElem hj2)
    (by rw [h])

/-- Two node lists of the builds of a trace and of a rearrangement of it that
hold the nodes of the same spans, each once, sorted by start time, hold them in
the same order. -/
theorem index_lists_agree (t t2 : trace) (hperm : t2.Spans.Perm t.Spans)
    (hnd : (t.Spans.map span.SpanID).Nodup) (hst : (t.Spans.map span.StartTime).Nodup)
    (l l2 : List Nat) (P : span → Prop)
    (h1 : ∀ o, o ∈ l.map (fun i => t.Spans[i]?) ↔ ∃ s, o = some s ∧ s ∈ t.Spans ∧ P s)
    (h2 : ∀ o, o ∈ l2.map (fun i => t2.Spans[i]?) ↔ ∃ s, o = some s ∧ s ∈ t2.Spans ∧ P s)
    (hn1 : l.Nodup) (hn2 : l2.Nodup)
    (hs1 : List.Sorted
      (fun a b => (buildTree t).heap.startTime a ≤ (buildTree t).heap.startTime b) l)
    (hs2 : List.Sorted
      (fun a b => (buildTree t2).heap.startTime a ≤ (buildTree t2).heap.startTime b) l2) :
    l.map (fun i => t.Spans[i]?) = l2.map (fun i => t2.Spans[i]?) := by
  have hnd2 : (t2.Spans.map span.SpanID).Nodup := ((hperm.map span.SpanID).nodup_iff).mpr hnd
  have hv : ∀ (t : trace) (l : List Nat) (Q : Option span → Prop),
      (∀ o, o ∈ l.map (fun i => t.Spans[i]?) → ∃ s, o = some s ∧ Q o) →
      ∀ i ∈ l, i < t.Spans.length := by
    intro t l Q h i hi
    obtain ⟨s, hs, _⟩ := h _ (List.mem_map.mpr ⟨i, hi, rfl⟩)
    exact (List.getElem?_eq_some.mp hs).1
  apply eq_of_sorted_of_mem_iff (fun o : Option span => (o.map span.StartTime).getD 0)
  · exact nodup_map_getElem? t hnd l hn1 (hv t l (fun _ => True) (fun o ho => by
      obtain ⟨s, hs, _⟩ := (h1 o).mp ho
      exact ⟨s, hs, trivial⟩))
  · exact nodup_map_getElem? t2 hnd2 l2 hn2 (hv t2 l2 (fun _ => True) (fun o ho => by
      obtain ⟨s, hs, _⟩ := (h2 o).mp ho
      exact ⟨s, hs, trivial⟩))
  · intro o
    rw [h1, h2]
    constructor
    · rintro ⟨s, hs, hm, hP⟩
      exact ⟨s, hs, hperm.mem_iff.mpr hm, hP⟩
    · rintro ⟨s, hs, hm, hP⟩
      exact ⟨s, hs, hperm.mem_iff.mp hm, hP⟩
  · intro x hx y hy hxy
    obtain ⟨s, rfl, hs, _⟩ := (h1 x).mp hx
    obtain ⟨s2, rfl, hs2, _⟩ := (h1 y).mp hy
    simp only [Option.map_some', Option.getD_some] at hxy
    rw [List.inj_on_of_nodup_map hst hs hs2 hxy]
  · rw [List.pairwise_map]
    refine List.Pairwise.imp ?_ hs1
    intro a b hab
    rw [buildTree_startTime_eq, buildTree_startTime_eq] at hab
    exact hab
  · rw [List.pairwise_map]
    refine List.Pairwise.imp ?_ hs2
    intro a b hab
    rw [buildTree_startTime_eq, buildTree_startTime_eq] at hab
    exact hab

theorem roots_agree (t t2 : trace) (hperm : t2.Spans.Perm t.Spans)
    (hnd : (t.Spans.map span.SpanID).Nodup) (hst : (t.Spans.map span.StartTime).Nodup) :
    (buildTree t).roots.map (fun i => t.Spans[i]?) =
      (buildTree t2).roots.map (fun i => t2.Spans[i]?) := by
  have hnd2 : (t2.Spans.map span.SpanID).Nodup := ((hperm.map span.SpanID).nodup_iff).mpr hnd
  apply index_lists_agree t t2 hperm hnd hst _ _
    (fun s => getParentID s = "" ∨ ∀ s2 ∈ t.Spans, s2.SpanID ≠ getParentID s)
  · intro o
    rw [mem_map_roots t hnd]
    simp only [attachTarget_eq_none_iff]
  · intro o
    rw [mem_map_roots t2 hnd2]
    simp only [attachTarget_eq_none_iff, hperm.mem_iff]
  · exact buildTree_roots_nodup t hnd
  · exact buildTree_roots_nodup t2 hnd2
  · exact (buildTree_sorted t).1
  · exact (buildTree_sorted t2).1

theorem children_agree (t t2 : trace) (hperm : t2.Spans.Perm t.Spans)
    (hnd : (t.Spans.map span.SpanID).Nodup) (hst : (t.Spans.map span.StartTime).Nodup)
    (a a2 : Nat) (p : span) (ha : t.Spans[a]? = some p) (ha2 : t2.Spans[a2]? = some p) :
    ((buildTree t).childrenOf a).map (fun i => t.Spans[i]?) =
      ((buildTree t2).childrenOf a2).map (fun i => t2.Spans[i]?) := by
  have hnd2 : (t2.Spans.map span.SpanID).Nodup := ((hperm.map span.SpanID).nodup_iff).mpr hnd
  have hsorted : ∀ (t : trace) (a : Nat), List.Sorted
      (fun x y => (buildTree t).heap.startTime x ≤ (buildTree t).heap.startTime y)
      ((buildTree t).childrenOf a) := by
    intro t a
    unfold BuildResult.childrenOf Heap.childrenAt
    cases hc : (buildTree t).heap[a]? with
    | none => exact List.sorted_nil
    | some c => exact (buildTree_sorted t).2 c (List.mem_iff_getElem?.mpr ⟨a, hc⟩)
  apply index_lists_agree t t2 hperm hnd hst _ _
    (fun s => getParentID s ≠ "" ∧ p.SpanID = getParentID s)
  · intro o
    rw [mem_map_children t hnd]
    simp only [attachTarget_eq_some_iff t hnd _ a p ha]
  · intro o
    rw [mem_map_children t2 hnd2]
    simp only [attachTarget_eq_some_iff t2 hnd2 _ a2 p ha2]
  · exact buildTree_children_nodup t hnd a
  · exact buildTree_children_nodup t2 hnd2 a2
  · exact hsorted t a
  · exact hsorted t2 a2

theorem map_congr_of_agree {β : Type} (g g2 : Nat → Option span) (F F2 : Nat → β)
    (hF : ∀ a a2 p, g a = some p → g2 a2 = some p → F a = F2 a2) :
    ∀ (l l2 : List Nat), (∀ i ∈ l, ∃ s, g i = some s) → l.map g = l2.map g2 →
      l.map F = l2.map F2
  | [], [], _, _ => rfl
  | [], _ :: _, _, h => by simp at h
  | _ :: _, [], _, h => by simp at h
  | a :: l, a2 :: l2, hv, h => by
    simp only [List.map_cons, List.cons.injEq] at h ⊢
    obtain ⟨s, hs⟩ := hv a (List.mem_cons_self _ _)
    refine ⟨hF a a2 s hs (by rw [← h.1]; exact hs), ?_⟩
    exact map_congr_of_agree g g2 F F2 hF l l2
      (fun i hi => hv i (List.mem_cons_of_mem _ hi)) h.2

/-- The trees below the nodes of one span in the builds of a trace and of a
rearrangement of it are equal. -/
theorem toTree_agree (t t2 : trace) (hperm : t2.Spans.Perm t.Spans)
    (hproc : t2.Processes = t.Processes)
    (hnd : (t.Spans.map span.SpanID).Nodup) (hst : (t.Spans.map span.StartTime).Nodup)
    (f : Nat) : ∀ (a a2 : Nat) (p : span), t.Spans[a]? = some p → t2.Spans[a2]? = some p →
      (buildTree t).heap.toTree f a = (buildTree t2).heap.toTree f a2 := by
  induction f with
  | zero => intro a a2 p _ _; rfl
  | succ f ih =>
    intro a a2 p ha ha2
    obtain ⟨c, hc, hcs⟩ := buildTree_heap_getElem? t a p ha
    obtain ⟨c2, hc2, hcs2⟩ := buildTree_heap_getElem? t2 a2 p ha2
    have hsv : c.service = c2.service := by
      rw [buildTree_service t c (List.mem_iff_getElem?.mpr ⟨a, hc⟩),
        buildTree_service t2 c2 (List.mem_iff_getElem?.mpr ⟨a2, hc2⟩), hcs, hcs2]
      unfold resolveService
      rw [hproc]
    have hch : c.children = (buildTree t).childrenOf a := by
      unfold BuildResult.childrenOf Heap.childrenAt
      rw [hc]
    have hch2 : c2.children = (buildTree t2).childrenOf a2 := by
      unfold BuildResult.childrenOf Heap.childrenAt
      rw [hc2]
    have hmap : c.children.map ((buildTree t).heap.toTree f) =
        c2.children.map ((buildTree t2).heap.toTree f) := by
      rw [hch, hch2]
      apply map_congr_of_agree (fun i => t.Spans[i]?) (fun i => t2.Spans[i]?) _ _ ih
      · intro i hi
        obtain ⟨s, hs, _⟩ := (mem_childrenOf_iff t hnd a i).mp hi
        exact ⟨s, hs⟩
      · exact children_agree t t2 hperm hnd hst a a2 p ha ha2
    simp only [Heap.toTree, hc, hc2, hmap, hcs, hcs2, hsv]

/-- With pairwise distinct identifiers and start times, the forest of a
rearranged span list is the forest of the span list. -/
theorem forest_agree (t t2 : trace) (hperm : t2.Spans.Perm t.Spans)
    (hproc : t2.Processes = t.Processes)
    (hnd : (t.Spans.map span.SpanID).Nodup) (hst : (t.Spans.map span.StartTime).Nodup) :
    (buildTree t2).forest = (buildTree t).forest := by
  unfold BuildResult.forest
  rw [length_buildTree_heap, length_buildTree_heap, hperm.length_eq]
  congr 1
  symm
  apply map_congr_of_agree (fun i => t.Spans[i]?) (fun i => t2.Spans[i]?) _ _
    (toTree_agree t t2 hperm hproc hnd hst t.Spans.length)
  · intro i hi
    obtain ⟨s, hs, _⟩ := (mem_roots_iff t hnd i).mp hi
    exact ⟨s, hs⟩
  · exact roots_agree t t2 hperm hnd hst

/-- A span whose first `CHILD_OF` reference names a span of the trace is in
the child list of that span, wherever the two stand in the input. -/
theorem child_attached (t : trace) (hnd : (t.Spans.map span.SpanID).Nodup)
    (i a : Nat) (s p : span) (hs : t.Spans[i]? = some s) (hp : t.Spans[a]? = some p)
    (hid : getParentID s = p.SpanID) (hne : p.SpanID ≠ "") :
    i ∈ (buildTree t).childrenOf a := by
  rw [mem_childrenOf_iff t hnd a i]
  refine ⟨s, hs, (attachTarget_eq_some_iff t hnd s a p hp).mpr ⟨?_, hid.symm⟩⟩
  rw [hid]
  exact hne

/-! ## Lemmas: tightening the duration filter -/

theorem matchesSelf_mono (n : spanNode) (cfg : config) (t1 t2 : Int) (h : t1 ≤ t2)
    (h2 : n.matchesSelf { cfg with minDuration := t2 } = true) :
    n.matchesSelf { cfg with minDuration := t1 } = true := by
  unfold spanNode.matchesSelf at h2 ⊢
  dsimp only at h2 ⊢
  by_cases hd : (decide (t2 > 0) && decide (wrap64 (n.span.Duration * 1000) < t2)) = true
  · rw [if_pos hd] at h2
    exact absurd h2 (by simp)
  · rw [if_neg hd] at h2
    have hd1 : ¬ (decide (t1 > 0) && decide (wrap64 (n.span.Duration * 1000) < t1)) = true := by
      simp only [Bool.and_eq_true, decide_eq_true_eq, not_and, not_lt] at hd ⊢
      intro h1
      have := hd (by omega)
      omega
    rw [if_neg hd1]
    exact h2

theorem matchesFilter_mono (n : spanNode) (cfg : config) (t1 t2 : Int) (h : t1 ≤ t2)
    (h2 : n.matchesFilter { cfg with minDuration := t2 } = true) :
    n.matchesFilter { cfg with minDuration := t1 } = true := by
  rw [matchesFilter_iff_aux] at h2 ⊢
  rcases h2 with hs | ⟨m, hd, hs⟩
  · exact Or.inl (matchesSelf_mono n cfg t1 t2 h hs)
  · exact Or.inr ⟨m, hd, matchesSelf_mono m cfg t1 t2 h hs⟩

theorem printRoots_sublist_of_le (roots : List spanNode) (st : Int) (cfg : config)
    (t1 t2 : Int) (h : t1 ≤ t2) :
    (printRoots roots st { cfg with minDuration := t2 }).Sublist
      (printRoots roots st { cfg with minDuration := t1 }) := by
  rw [printRoots_eq_filter, printRoots_eq_filter]
  apply List.monotone_filter_right
  intro l hl
  simp only [keepLine, Bool.and_eq_true] at hl ⊢
  exact ⟨hl.1, matchesFilter_mono l.node cfg t1 t2 h hl.2⟩

/-! ## Lemmas: segments of a path -/

theorem splitChars_no_slash (l : List Char) :
    '/' ∉ (splitChars l).1 ∧ ∀ p ∈ (splitChars l).2, '/' ∉ p := by
  induction l with
  | nil => simp [splitChars]
  | cons c cs ih =>
    rw [splitChars]
    by_cases hc : c = '/'
    · rw [if_pos hc]
      refine ⟨by simp, ?_⟩
      intro p hp
      rcases List.mem_cons.mp hp with rfl | hp
      · exact ih.1
      · exact ih.2 p hp
    · rw [if_neg hc]
      refine ⟨?_, ih.2⟩
      intro h
      rcases List.mem_cons.mp h with h | h
      · exact hc h.symm
      · exact ih.1 h

/-- No piece of `strings.Split(s, "/")` contains a slash. -/
theorem splitSlash_no_slash (s : String) : ∀ p ∈ splitSlash s, '/' ∉ p.data := by
  intro p hp
  unfold splitSlash at hp
  obtain ⟨q, hq, rfl⟩ := List.mem_map.mp hp
  have h := splitChars_no_slash s.data
  rcases List.mem_cons.mp hq with rfl | hq
  · exact h.1
  · exact h.2 q hq

/-- The result of `parseInput` on its trace-URL branch. -/
theorem parseInput_recognised (urlParse : String → Option URL) (input defaultURL : String)
    (u : URL) (p1 : String) (rest : List String) (hu : urlParse input = some u)
    (hs : u.Scheme ≠ "") (hp : splitSlash (trimSlashes u.Path) = "trace" :: p1 :: rest) :
    parseInput urlParse input defaultURL = (u.Scheme ++ "://" ++ u.Host, p1) := by
  unfold parseInput
  rw [hu]
  dsimp only
  rw [if_neg (by simpa using hs), hp]
  dsimp only
  rw [if_pos (by decide)]

/-! ## Lemmas: output -/

mutual
theorem printNodeText_eq_map (lib : Library) (n : spanNode) (d : Nat) (st : Int)
    (cfg : config) :
    printNodeText lib n d st cfg =
      (printNode n d st cfg).map (fun l => lineOf lib l.node l.depth st cfg) := by
  match n with
  | .mk s sv cs =>
    rw [printNodeText, printNode]
    split_ifs
    · rfl
    · rfl
    · rw [List.map_cons, printNodeChildrenText_eq_map lib cs (d + 1) st cfg]
theorem printNodeChildrenText_eq_map (lib : Library) (cs : List spanNode) (d : Nat) (st : Int)
    (cfg : config) :
    printNodeChildrenText lib cs d st cfg =
      (printNodeChildren cs d st cfg).map (fun l => lineOf lib l.node l.depth st cfg) := by
  match cs with
  | [] => rfl
  | c :: cs =>
    rw [printNodeChildrenText, printNodeChildren, List.map_append,
      printNodeText_eq_map lib c d st cfg, printNodeChildrenText_eq_map lib cs d st cfg]
end

/-- The text `printRoots` writes is the text of the lines it visits. -/
theorem printRootsText_eq_map (lib : Library) (roots : List spanNode) (st : Int)
    (cfg : config) :
    printRootsText lib roots st cfg =
      (printRoots roots st cfg).map (fun l => lineOf lib l.node l.depth st cfg) := by
  induction roots with
  | nil => rfl
  | cons r rs ih =>
    rw [printRootsText, printRoots, List.map_append, printNodeText_eq_map, ih]

theorem foldl_append_replicate_data (k : Nat) (acc : String) :
    ((List.replicate k "  ").foldl (fun a b => a ++ b) acc).data =
      acc.data ++ List.replicate (2 * k) ' ' := by
  induction k generalizing acc with
  | zero => simp
  | succ k ih =>
    rw [List.replicate_succ, List.foldl_cons, ih, String.data_append, List.append_assoc]
    congr 1

/-- The indentation of depth `k` is `2 * k` spaces. -/
theorem indentOf_eq (k : Nat) : indentOf k = String.mk (List.replicate (2 * k) ' ') := by
  apply String.ext
  unfold indentOf String.join
  rw [foldl_append_replicate_data]
  rfl

theorem wrap64_of_isInt64 (x : Int) (h : isInt64 x) : wrap64 x = x := by
  unfold isInt64 at h
  unfold wrap64
  omega

/-- The line of a node in text mode with relative timestamps. -/
theorem lineOf_relative (lib : Library) (node : spanNode) (k : Nat) (st : Int) (cfg : config)
    (hj : cfg.jsonOutput = false) (hr : cfg.relativeTime = true) :
    lineOf lib node k st cfg =
      String.mk (List.replicate (2 * k) ' ') ++ node.span.OperationName ++ " " ++
        "[" ++ node.service ++ "]" ++ " " ++
        "+" ++ formatDuration (relOffset node st) ++ " " ++
        formatDuration node.span.Duration ++ "\n" := by
  unfold lineOf
  simp only [hj, hr, Bool.false_eq_true, if_false, if_true, indentOf_eq]
  apply String.ext
  simp only [String.data_append, List.append_assoc]
  rfl

/-- The line of a node in JSON mode. -/
theorem lineOf_json (lib : Library) (node : spanNode) (k : Nat) (st : Int) (cfg : config)
    (hj : cfg.jsonOutput = true) :
    lineOf lib node k st cfg =
      String.mk (List.replicate (2 * k) ' ') ++ node.span.OperationName ++ " " ++
        lib.jsonMarshal (outRecord node (formatDuration node.span.Duration)) ++ "\n" := by
  unfold lineOf
  simp only [hj, if_true, indentOf_eq]

/-! ## Lemmas: tag map -/

theorem TagMap.get_set (m : TagMap) (k k2 : String) (v : TagValue) :
    (m.set k v).get k2 = if k = k2 then some v else m.get k2 := by
  induction m with
  | nil =>
    by_cases h : k = k2
    · subst h
      simp [TagMap.set, TagMap.get, List.lookup]
    · have : (k2 == k) = false := by simpa using fun e => h e.symm
      simp [TagMap.set, TagMap.get, List.lookup, this, h]
  | cons e m ih =>
    obtain ⟨k', v'⟩ := e
    unfold TagMap.get at ih ⊢
    by_cases hk : k' = k
    · subst hk
      by_cases h : k' = k2
      · subst h
        simp [TagMap.set, List.lookup]
      · have : (k2 == k') = false := by simpa using fun e => h e.symm
        simp [TagMap.set, List.lookup, this, h]
    · have hk3 : (k' == k) = false := by simpa using hk
      simp only [TagMap.set, hk3, Bool.false_eq_true, if_false, List.lookup]
      cases h : k2 == k'
      · exact ih
      · have h2 : k2 = k' := by simpa using h
        subst h2
        have : ¬ k = k2 := fun e => hk e.symm
        simp [this]

theorem TagMap.keys_set (m : TagMap) (k : String) (v : TagValue) :
    (m.set k v).map Prod.fst =
      if k ∈ m.map Prod.fst then m.map Prod.fst else m.map Prod.fst ++ [k] := by
  induction m with
  | nil => simp [TagMap.set]
  | cons e m ih =>
    obtain ⟨k', v'⟩ := e
    by_cases hk : k' = k
    · subst hk
      simp [TagMap.set]
    · have hk3 : (k' == k) = false := by simpa using hk
      have hk4 : ¬ k = k' := fun e => hk e.symm
      simp only [TagMap.set, hk3, Bool.false_eq_true, if_false, List.map_cons, ih,
        List.mem_cons, hk4, false_or]
      split_ifs <;> simp

theorem TagMap.nodup_keys_set (m : TagMap) (k : String) (v : TagValue)
    (h : (m.map Prod.fst).Nodup) : ((m.set k v).map Prod.fst).Nodup := by
  rw [TagMap.keys_set]
  split_ifs with hk
  · exact h
  · rw [List.nodup_append]
    refine ⟨h, List.nodup_singleton _, ?_⟩
    intro a ha hb
    simp only [List.mem_singleton] at hb
    subst hb
    exact hk ha

theorem TagMap.mem_keys_set (m : TagMap) (k k2 : String) (v : TagValue) :
    k2 ∈ (m.set k v).map Prod.fst ↔ k2 ∈ m.map Prod.fst ∨ k2 = k := by
  rw [TagMap.keys_set]
  split_ifs with hk
  · constructor
    · exact Or.inl
    · rintro (h | rfl)
      · exact h
      · exact hk
  · simp

theorem tagFold_nodup (ts : List tag) (m : TagMap) (h : (m.map Prod.fst).Nodup) :
    ((ts.foldl (fun m t => m.set t.Key t.Value) m).map Prod.fst).Nodup := by
  induction ts generalizing m with
  | nil => exact h
  | cons t ts ih => exact ih _ (TagMap.nodup_keys_set m _ _ h)

theorem tagFold_mem_keys (ts : List tag) (m : TagMap) (k : String) :
    k ∈ (ts.foldl (fun m t => m.set t.Key t.Value) m).map Prod.fst ↔
      k ∈ m.map Prod.fst ∨ ∃ t ∈ ts, t.Key = k := by
  induction ts generalizing m with
  | nil => simp
  | cons t ts ih =>
    rw [List.foldl_cons, ih, TagMap.mem_keys_set]
    constructor
    · rintro ((h | rfl) | ⟨t2, ht2, hk⟩)
      · exact Or.inl h
      · exact Or.inr ⟨t, List.mem_cons_self _ _, rfl⟩
      · exact Or.inr ⟨t2, List.mem_cons_of_mem _ ht2, hk⟩
    · rintro (h | ⟨t2, ht2, hk⟩)
      · exact Or.inl (Or.inl h)
      · rcases List.mem_cons.mp ht2 with rfl | ht2
        · exact Or.inl (Or.inr hk.symm)
        · exact Or.inr ⟨t2, ht2, hk⟩

theorem tagFold_get (ts : List tag) (m : TagMap) (k : String) :
    (ts.foldl (fun m t => m.set t.Key t.Value) m).get k =
      match ts.reverse.find? (fun t => t.Key == k) with
      | some t => some t.Value
      | none => m.get k := by
  induction ts generalizing m with
  | nil => rfl
  | cons t ts ih =>
    rw [List.foldl_cons, ih, List.reverse_cons, List.find?_append]
    cases hf : ts.reverse.find? (fun t => t.Key == k) with
    | some t2 => rfl
    | none =>
      simp only [Option.none_or, TagMap.get_set, List.find?_cons, List.find?_nil]
      by_cases hk : t.Key = k
      · simp [hk]
      · have : (t.Key == k) = false := by simpa using hk
        simp [hk, this]

/-! ## Lemmas: trace start time -/

theorem allocFold_startTime_min (t : trace) (spans : List span) (st : BuildState)
    (h0 : st.startTime ≠ 0) (hs : ∀ s ∈ spans, s.StartTime ≠ 0) :
    (spans.foldl (allocStep t) st).startTime ≠ 0 ∧
    (spans.foldl (allocStep t) st).startTime ≤ st.startTime ∧
    (∀ s ∈ spans, (spans.foldl (allocStep t) st).startTime ≤ s.StartTime) ∧
    ((spans.foldl (allocStep t) st).startTime = st.startTime ∨
      ∃ s ∈ spans, (spans.foldl (allocStep t) st).startTime = s.StartTime) := by
  induction spans generalizing st with
  | nil => exact ⟨h0, le_refl _, by simp, Or.inl rfl⟩
  | cons s spans ih =>
    have hs0 : s.StartTime ≠ 0 := hs s (List.mem_cons_self _ _)
    have hstep : (allocStep t st s).startTime =
        if s.StartTime < st.startTime then s.StartTime else st.startTime := by
      simp [allocStep, h0]
    have hne : (allocStep t st s).startTime ≠ 0 := by
      rw [hstep]; split_ifs <;> assumption
    obtain ⟨h1, h2, h3, h4⟩ := ih (allocStep t st s) hne
      (fun s2 hs2 => hs s2 (List.mem_cons_of_mem _ hs2))
    rw [List.foldl_cons]
    have hle : (allocStep t st s).startTime ≤ st.startTime ∧
        (allocStep t st s).startTime ≤ s.StartTime := by
      rw [hstep]; split_ifs <;> constructor <;> omega
    refine ⟨h1, le_trans h2 hle.1, ?_, ?_⟩
    · intro s2 hs2
      rcases List.mem_cons.mp hs2 with rfl | hs2
      · exact le_trans h2 hle.2
      · exact h3 s2 hs2
    · rcases h4 with h4 | ⟨s2, hs2, h4⟩
      · rw [h4, hstep]
        split_ifs
        · exact Or.inr ⟨s, List.mem_cons_self _ _, rfl⟩
        · exact Or.inl rfl
      · exact Or.inr ⟨s2, List.mem_cons_of_mem _ hs2, h4⟩

/-- When no span starts at 0, the start time `buildTree` returns for a
non-empty trace is the least start time of its spans. -/
theorem buildTree_startTime_min (t : trace) (hne : t.Spans ≠ [])
    (hs : ∀ s ∈ t.Spans, s.StartTime ≠ 0) :
    (∃ s ∈ t.Spans, (buildTree t).startTime = s.StartTime) ∧
    ∀ s ∈ t.Spans, (buildTree t).startTime ≤ s.StartTime := by
  have hst : (buildTree t).startTime =
      (t.Spans.foldl (allocStep t) { heap := [], spanMap := [], startTime := 0 }).startTime :=
    rfl
  rw [hst]
  cases hsp : t.Spans with
  | nil => exact absurd hsp hne
  | cons s0 rest =>
    rw [hsp] at hs
    have hs0 : s0.StartTime ≠ 0 := hs s0 (List.mem_cons_self _ _)
    rw [List.foldl_cons]
    have hfirst : (allocStep t { heap := [], spanMap := [], startTime := 0 } s0).startTime =
        s0.StartTime := by
      simp [allocStep]
    obtain ⟨_, h2, h3, h4⟩ := allocFold_startTime_min t rest
      (allocStep t { heap := [], spanMap := [], startTime := 0 } s0) (by rw [hfirst]; exact hs0)
      (fun s2 hs2 => hs s2 (List.mem_cons_of_mem _ hs2))
    rw [hfirst] at h2 h4
    constructor
    · rcases h4 with h4 | ⟨s2, hs2, h4⟩
      · exact ⟨s0, List.mem_cons_self _ _, h4⟩
      · exact ⟨s2, List.mem_cons_of_mem _ hs2, h4⟩
    · intro s hsm
      rcases List.mem_cons.mp hsm with rfl | hsm
      · exact h2
      · exact h3 s hsm

theorem buildTree_startTime_perm (t t2 : trace) (hperm : t2.Spans.Perm t.Spans)
    (hne : t.Spans ≠ []) (hs : ∀ s ∈ t.Spans, s.StartTime ≠ 0) :
    (buildTree t2).startTime = (buildTree t).startTime := by
  have hne2 : t2.Spans ≠ [] := by
    intro h
    rw [h] at hperm
    exact hne (List.Perm.nil_eq hperm).symm
  obtain ⟨⟨s, hs1, he1⟩, hm1⟩ := buildTree_startTime_min t hne hs
  obtain ⟨⟨s2, hs2, he2⟩, hm2⟩ := buildTree_startTime_min t2 hne2
    (fun s hs' => hs s (hperm.mem_iff.mp hs'))
  apply le_antisymm
  · rw [he1]
    exact hm2 s (hperm.mem_iff.mpr hs1)
  · rw [he2]
    exact hm1 s2 (hperm.mem_iff.mp hs2)

/-! ## Lemmas: the part of the heap below the roots -/

/-- A node from which the chain of parents ends at a node without parent is
not its own ancestor. -/
theorem anc_ne_self_of_root (par : Nat → Option Nat) {x r m : Nat}
    (hx : anc par m x = some r) (hr : par r = none) (d : Nat) (hd : 0 < d) :
    anc par d x ≠ some x := by
  intro hcyc
  have h1 := anc_mul_self par hcyc (m + 1)
  have hlt : m < d * (m + 1) := by
    have : 1 * (m + 1) ≤ d * (m + 1) := Nat.mul_le_mul_right _ hd
    omega
  obtain ⟨y, hy, hyx⟩ := anc_some_of_le par h1 (Nat.le_of_lt hlt)
  rw [hx] at hy
  simp only [Option.some.injEq] at hy
  subst hy
  rw [anc_none_of_root par hr _ (by omega)] at hyx
  simp at hyx

theorem anc_inj_of_root (par : Nat → Option Nat) {a r m : Nat}
    (ha : anc par m a = some r) (hr : par r = none)
    {k1 k2 j : Nat} (h1 : anc par k1 j = some a) (h2 : anc par k2 j = some a) : k1 = k2 := by
  by_contra hne
  rcases Nat.lt_or_gt_of_ne hne with hlt | hlt
  · obtain ⟨x, hx, hxa⟩ := anc_some_of_le par h2 (Nat.le_of_lt hlt)
    rw [h1] at hx
    simp only [Option.some.injEq] at hx
    subst hx
    exact anc_ne_self_of_root par ha hr (k2 - k1) (by omega) hxa
  · obtain ⟨x, hx, hxa⟩ := anc_some_of_le par h1 (Nat.le_of_lt hlt)
    rw [h2] at hx
    simp only [Option.some.injEq] at hx
    subst hx
    exact anc_ne_self_of_root par ha hr (k1 - k2) (by omega) hxa

/-- Below a node whose chain of parents ends at a root, no address is met
twice. -/
theorem nodup_reach_of_root (h : Heap) (par : Nat → Option Nat)
    (hch : ∀ a j, j ∈ h.childrenAt a ↔ par j = some a)
    (hnd : ∀ a, (h.childrenAt a).Nodup) (f : Nat) :
    ∀ (a r m : Nat), anc par m a = some r → par r = none → (h.reach f a).Nodup := by
  induction f with
  | zero => intro a r m _ _; simp [Heap.reach]
  | succ f ih =>
    intro a r m ha hr
    rw [Heap.reach, List.nodup_cons, List.nodup_flatMap]
    refine ⟨?_, ?_, ?_⟩
    · rw [List.mem_flatMap]
      rintro ⟨c, hc, hac⟩
      obtain ⟨k, _, hk⟩ := (mem_reach h par hch f c a).mp hac
      apply anc_ne_self_of_root par ha hr (k + 1) (by omega)
      rw [anc, hk]
      exact (hch a c).mp hc
    · intro c hc
      apply ih c r (m + 1) _ hr
      rw [anc_succ_left, (hch a c).mp hc]
      exact ha
    · refine List.Pairwise.imp_of_mem ?_ (hnd a)
      intro c1 c2 hc1 hc2 hne
      rw [Function.onFun, List.disjoint_left]
      intro j hj1 hj2
      obtain ⟨k1, _, hk1⟩ := (mem_reach h par hch f c1 j).mp hj1
      obtain ⟨k2, _, hk2⟩ := (mem_reach h par hch f c2 j).mp hj2
      have h1 : anc par (k1 + 1) j = some a := by
        rw [anc, hk1]; exact (hch a c1).mp hc1
      have h2 : anc par (k2 + 1) j = some a := by
        rw [anc, hk2]; exact (hch a c2).mp hc2
      have hk : k1 = k2 := by
        have := anc_inj_of_root par ha hr h1 h2
        omega
      subst hk
      rw [hk1] at hk2
      exact hne (by simpa using hk2)

/-- From the roots, no address is met twice, whatever the depth followed. -/
theorem nodup_reach_roots (h : Heap) (par : Nat → Option Nat) (roots : List Nat)
    (hroots : ∀ j ∈ roots, par j = none) (hrnd : roots.Nodup)
    (hch : ∀ a j, j ∈ h.childrenAt a ↔ par j = some a)
    (hnd : ∀ a, (h.childrenAt a).Nodup) (f : Nat) :
    (roots.flatMap (h.reach f)).Nodup := by
  rw [List.nodup_flatMap]
  refine ⟨fun r hr => nodup_reach_of_root h par hch hnd f r r 0 rfl (hroots r hr), ?_⟩
  refine List.Pairwise.imp_of_mem ?_ hrnd
  intro r1 r2 hr1 hr2 hne
  rw [Function.onFun, List.disjoint_left]
  intro j hj1 hj2
  obtain ⟨k1, _, hk1⟩ := (mem_reach h par hch f r1 j).mp hj1
  obtain ⟨k2, _, hk2⟩ := (mem_reach h par hch f r2 j).mp hj2
  have hp1 := hroots r1 hr1
  have hp2 := hroots r2 hr2
  have hk : k1 = k2 := by
    by_contra hk
    rcases Nat.lt_or_gt_of_ne hk with hlt | hlt
    · obtain ⟨x, hx, hxa⟩ := anc_some_of_le par hk2 (Nat.le_of_lt hlt)
      rw [hk1] at hx
      simp only [Option.some.injEq] at hx
      subst hx
      rw [anc_none_of_root par hp1 _ (by omega)] at hxa
      simp at hxa
    · obtain ⟨x, hx, hxa⟩ := anc_some_of_le par hk1 (Nat.le_of_lt hlt)
      rw [hk2] at hx
      simp only [Option.some.injEq] at hx
      subst hx
      rw [anc_none_of_root par hp2 _ (by omega)] at hxa
      simp at hxa
  subst hk
  rw [hk1] at hk2
  exact hne (by simpa using hk2)

/-- A node met from the roots is not met again below itself. -/
theorem not_mem_reach_self (h : Heap) (par : Nat → Option Nat) (roots : List Nat)
    (hroots : ∀ j ∈ roots, par j = none)
    (hch : ∀ a j, j ∈ h.childrenAt a ↔ par j = some a) (f f2 a : Nat)
    (ha : a ∈ roots.flatMap (h.reach f)) :
    a ∉ (h.childrenAt a).flatMap (h.reach f2) := by
  rw [List.mem_flatMap] at ha
  obtain ⟨r, hr, har⟩ := ha
  obtain ⟨m, _, hm⟩ := (mem_reach h par hch f r a).mp har
  rw [List.mem_flatMap]
  rintro ⟨c, hc, hac⟩
  obtain ⟨k, _, hk⟩ := (mem_reach h par hch f2 c a).mp hac
  apply anc_ne_self_of_root par hm (hroots r hr) (k + 1) (by omega)
  rw [anc, hk]
  exact (hch a c).mp hc

theorem allSome_map_congr {α β : Type} (g g2 : α → Option β) (l : List α) (r : List β)
    (h : allSome (l.map g) = some r) (hg : ∀ a ∈ l, ∀ b, g a = some b → g2 a = some b) :
    allSome (l.map g2) = some r := by
  induction l generalizing r with
  | nil => exact h
  | cons a l ih =>
    rw [List.map_cons] at h ⊢
    cases ha : g a with
    | none => rw [ha] at h; simp [allSome] at h
    | some b =>
      rw [ha] at h
      rw [hg a (List.mem_cons_self _ _) b ha]
      simp only [allSome] at h ⊢
      cases hl : allSome (l.map g) with
      | none => rw [hl] at h; simp at h
      | some r2 =>
        rw [hl] at h
        rw [ih r2 hl (fun a2 ha2 => hg a2 (List.mem_cons_of_mem _ ha2))]
        exact h

/-- More fuel does not change a tree that was read off the heap. -/
theorem toTree_succ (h : Heap) (f : Nat) :
    ∀ (a : Nat) (tr : spanNode), h.toTree f a = some tr → h.toTree (f + 1) a = some tr := by
  induction f with
  | zero => intro a tr htr; simp [Heap.toTree] at htr
  | succ f ih =>
    intro a tr htr
    rw [Heap.toTree] at htr ⊢
    cases hc : h[a]? with
    | none => rw [hc] at htr; simp at htr
    | some c =>
      rw [hc] at htr
      dsimp only at htr ⊢
      cases hcs : allSome (c.children.map (h.toTree f)) with
      | none => rw [hcs] at htr; simp at htr
      | some cs =>
        rw [hcs] at htr
        rw [allSome_map_congr _ (h.toTree (f + 1)) _ cs hcs (fun a2 _ b hb => ih a2 b hb)]
        exact htr

theorem toTree_add (h : Heap) (f e a : Nat) (tr : spanNode) (htr : h.toTree f a = some tr) :
    h.toTree (f + e) a = some tr := by
  induction e with
  | zero => exact htr
  | succ e ih => exact toTree_succ h (f + e) a tr ih

/-- With pairwise distinct identifiers every span has one position: its node
is in the root list and in no child list, or in exactly one child list and
not in the root list. -/
theorem buildTree_position (t : trace) (hnd : (t.Spans.map span.SpanID).Nodup) (j : Nat)
    (hj : j < t.Spans.length) :
    (j ∈ (buildTree t).roots ∧ ∀ a, j ∉ (buildTree t).childrenOf a) ∨
    (j ∉ (buildTree t).roots ∧
      ∃ a, j ∈ (buildTree t).childrenOf a ∧ ∀ b, j ∈ (buildTree t).childrenOf b → b = a) := by
  have hr := buildTree_roots_iff_parentIndex t hnd j
  have hc : ∀ a, j ∈ (buildTree t).childrenOf a ↔ parentIndex t j = some a :=
    fun a => buildTree_childrenAt_iff_parentIndex t hnd a j
  cases hp : parentIndex t j with
  | none =>
    left
    refine ⟨hr.mpr ⟨hj, hp⟩, ?_⟩
    intro a ha
    rw [hc a, hp] at ha
    simp at ha
  | some p =>
    right
    refine ⟨?_, p, (hc p).mpr hp, ?_⟩
    · intro h
      rw [(hr.mp h).2] at hp
      simp at hp
    · intro b hb
      rw [hc b, hp] at hb
      simpa using hb.symm

/-- With pairwise distinct identifiers and no cycle of parent references, the
addresses met from the roots are all the addresses, each once. -/
theorem buildTree_reach_perm (t : trace) (hnd : (t.Spans.map span.SpanID).Nodup)
    (hac : Acyclic t) :
    ((buildTree t).roots.flatMap ((buildTree t).heap.reach t.Spans.length)).Perm
      (List.range t.Spans.length) :=
  reach_roots_perm (buildTree t).heap (parentIndex t) t.Spans.length (buildTree t).roots
    (parentIndex_lt t) (buildTree_roots_iff_parentIndex t hnd) (buildTree_roots_nodup t hnd)
    (buildTree_childrenAt_iff_parentIndex t hnd)
    (fun a => buildTree_children_nodup t hnd a) hac

theorem forest_add_fuel (t : trace) (f : List spanNode) (hf : (buildTree t).forest = some f)
    (e : Nat) :
    allSome ((buildTree t).roots.map
      ((buildTree t).heap.toTree ((buildTree t).heap.length + e))) = some f :=
  allSome_map_congr _ _ _ f hf (fun a _ b hb => toTree_add _ _ e a b hb)

/-! ## Lemmas: end to end -/

theorem pair_sublist_of_sorted {α : Type} (key : α → Int) (l : List α)
    (hs : l.Pairwise (fun x y => key x ≤ key y)) (x y : α) (hx : x ∈ l) (hy : y ∈ l)
    (hlt : key x < key y) : [x, y].Sublist l := by
  induction l with
  | nil => simp at hx
  | cons a l ih =>
    rw [List.pairwise_cons] at hs
    rcases List.mem_cons.mp hx with rfl | hx2
    · rcases List.mem_cons.mp hy with rfl | hy2
      · omega
      · exact List.Sublist.cons₂ _ (List.singleton_sublist.mpr hy2)
    · rcases List.mem_cons.mp hy with rfl | hy2
      · have := hs.1 x hx2
        omega
      · exact List.Sublist.cons _ (ih hs.2 hx2 hy2)

theorem allSome_forall₂ {α β : Type} (g : α → Option β) (l : List α) (r : List β)
    (h : allSome (l.map g) = some r) : List.Forall₂ (fun a b => g a = some b) l r := by
  induction l generalizing r with
  | nil =>
    simp only [List.map_nil, allSome, Option.some.injEq] at h
    subst h
    exact List.Forall₂.nil
  | cons a l ih =>
    rw [List.map_cons] at h
    cases ha : g a with
    | none => rw [ha] at h; simp [allSome] at h
    | some b =>
      rw [ha, allSome] at h
      cases hl : allSome (l.map g) with
      | none => rw [hl] at h; simp at h
      | some r2 =>
        rw [hl] at h
        simp only [Option.some.injEq] at h
        subst h
        exact List.Forall₂.cons ha (ih r2 hl)

/-- The tree below a pointer carries the span and the service of the cell at
that address, and its children are the trees below the cell's child pointers,
in order. -/
theorem rep_unfold (h : Heap) (a : Nat) (tr : spanNode) (hr : h.Rep a tr) :
    ∃ c, h[a]? = some c ∧ tr.span = c.span ∧ tr.service = c.service ∧
      List.Forall₂ (h.Rep) c.children tr.children := by
  obtain ⟨f, hf⟩ := hr
  cases f with
  | zero => simp [Heap.toTree] at hf
  | succ f =>
    rw [Heap.toTree] at hf
    cases hc : h[a]? with
    | none => rw [hc] at hf; simp at hf
    | some c =>
      rw [hc] at hf
      dsimp only at hf
      cases hcs : allSome (c.children.map (Heap.toTree h f)) with
      | none => rw [hcs] at hf; simp at hf
      | some cs =>
        rw [hcs] at hf
        simp only [Option.some.injEq] at hf
        subst hf
        refine ⟨c, rfl, rfl, rfl, ?_⟩
        exact (allSome_forall₂ _ _ _ hcs).imp (fun j x hjx => ⟨f, hjx⟩)

theorem forest_rep (r : BuildResult) (f : List spanNode) (hf : r.forest = some f) :
    List.Forall₂ (r.heap.Rep) r.roots f :=
  (allSome_forall₂ _ _ _ hf).imp (fun _ _ hjx => ⟨r.heap.length, hjx⟩)

theorem forall₂_mem_right {α β : Type} {R : α → β → Prop} {l : List α} {r : List β}
    (h : List.Forall₂ R l r) : ∀ b ∈ r, ∃ a ∈ l, R a b := by
  induction h with
  | nil => simp
  | cons hab _ ih =>
    intro b hb
    rcases List.mem_cons.mp hb with rfl | hb
    · exact ⟨_, List.mem_cons_self _ _, hab⟩
    · obtain ⟨a, ha, hR⟩ := ih b hb
      exact ⟨a, List.mem_cons_of_mem _ ha, hR⟩

/-- The node of a tree of `buildTree` below the pointer `a` wraps span `a`. -/
theorem rep_span (t : trace) (a : Nat) (tr : spanNode) (hr : (buildTree t).heap.Rep a tr) :
    t.Spans[a]? = some tr.span := by
  obtain ⟨c, hc, hs, _, _⟩ := rep_unfold _ a tr hr
  have h2 : ((buildTree t).heap.map Cell.span)[a]? = some c.span := by
    rw [List.getElem?_map, hc]; rfl
  rw [buildTree_map_span] at h2
  rw [hs]
  exact h2

/-- The children of a tree of `buildTree` are the trees below the child list of
its node. -/
theorem rep_children (t : trace) (a : Nat) (tr : spanNode) (hr : (buildTree t).heap.Rep a tr) :
    List.Forall₂ ((buildTree t).heap.Rep) ((buildTree t).childrenOf a) tr.children := by
  obtain ⟨c, hc, _, _, hch⟩ := rep_unfold _ a tr hr
  have : (buildTree t).childrenOf a = c.children := by
    unfold BuildResult.childrenOf Heap.childrenAt
    rw [hc]
  rw [this]
  exact hch

/-- A list of nodes visited at depth `d` is a subsequence of the lines of any
list of nodes it is a subsequence of. -/
theorem map_line_sublist_preorderListAt (d : Nat) {cs2 cs : List spanNode}
    (h : cs2.Sublist cs) :
    (cs2.map (fun c => (⟨d, c⟩ : Line))).Sublist (preorderListAt cs d) := by
  induction h with
  | slnil => exact List.Sublist.refl _
  | cons c _ ih =>
    rw [preorderListAt]
    exact ih.trans (List.sublist_append_right _ _)
  | @cons₂ l1 l2 c _ ih =>
    rw [preorderListAt, List.map_cons]
    cases c with
    | mk s sv cs3 =>
      rw [spanNode.preorderAt, List.cons_append]
      exact List.Sublist.cons₂ _ (ih.trans (List.sublist_append_right _ _))

mutual
theorem preorderAt_sublist_of_mem (n : spanNode) (d : Nat) :
    ∀ l ∈ n.preorderAt d, (l.node.preorderAt l.depth).Sublist (n.preorderAt d) := by
  match n with
  | .mk s sv cs =>
    intro l hl
    rw [spanNode.preorderAt, List.mem_cons] at hl
    rcases hl with rfl | hl
    · exact List.Sublist.refl _
    · rw [spanNode.preorderAt]
      exact List.Sublist.cons _ (preorderListAt_sublist_of_mem cs (d + 1) l hl)
theorem preorderListAt_sublist_of_mem (cs : List spanNode) (d : Nat) :
    ∀ l ∈ preorderListAt cs d, (l.node.preorderAt l.depth).Sublist (preorderListAt cs d) := by
  match cs with
  | [] => intro l hl; simp [preorderListAt] at hl
  | c :: cs =>
    intro l hl
    rw [preorderListAt, List.mem_append] at hl
    rw [preorderListAt]
    rcases hl with hl | hl
    · exact (preorderAt_sublist_of_mem c d l hl).trans (List.sublist_append_left _ _)
    · exact (preorderListAt_sublist_of_mem cs d l hl).trans (List.sublist_append_right _ _)
end

mutual
/-- Every line of a subtree is the line of its root or the line of a child of
the node of another line, one level deeper. -/
theorem preorderAt_line_cases (n : spanNode) (d : Nat) :
    ∀ l ∈ n.preorderAt d, l = ⟨d, n⟩ ∨
      ∃ lp ∈ n.preorderAt d, l.node ∈ lp.node.children ∧ l.depth = lp.depth + 1 := by
  match n with
  | .mk s sv cs =>
    intro l hl
    rw [spanNode.preorderAt, List.mem_cons] at hl
    rcases hl with rfl | hl
    · exact Or.inl rfl
    · right
      rcases preorderListAt_line_cases cs (d + 1) l hl with ⟨hd, hn⟩ | ⟨lp, hlp, hc, hd⟩
      · refine ⟨⟨d, .mk s sv cs⟩, ?_, hn, hd⟩
        rw [spanNode.preorderAt]
        exact List.mem_cons_self _ _
      · refine ⟨lp, ?_, hc, hd⟩
        rw [spanNode.preorderAt]
        exact List.mem_cons_of_mem _ hlp
theorem preorderListAt_line_cases (cs : List spanNode) (d : Nat) :
    ∀ l ∈ preorderListAt cs d, (l.depth = d ∧ l.node ∈ cs) ∨
      ∃ lp ∈ preorderListAt cs d, l.node ∈ lp.node.children ∧ l.depth = lp.depth + 1 := by
  match cs with
  | [] => intro l hl; simp [preorderListAt] at hl
  | c :: cs =>
    intro l hl
    rw [preorderListAt, List.mem_append] at hl
    rw [preorderListAt]
    rcases hl with hl | hl
    · rcases preorderAt_line_cases c d l hl with rfl | ⟨lp, hlp, hc, hd⟩
      · exact Or.inl ⟨rfl, List.mem_cons_self _ _⟩
      · exact Or.inr ⟨lp, List.mem_append_left _ hlp, hc, hd⟩
    · rcases preorderListAt_line_cases cs d l hl with ⟨hd, hn⟩ | ⟨lp, hlp, hc, hd⟩
      · exact Or.inl ⟨hd, List.mem_cons_of_mem _ hn⟩
      · exact Or.inr ⟨lp, List.mem_append_right _ hlp, hc, hd⟩
end

/-- The lines of two nodes in a subsequence of the child list of the node of a
line follow the line, in order, one level deeper. -/
theorem children_lines_sublist (roots : List spanNode) (d0 : Nat) (lp : Line)
    (hlp : lp ∈ preorderListAt roots d0) (cs2 : List spanNode)
    (h : cs2.Sublist lp.node.children) :
    (lp :: cs2.map (fun c => (⟨lp.depth + 1, c⟩ : Line))).Sublist (preorderListAt roots d0) := by
  refine List.Sublist.trans ?_ (preorderListAt_sublist_of_mem roots d0 lp hlp)
  obtain ⟨d, n⟩ := lp
  cases n with
  | mk s sv cs =>
    rw [spanNode.preorderAt]
    exact List.Sublist.cons₂ _ (map_line_sublist_preorderListAt (d + 1) h)

/-- Without filter and depth limit `printRoots` writes a line for every node,
in pre-order. -/
theorem printRoots_unfiltered (roots : List spanNode) (st : Int) (cfg : config)
    (hc : cfg.unfiltered) : printRoots roots st cfg = preorderListAt roots 0 := by
  obtain ⟨h1, h2, h3, h4⟩ := hc
  rw [printRoots_eq_filter, List.filter_eq_self]
  intro l _
  have hself : ∀ n : spanNode, n.matchesSelf cfg = true := by
    intro n
    simp [spanNode.matchesSelf, h1, h2, h3]
  have hfil : l.node.matchesFilter cfg = true := by
    rw [matchesFilter_eq, hself]
    rfl
  simp [keepLine, h4, hfil]

/-- Every node of the forest of `buildTree` is the tree below some pointer. -/
theorem forest_lines_rep (t : trace) (f : List spanNode)
    (hf : (buildTree t).forest = some f) (d0 : Nat) :
    ∀ l ∈ preorderListAt f d0, ∃ b, (buildTree t).heap.Rep b l.node := by
  have key : ∀ (k : Nat) (l : Line), l ∈ preorderListAt f d0 → l.depth = d0 + k →
      ∃ b, (buildTree t).heap.Rep b l.node := by
    intro k
    induction k with
    | zero =>
      intro l hl hd
      rcases preorderListAt_line_cases f d0 l hl with ⟨_, hn⟩ | ⟨lp, hlp, _, hd2⟩
      · obtain ⟨a, _, ha⟩ := forall₂_mem_right (forest_rep _ f hf) l.node hn
        exact ⟨a, ha⟩
      · have := preorderListAt_depth_ge f d0 lp hlp
        omega
    | succ k ih =>
      intro l hl hd
      rcases preorderListAt_line_cases f d0 l hl with ⟨hd2, _⟩ | ⟨lp, hlp, hc, hd2⟩
      · omega
      · obtain ⟨b, hb⟩ := ih lp hlp (by omega)
        obtain ⟨j, _, hj⟩ := forall₂_mem_right (rep_children t b lp.node hb) l.node hc
        exact ⟨j, hj⟩
  intro l hl
  have hge := preorderListAt_depth_ge f d0 l hl
  exact key (l.depth - d0) l hl (by omega)

theorem forall₂_pairwise_key {α β : Type} {R : α → β → Prop} (k1 : α → Int) (k2 : β → Int)
    (hk : ∀ a b, R a b → k1 a = k2 b) {l : List α} {r : List β} (h : List.Forall₂ R l r)
    (hs : l.Pairwise (fun x y => k1 x ≤ k1 y)) : r.Pairwise (fun x y => k2 x ≤ k2 y) := by
  induction h with
  | nil => exact List.Pairwise.nil
  | @cons a b l r hab hlr ih =>
    rw [List.pairwise_cons] at hs ⊢
    refine ⟨?_, ih hs.2⟩
    intro y hy
    obtain ⟨x, hx, hxy⟩ := forall₂_mem_right hlr y hy
    rw [← hk a b hab, ← hk x y hxy]
    exact hs.1 x hx

theorem rep_startTime (t : trace) (a : Nat) (tr : spanNode)
    (hr : (buildTree t).heap.Rep a tr) :
    (buildTree t).heap.startTime a = tr.span.StartTime := by
  rw [buildTree_startTime_eq, rep_span t a tr hr]
  rfl

/-- The children of a node of the forest of `buildTree` are in ascending order
of start time. -/
theorem rep_children_sorted (t : trace) (b : Nat) (n : spanNode)
    (hr : (buildTree t).heap.Rep b n) :
    n.children.Pairwise (fun x y => x.span.StartTime ≤ y.span.StartTime) := by
  apply forall₂_pairwise_key (fun a => (buildTree t).heap.startTime a)
    (fun x : spanNode => x.span.StartTime) (fun a x h => rep_startTime t a x h)
    (rep_children t b n hr)
  unfold BuildResult.childrenOf Heap.childrenAt
  cases hc : (buildTree t).heap[b]? with
  | none => exact List.Pairwise.nil
  | some c => exact (buildTree_sorted t).2 c (List.mem_iff_getElem?.mpr ⟨b, hc⟩)

/-- The roots of the forest of `buildTree` are in ascending order of start
time. -/
theorem forest_sorted (t : trace) (f : List spanNode) (hf : (buildTree t).forest = some f) :
    f.Pairwise (fun x y => x.span.StartTime ≤ y.span.StartTime) :=
  forall₂_pairwise_key (fun a => (buildTree t).heap.startTime a)
    (fun x : spanNode => x.span.StartTime) (fun a x h => rep_startTime t a x h)
    (forest_rep _ f hf) (buildTree_sorted t).1

/-- The span of a root of the forest has no attach target. -/
theorem root_attachTarget (t : trace) (hnd : (t.Spans.map span.SpanID).Nodup)
    (f : List spanNode) (hf : (buildTree t).forest = some f) (n : spanNode) (hn : n ∈ f) :
    attachTarget (spanMapOf t) n.span = none := by
  obtain ⟨r, hr, hrep⟩ := forall₂_mem_right (forest_rep _ f hf) n hn
  obtain ⟨s, hs, hnone⟩ := (mem_roots_iff t hnd r).mp hr
  rw [rep_span t r n hrep] at hs
  simp only [Option.some.injEq] at hs
  rw [hs]
  exact hnone

/-- The span of a child of a node of the forest names the span of that node as
its parent. -/
theorem child_attachTarget (t : trace) (hnd : (t.Spans.map span.SpanID).Nodup)
    (b : Nat) (n x : spanNode) (hr : (buildTree t).heap.Rep b n) (hx : x ∈ n.children) :
    n.span ∈ t.Spans ∧ x.span ∈ t.Spans ∧ attachTarget (spanMapOf t) x.span = some b ∧
      getParentID x.span ≠ "" ∧ n.span.SpanID = getParentID x.span := by
  obtain ⟨j, hj, hrep⟩ := forall₂_mem_right (rep_children t b n hr) x hx
  obtain ⟨s, hs, htgt⟩ := (mem_childrenOf_iff t hnd b j).mp hj
  have hjs := rep_span t j x hrep
  rw [hjs] at hs
  simp only [Option.some.injEq] at hs
  subst hs
  have hb := rep_span t b n hr
  have h2 := (attachTarget_eq_some_iff t hnd x.span b n.span hb).mp htgt
  exact ⟨List.mem_iff_getElem?.mpr ⟨b, hb⟩, List.mem_iff_getElem?.mpr ⟨j, hjs⟩, htgt, h2.1,
    h2.2⟩

theorem attachTarget_isSome_of_parent (t : trace) (hnd : (t.Spans.map span.SpanID).Nodup)
    (s p : span) (hp : p ∈ t.Spans) (hid : getParentID s = p.SpanID) (hne : p.SpanID ≠ "") :
    attachTarget (spanMapOf t) s ≠ none := by
  obtain ⟨a, ha⟩ := List.mem_iff_getElem?.mp hp
  rw [(attachTarget_eq_some_iff t hnd s a p ha).mpr ⟨by rw [hid]; exact hne, hid.symm⟩]
  simp

/-- The line of a span that names a span of the trace as its parent comes
after the line of that span, one level deeper, as a child of its node. -/
theorem child_line (t : trace) (hnd : (t.Spans.map span.SpanID).Nodup) (f : List spanNode)
    (hf : (buildTree t).forest = some f) (hperm : (forestSpans f).Perm t.Spans)
    (s p : span) (hs : s ∈ t.Spans) (hp : p ∈ t.Spans) (hid : getParentID s = p.SpanID)
    (hne : p.SpanID ≠ "") :
    ∃ lp ∈ preorderListAt f 0, ∃ ns ∈ lp.node.children, lp.node.span = p ∧ ns.span = s := by
  have hmem : s ∈ forestSpans f := hperm.mem_iff.mpr hs
  unfold forestSpans at hmem
  rw [← preorderListAt_map_node f 0, List.map_map] at hmem
  obtain ⟨l, hl, hls⟩ := List.mem_map.mp hmem
  simp only [Function.comp_apply] at hls
  rcases preorderListAt_line_cases f 0 l hl with ⟨_, hn⟩ | ⟨lp, hlp, hc, _⟩
  · exfalso
    apply attachTarget_isSome_of_parent t hnd s p hp hid hne
    rw [← hls]
    exact root_attachTarget t hnd f hf l.node hn
  · obtain ⟨b, hb⟩ := forest_lines_rep t f hf 0 lp hlp
    obtain ⟨hpm, _, _, _, hpid⟩ := child_attachTarget t hnd b lp.node l.node hb hc
    refine ⟨lp, hlp, l.node, hc, ?_, hls⟩
    apply List.inj_on_of_nodup_map hnd hpm hp
    rw [hpid, hls, hid]

/-- The line of a span without resolved parent is the line of a root. -/
theorem root_line (t : trace) (hnd : (t.Spans.map span.SpanID).Nodup) (f : List spanNode)
    (hf : (buildTree t).forest = some f) (hperm : (forestSpans f).Perm t.Spans)
    (s : span) (hs : s ∈ t.Spans) (hroot : attachTarget (spanMapOf t) s = none) :
    ∃ n ∈ f, n.span = s := by
  have hmem : s ∈ forestSpans f := hperm.mem_iff.mpr hs
  unfold forestSpans at hmem
  rw [← preorderListAt_map_node f 0, List.map_map] at hmem
  obtain ⟨l, hl, hls⟩ := List.mem_map.mp hmem
  simp only [Function.comp_apply] at hls
  rcases preorderListAt_line_cases f 0 l hl with ⟨_, hn⟩ | ⟨lp, hlp, hc, _⟩
  · exact ⟨l.node, hn, hls⟩
  · exfalso
    obtain ⟨b, hb⟩ := forest_lines_rep t f hf 0 lp hlp
    obtain ⟨_, _, htgt, _, _⟩ := child_attachTarget t hnd b lp.node l.node hb hc
    rw [hls, hroot] at htgt
    simp at htgt

theorem lines_span_nodup (t : trace) (hnd : (t.Spans.map span.SpanID).Nodup)
    (f : List spanNode) (hperm : (forestSpans f).Perm t.Spans) (d0 : Nat) :
    ((preorderListAt f d0).map (fun l => l.node.span)).Nodup := by
  have h : (preorderListAt f d0).map (fun l => l.node.span) = forestSpans f := by
    unfold forestSpans
    rw [← preorderListAt_map_node f d0, List.map_map]
    rfl
  rw [h, hperm.nodup_iff]
  exact List.Nodup.of_map _ hnd

/-- Two spans that name the same span of the trace as their parent are written
after it, one level deeper, the one that starts earlier first. -/
theorem sibling_lines (t : trace) (hnd : (t.Spans.map span.SpanID).Nodup) (f : List spanNode)
    (hf : (buildTree t).forest = some f) (hperm : (forestSpans f).Perm t.Spans)
    (s1 s2 p : span) (hs1 : s1 ∈ t.Spans) (hs2 : s2 ∈ t.Spans) (hp : p ∈ t.Spans)
    (hid1 : getParentID s1 = p.SpanID) (hid2 : getParentID s2 = p.SpanID)
    (hne : p.SpanID ≠ "") (hlt : s1.StartTime < s2.StartTime) :
    ∃ lp ∈ preorderListAt f 0, ∃ n1 n2, lp.node.span = p ∧ n1.span = s1 ∧ n2.span = s2 ∧
      [lp, ⟨lp.depth + 1, n1⟩, ⟨lp.depth + 1, n2⟩].Sublist (preorderListAt f 0) := by
  obtain ⟨lp, hlp, n1, hn1, hlpp, hn1s⟩ := child_line t hnd f hf hperm s1 p hs1 hp hid1 hne
  obtain ⟨lp2, hlp2, n2, hn2, hlpp2, hn2s⟩ := child_line t hnd f hf hperm s2 p hs2 hp hid2 hne
  have heq : lp2 = lp :=
    List.inj_on_of_nodup_map (lines_span_nodup t hnd f hperm 0) hlp2 hlp
      (by rw [hlpp, hlpp2])
  subst heq
  obtain ⟨b, hb⟩ := forest_lines_rep t f hf 0 lp2 hlp
  have hsub : [n1, n2].Sublist lp2.node.children :=
    pair_sublist_of_sorted (fun x : spanNode => x.span.StartTime) _
      (rep_children_sorted t b lp2.node hb) n1 n2 hn1 hn2 (by show n1.span.StartTime < n2.span.StartTime; rw [hn1s, hn2s]; exact hlt)
  exact ⟨lp2, hlp, n1, n2, hlpp, hn1s, hn2s, children_lines_sublist f 0 lp2 hlp _ hsub⟩

/-- Two spans without resolved parent are written at depth 0, the one that
starts earlier first. -/
theorem root_lines (t : trace) (hnd : (t.Spans.map span.SpanID).Nodup) (f : List spanNode)
    (hf : (buildTree t).forest = some f) (hperm : (forestSpans f).Perm t.Spans)
    (s1 s2 : span) (hs1 : s1 ∈ t.Spans) (hs2 : s2 ∈ t.Spans)
    (hr1 : attachTarget (spanMapOf t) s1 = none) (hr2 : attachTarget (spanMapOf t) s2 = none)
    (hlt : s1.StartTime < s2.StartTime) :
    ∃ n1 n2, n1.span = s1 ∧ n2.span = s2 ∧
      [(⟨0, n1⟩ : Line), ⟨0, n2⟩].Sublist (preorderListAt f 0) := by
  obtain ⟨n1, hn1, hn1s⟩ := root_line t hnd f hf hperm s1 hs1 hr1
  obtain ⟨n2, hn2, hn2s⟩ := root_line t hnd f hf hperm s2 hs2 hr2
  have hsub : [n1, n2].Sublist f :=
    pair_sublist_of_sorted (fun x : spanNode => x.span.StartTime) _
      (forest_sorted t f hf) n1 n2 hn1 hn2 (by show n1.span.StartTime < n2.span.StartTime; rw [hn1s, hn2s]; exact hlt)
  exact ⟨n1, n2, hn1s, hn2s, map_line_sublist_preorderListAt 0 hsub⟩

/-! ## Claims -/

/-- C1: `matchesFilter` holds for a node exactly when the node itself or one of
its descendants, at any depth, satisfies `matchesSelf`. Under a 100 ms
threshold the chain 50 ms / 60 ms / 200 ms matches through its grandchild,
and the root of 50 ms with children of 60 ms and 70 ms does not match. -/
theorem C1_matchesFilter_iff_self_or_descendant :
    (∀ (n : spanNode) (cfg : config),
      n.matchesFilter cfg = true ↔
        (n.matchesSelf cfg = true ∨ ∃ m, Descendant m n ∧ m.matchesSelf cfg = true)) ∧
    chainTree.matchesFilter cfg100ms = true ∧
    shortTree.matchesFilter cfg100ms = false :=
  ⟨matchesFilter_iff_aux, by decide, by decide⟩

/-- C6: with `maxDepth = 0`, `printRoots` writes one line for exactly the nodes
of the forest that satisfy `matchesFilter`, each once, in depth-first
pre-order and at its depth; a childless node that fails `matchesSelf` writes
nothing. -/
theorem C6_printRoots_unlimited (roots : List spanNode) (st : Int) (cfg : config)
    (hd : cfg.maxDepth = 0) :
    printRoots roots st cfg =
        (preorderListAt roots 0).filter (fun l => l.node.matchesFilter cfg) ∧
      ∀ (n : spanNode) (d : Nat), n.children = [] → n.matchesSelf cfg = false →
        printNode n d st cfg = [] := by
  constructor
  · rw [printRoots_eq_filter]
    apply List.filter_congr
    intro l _
    simp [keepLine, hd]
  · intro n d hc hs
    cases n with
    | mk s sv cs =>
      have hcs : cs = [] := hc
      subst hcs
      have hf : (spanNode.mk s sv []).matchesFilter cfg = false := by
        rw [matchesFilter_eq, hs]
        simp [spanNode.children, matchesFilterAny]
      simp [printNode, hf]

/-- C6, at the forest made of `chainTree` and `shortTree` under a 100 ms
threshold. -/
theorem C6_printRoots_unlimited_witness :
    cfg100ms.maxDepth = 0 ∧
    (printRoots [chainTree, shortTree] 0 cfg100ms =
        (preorderListAt [chainTree, shortTree] 0).filter
          (fun l => l.node.matchesFilter cfg100ms) ∧
      ∀ (n : spanNode) (d : Nat), n.children = [] → n.matchesSelf cfg100ms = false →
        printNode n d 0 cfg100ms = []) :=
  ⟨rfl, C6_printRoots_unlimited [chainTree, shortTree] 0 cfg100ms rfl⟩

/-- C7: with `maxDepth = d > 0`, `printRoots` writes exactly the nodes at depth
`< d` that satisfy `matchesFilter` (in pre-order), so no node at depth `>= d`
is written, whatever it or its descendants match; with `maxDepth = 0` no node
is dropped because of its depth. -/
theorem C7_printRoots_depth_limit (roots : List spanNode) (st : Int) (cfg : config) :
    (cfg.maxDepth > 0 →
      printRoots roots st cfg =
          (preorderListAt roots 0).filter
            (fun l => decide ((l.depth : Int) < cfg.maxDepth) && l.node.matchesFilter cfg) ∧
        ∀ l ∈ printRoots roots st cfg, (l.depth : Int) < cfg.maxDepth) ∧
    (cfg.maxDepth = 0 →
      printRoots roots st cfg =
        (preorderListAt roots 0).filter (fun l => l.node.matchesFilter cfg)) := by
  constructor
  · intro hd
    have heq : printRoots roots st cfg =
        (preorderListAt roots 0).filter
          (fun l => decide ((l.depth : Int) < cfg.maxDepth) && l.node.matchesFilter cfg) := by
      rw [printRoots_eq_filter]
      apply List.filter_congr
      intro l _
      simp only [keepLine, hd, decide_True, Bool.true_and, ge_iff_le]
      congr 1
      by_cases h : (l.depth : Int) < cfg.maxDepth
      · have h' : ¬ cfg.maxDepth ≤ (l.depth : Int) := by omega
        simp [h, h']
      · have h' : cfg.maxDepth ≤ (l.depth : Int) := by omega
        simp [h, h']
    refine ⟨heq, ?_⟩
    intro l hl
    rw [heq, List.mem_filter] at hl
    have h2 := hl.2
    simp only [Bool.and_eq_true, decide_eq_true_eq] at h2
    exact h2.1
  · intro hd
    rw [printRoots_eq_filter]
    apply List.filter_congr
    intro l _
    simp [keepLine, hd]

/-- C7, at `chainTree` with depth limit 2 under a 100 ms threshold: the
grandchild (200 ms, depth 2) satisfies `matchesSelf` and is not written. -/
theorem C7_printRoots_depth_limit_witness :
    cfg100msDepth2.maxDepth > 0 ∧ cfg100ms.maxDepth = 0 ∧
    (printRoots [chainTree] 0 cfg100msDepth2 =
          (preorderListAt [chainTree] 0).filter
            (fun l => decide ((l.depth : Int) < cfg100msDepth2.maxDepth) &&
              l.node.matchesFilter cfg100msDepth2) ∧
        ∀ l ∈ printRoots [chainTree] 0 cfg100msDepth2, (l.depth : Int) < cfg100msDepth2.maxDepth) ∧
    printRoots [chainTree] 0 cfg100ms =
        (preorderListAt [chainTree] 0).filter (fun l => l.node.matchesFilter cfg100ms) ∧
    (printRoots [chainTree] 0 cfg100msDepth2).map Line.depth = [0, 1] ∧
    (printRoots [chainTree] 0 cfg100ms).map Line.depth = [0, 1, 2] :=
  ⟨by decide, rfl, (C7_printRoots_depth_limit [chainTree] 0 cfg100msDepth2).1 (by decide),
    (C7_printRoots_depth_limit [chainTree] 0 cfg100ms).2 rfl, by decide, by decide⟩

/-- C8: with `maxDepth = 0`, when a node `m` of the forest satisfies
`matchesSelf`, `printRoots` writes `m`, and for every ancestor `a` of `m` in
the forest it writes `a` and then, later, `m`, whether or not `a` satisfies
`matchesSelf`. -/
theorem C8_ancestors_printed (roots : List spanNode) (st : Int) (cfg : config)
    (hd : cfg.maxDepth = 0) (m : spanNode) (hm : m ∈ preorderList roots)
    (hs : m.matchesSelf cfg = true) :
    m ∈ (printRoots roots st cfg).map Line.node ∧
      ∀ a ∈ preorderList roots, Descendant m a →
        [a, m].Sublist ((printRoots roots st cfg).map Line.node) := by
  have hmf : m.matchesFilter cfg = true := (matchesFilter_iff_aux m cfg).mpr (Or.inl hs)
  rw [printRoots_nodes_unlimited roots st cfg (by omega)]
  constructor
  · exact List.mem_filter.mpr ⟨hm, by simpa using hmf⟩
  · intro a ha hdesc
    have haf : a.matchesFilter cfg = true :=
      (matchesFilter_iff_aux a cfg).mpr (Or.inr ⟨m, hdesc, hs⟩)
    have h1 : [a, m].Sublist a.preorder := by
      rw [preorder_eq]
      exact List.Sublist.cons₂ _
        (List.singleton_sublist.mpr (mem_preorderList_of_descendant hdesc))
    have h2 : [a, m].Sublist (preorderList roots) :=
      h1.trans (preorderList_sublist_of_mem roots a ha)
    have h3 := h2.filter (fun n => n.matchesFilter cfg)
    simpa [List.filter, haf, hmf] using h3

/-- C8, at `chainTree` under a 100 ms threshold: only the grandchild satisfies
`matchesSelf`, and the root and the child are written before it. -/
theorem C8_ancestors_printed_witness :
    cfg100ms.maxDepth = 0 ∧ chainLeaf ∈ preorderList [chainTree] ∧
    chainLeaf.matchesSelf cfg100ms = true ∧
    chainTree.matchesSelf cfg100ms = false ∧
    (chainLeaf ∈ (printRoots [chainTree] 0 cfg100ms).map Line.node ∧
      ∀ a ∈ preorderList [chainTree], Descendant chainLeaf a →
        [a, chainLeaf].Sublist ((printRoots [chainTree] 0 cfg100ms).map Line.node)) :=
  have hm : chainLeaf ∈ preorderList [chainTree] := by
    simp [preorderList, spanNode.preorder, chainTree, chainLeaf, nodeOfDuration]
  ⟨rfl, hm, by decide, by decide,
    C8_ancestors_printed [chainTree] 0 cfg100ms rfl chainLeaf hm (by decide)⟩

/-- C9: `matchesSelf` is the conjunction of the duration, error and service
predicates; each depends on its own field of the config only and is true when
disabled (`minDuration = 0`, `errorsOnly = false`, `service = ""`); when
enabled the error predicate is `hasError` and the service predicate is the
equality `node.service = cfg.service`. With the zero config every node
satisfies `matchesSelf` and `matchesFilter`, and a node failing one predicate
does not match. -/
theorem C9_matchesSelf_conjunction (n : spanNode) (cfg : config) :
    n.matchesSelf cfg = (durationOK n cfg && errorOK n cfg && serviceOK n cfg) ∧
    (∀ cfg2 : config, cfg2.minDuration = cfg.minDuration → durationOK n cfg2 = durationOK n cfg) ∧
    (∀ cfg2 : config, cfg2.errorsOnly = cfg.errorsOnly → errorOK n cfg2 = errorOK n cfg) ∧
    (∀ cfg2 : config, cfg2.service = cfg.service → serviceOK n cfg2 = serviceOK n cfg) ∧
    (cfg.minDuration = 0 → durationOK n cfg = true) ∧
    (cfg.errorsOnly = false → errorOK n cfg = true) ∧
    (cfg.errorsOnly = true → errorOK n cfg = n.hasError) ∧
    (cfg.service = "" → serviceOK n cfg = true) ∧
    (cfg.service ≠ "" → (serviceOK n cfg = true ↔ n.service = cfg.service)) ∧
    n.matchesSelf cfgZero = true ∧ n.matchesFilter cfgZero = true ∧
    (durationOK n cfg = false ∨ errorOK n cfg = false ∨ serviceOK n cfg = false →
      n.matchesSelf cfg = false) := by
  have hconj : n.matchesSelf cfg = (durationOK n cfg && errorOK n cfg && serviceOK n cfg) := by
    unfold spanNode.matchesSelf durationOK errorOK serviceOK
    by_cases h1 : (decide (cfg.minDuration > 0) &&
        decide (wrap64 (n.span.Duration * 1000) < cfg.minDuration)) = true
    · simp [h1]
    · by_cases h2 : (cfg.errorsOnly && !n.hasError) = true
      · simp [h1, h2]
      · by_cases h3 : (cfg.service != "" && n.service != cfg.service) = true
        · simp [h1, h2, h3]
        · simp [h1, h2, h3]
  have hzero : n.matchesSelf cfgZero = true := by
    simp [spanNode.matchesSelf, cfgZero]
  refine ⟨hconj, ?_, ?_, ?_, ?_, ?_, ?_, ?_, ?_, hzero, ?_, ?_⟩
  · intro cfg2 h; simp [durationOK, h]
  · intro cfg2 h; simp [errorOK, h]
  · intro cfg2 h; simp [serviceOK, h]
  · intro h; simp [durationOK, h]
  · intro h; simp [errorOK, h]
  · intro h; simp [errorOK, h]
  · intro h; simp [serviceOK, h]
  · intro h; simp [serviceOK, h]
  · exact (matchesFilter_iff_aux n cfgZero).mpr (Or.inl hzero)
  · intro h
    rw [hconj]
    rcases h with h | h | h <;> simp [h]

/-- C9, at a node of service `api`, 200 ms long and tagged as an error: it
matches the config with the three filters active, and changing one filter so
that the node fails it makes `matchesSelf` false. -/
theorem C9_matchesSelf_conjunction_witness :
    cfgZero.minDuration = 0 ∧ cfgZero.errorsOnly = false ∧ cfgAll.errorsOnly = true ∧
    cfgZero.service = "" ∧ cfgAll.service ≠ "" ∧
    durationOK apiErrorNode cfgZero = true ∧
    errorOK apiErrorNode cfgZero = true ∧
    errorOK apiErrorNode cfgAll = apiErrorNode.hasError ∧
    serviceOK apiErrorNode cfgZero = true ∧
    (serviceOK apiErrorNode cfgAll = true ↔ apiErrorNode.service = cfgAll.service) ∧
    apiErrorNode.matchesSelf cfgAll = true ∧
    serviceOK apiErrorNode { cfgAll with service := "db" } = false ∧
    apiErrorNode.matchesSelf { cfgAll with service := "db" } = false :=
  have hdb : serviceOK apiErrorNode { cfgAll with service := "db" } = false := by decide
  ⟨rfl, rfl, rfl, rfl, by decide,
    (C9_matchesSelf_conjunction apiErrorNode cfgZero).2.2.2.2.1 rfl,
    (C9_matchesSelf_conjunction apiErrorNode cfgZero).2.2.2.2.2.1 rfl,
    (C9_matchesSelf_conjunction apiErrorNode cfgAll).2.2.2.2.2.2.1 rfl,
    (C9_matchesSelf_conjunction apiErrorNode cfgZero).2.2.2.2.2.2.2.1 rfl,
    (C9_matchesSelf_conjunction apiErrorNode cfgAll).2.2.2.2.2.2.2.2.1 (by decide),
    by decide, hdb,
    (C9_matchesSelf_conjunction apiErrorNode { cfgAll with service := "db" }).2.2.2.2.2.2.2.2.2.2.2
      (Or.inr (Or.inr hdb))⟩

/-- C10: a span of 9 223 372 036 854 776 microseconds (an `int64`) against a
threshold of one nanosecond: its duration is above the threshold over the
integers, and `matchesSelf` is false, because the `int64` product
`Duration * 1000` wraps to a negative value. At the tested values the
threshold is inclusive: 100 000 us matches 100 ms, 50 000 us does not. -/
theorem C10_duration_product_overflows :
    isInt64 9223372036854776 ∧ cfg1ns.minDuration > 0 ∧
    (9223372036854776 : Int) * 1000 ≥ cfg1ns.minDuration ∧
    (nodeOfDuration 9223372036854776 []).matchesSelf cfg1ns = false ∧
    wrap64 (9223372036854776 * 1000) = -9223372036854775616 ∧
    (nodeOfDuration 100000 []).matchesSelf cfg100ms = true ∧
    (nodeOfDuration 50000 []).matchesSelf cfg100ms = false := by
  refine ⟨by decide, by decide, by decide, by decide, by decide, by decide, by decide⟩

/-- C5: for the spans starting at 0 and at 5 microseconds, in this order,
`buildTree` returns the start time 5 and not the smallest start time 0: the
value 0 of `startTime` is read as "not set yet" by the first loop. For a
trace without spans the start time is 0. -/
theorem C5_startTime_zero_is_overwritten :
    traceStartsAtZero.Spans.map span.StartTime = [0, 5] ∧
    (buildTree traceStartsAtZero).startTime = 5 ∧
    (buildTree (traceOf [])).startTime = 0 := by
  refine ⟨by decide, by decide, by decide⟩

/-- C4: in the result of `buildTree` the root list and the child list of every
node are sorted by ascending span start time, for every trace. Roots given as
3000, 1000, 2000 come back as 1000, 2000, 3000, and children given as 1300,
1200, 1100 come back as 1100, 1200, 1300. -/
theorem C4_buildTree_sorted_by_startTime :
    (∀ t : trace,
      List.Sorted (fun a b => (buildTree t).heap.startTime a ≤ (buildTree t).heap.startTime b)
          (buildTree t).roots ∧
        ∀ c ∈ (buildTree t).heap,
          List.Sorted
            (fun a b => (buildTree t).heap.startTime a ≤ (buildTree t).heap.startTime b)
            c.children) ∧
    (buildTree traceUnsortedRoots).startTimes (buildTree traceUnsortedRoots).roots =
      [1000, 2000, 3000] ∧
    (buildTree traceUnsortedChildren).roots = [0] ∧
    (buildTree traceUnsortedChildren).startTimes
        ((buildTree traceUnsortedChildren).childrenOf 0) = [1100, 1200, 1300] :=
  ⟨buildTree_sorted, by decide, by decide, by decide⟩

/-- C3, as stated, fails on the trace whose first span has the empty identifier
and whose second span has a `CHILD_OF` reference to the empty identifier: the
identifiers are distinct and the target is the identifier of the first span,
yet `buildTree` puts the second span in the root list. -/
theorem C3_empty_parent_id_counterexample :
    (traceEmptyID.Spans.map span.SpanID).Nodup ∧
    ¬ (∀ (i : Nat) (s : span), traceEmptyID.Spans[i]? = some s →
        ((firstChildOf s = none ∨
            ∃ tgt, firstChildOf s = some tgt ∧ ∀ s2 ∈ traceEmptyID.Spans, s2.SpanID ≠ tgt) →
          i ∈ (buildTree traceEmptyID).roots) ∧
        (∀ (tgt : String) (p : Nat) (s2 : span), firstChildOf s = some tgt →
          traceEmptyID.Spans[p]? = some s2 → s2.SpanID = tgt →
          i ∈ (buildTree traceEmptyID).childrenOf p ∧ i ∉ (buildTree traceEmptyID).roots)) := by
  refine ⟨by decide, ?_⟩
  intro h
  have h1 := (h 1 (spanAt "x" 2000 [childOf ""]) rfl).2 "" 0 (spanAt "" 1000 []) rfl rfl rfl
  exact h1.2 (by decide)

/-- C3, amended: for a trace with pairwise distinct span identifiers and its
span `s` at index `i`, the node at address `i` wraps `s`; when `s` has no
`CHILD_OF` reference, or the target of its first `CHILD_OF` reference is the
empty string or is not the identifier of a span of the trace, the node is in
the root list; when the target is not empty and is the identifier of the span
at index `p`, the node is in the child list of the node at address `p` and
not in the root list. -/
theorem C3_buildTree_placement (t : trace) (hnd : (t.Spans.map span.SpanID).Nodup)
    (i : Nat) (s : span) (hs : t.Spans[i]? = some s) :
    (∃ c, (buildTree t).heap[i]? = some c ∧ c.span = s) ∧
    ((firstChildOf s = none ∨ firstChildOf s = some "" ∨
        ∃ tgt, firstChildOf s = some tgt ∧ ∀ s2 ∈ t.Spans, s2.SpanID ≠ tgt) →
      i ∈ (buildTree t).roots) ∧
    (∀ (tgt : String) (p : Nat) (s2 : span), firstChildOf s = some tgt → tgt ≠ "" →
      t.Spans[p]? = some s2 → s2.SpanID = tgt →
      i ∈ (buildTree t).childrenOf p ∧ i ∉ (buildTree t).roots) := by
  refine ⟨buildTree_heap_getElem? t i s hs, ?_, ?_⟩
  · intro h
    exact (mem_roots_iff t hnd i).mpr ⟨s, hs, attachTarget_none_of t s h⟩
  · intro tgt p s2 hf hne hp hid
    have htgt := attachTarget_some_of t hnd s tgt p s2 hf hne hp hid
    refine ⟨(mem_childrenOf_iff t hnd p i).mpr ⟨s, hs, htgt⟩, ?_⟩
    intro hr
    obtain ⟨s3, hs3, hnone⟩ := (mem_roots_iff t hnd i).mp hr
    rw [hs] at hs3
    simp only [Option.some.injEq] at hs3
    subst hs3
    rw [htgt] at hnone
    simp at hnone

/-- C3, amended, at a trace with a child, its parent (given after it) and an
orphan: the child is in the child list of the parent and not a root, the
orphan is a root. -/
theorem C3_buildTree_placement_witness :
    (traceParentChildOrphan.Spans.map span.SpanID).Nodup ∧
    (0 ∈ (buildTree traceParentChildOrphan).childrenOf 1 ∧
      0 ∉ (buildTree traceParentChildOrphan).roots) ∧
    2 ∈ (buildTree traceParentChildOrphan).roots :=
  ⟨by decide,
    (C3_buildTree_placement traceParentChildOrphan (by decide) 0
      (spanAt "child" 1100 [childOf "parent"]) rfl).2.2 "parent" 1 (spanAt "parent" 1000 [])
      rfl (by decide) rfl rfl,
    (C3_buildTree_placement traceParentChildOrphan (by decide) 2
      (spanAt "orphan" 1200 [childOf "nonexistent"]) rfl).2.1
      (Or.inr (Or.inr ⟨"nonexistent", rfl, by decide⟩))⟩

/-- C2, as stated, fails. For two spans with the same identifier the second
node replaces the first in `spanMap` and is appended to the root list twice,
so the forest holds the second span twice and the first span not at all. For
a span whose `CHILD_OF` reference names the span itself the node is put in its
own child list, the root list is empty and the forest holds no span. -/
theorem C2_duplicate_id_and_cycle_counterexample :
    (¬ ∃ f, (buildTree traceDuplicateID).forest = some f ∧
        (forestSpans f).Perm traceDuplicateID.Spans) ∧
    (buildTree traceDuplicateID).roots = [1, 1] ∧
    (¬ ∃ f, (buildTree traceSelfParent).forest = some f ∧
        (forestSpans f).Perm traceSelfParent.Spans) ∧
    (buildTree traceSelfParent).roots = [] ∧
    (buildTree traceSelfParent).childrenOf 0 = [0] := by
  refine ⟨?_, by decide, ?_, by decide, by decide⟩
  · rintro ⟨f, hf, hp⟩
    have hfor : (buildTree traceDuplicateID).forest =
        some [.mk (spanAt "a" 2000 []) "svc" [], .mk (spanAt "a" 2000 []) "svc" []] := by rfl
    rw [hfor] at hf
    simp only [Option.some.injEq] at hf
    subst hf
    revert hp
    decide
  · rintro ⟨f, hf, hp⟩
    have hfor : (buildTree traceSelfParent).forest = some [] := by rfl
    rw [hfor] at hf
    simp only [Option.some.injEq] at hf
    subst hf
    revert hp
    decide

/-- C2, amended: for a trace with pairwise distinct span identifiers in which
following parent references (the non-empty target of the first `CHILD_OF`
reference, when it is the identifier of a span of the trace) from a span
never leads back to that span, the forest returned by `buildTree` exists and
the spans wrapped by its nodes, one per position of the forest, are the spans
of the trace, each once: none is duplicated and none is dropped. -/
theorem C2_buildTree_forest_holds_each_span_once (t : trace)
    (hnd : (t.Spans.map span.SpanID).Nodup) (hac : Acyclic t) :
    ∃ f, (buildTree t).forest = some f ∧ (forestSpans f).Perm t.Spans :=
  buildTree_forest_perm t hnd hac

/-- C2, amended, at a trace with a child, its parent (given after it) and an
orphan. -/
theorem C2_buildTree_forest_holds_each_span_once_witness :
    (traceParentChildOrphan.Spans.map span.SpanID).Nodup ∧ Acyclic traceParentChildOrphan ∧
    ∃ f, (buildTree traceParentChildOrphan).forest = some f ∧
      (forestSpans f).Perm traceParentChildOrphan.Spans :=
  have hac : Acyclic traceParentChildOrphan :=
    acyclic_of_chains_end traceParentChildOrphan (by decide)
  ⟨by decide, hac,
    C2_buildTree_forest_holds_each_span_once traceParentChildOrphan (by decide) hac⟩

/-- C11: `hasError` is true exactly when the tag list of the span holds a tag
with key `otel.status_code` and the string value `ERROR`, or a tag with key
`error` and the boolean value `true`. The string `"true"` under `error`, the
boolean `false`, the string `OK` under `otel.status_code`, another key and the
empty tag list all give `false`. -/
theorem C11_hasError_iff :
    (∀ n : spanNode, n.hasError = true ↔
      ∃ t ∈ n.span.Tags,
        (t.Key = "otel.status_code" ∧ t.Value = TagValue.str "ERROR") ∨
        (t.Key = "error" ∧ t.Value = TagValue.bool true)) ∧
    (nodeOfTags [⟨"otel.status_code", TagValue.str "ERROR"⟩]).hasError = true ∧
    (nodeOfTags [⟨"error", TagValue.bool true⟩]).hasError = true ∧
    (nodeOfTags [⟨"http.method", TagValue.str "GET"⟩, ⟨"error", TagValue.bool true⟩]).hasError
      = true ∧
    (nodeOfTags [⟨"error", TagValue.bool false⟩]).hasError = false ∧
    (nodeOfTags [⟨"error", TagValue.str "true"⟩]).hasError = false ∧
    (nodeOfTags [⟨"error", TagValue.other "1"⟩]).hasError = false ∧
    (nodeOfTags [⟨"otel.status_code", TagValue.str "OK"⟩]).hasError = false ∧
    (nodeOfTags [⟨"otel.status_code", TagValue.bool true⟩]).hasError = false ∧
    (nodeOfTags [⟨"http.method", TagValue.str "GET"⟩]).hasError = false ∧
    (nodeOfTags []).hasError = false := by
  refine ⟨?_, by decide, by decide, by decide, by decide, by decide, by decide, by decide,
    by decide, by decide, by decide⟩
  intro n
  simp only [spanNode.hasError, List.any_eq_true, tagIsError, Bool.or_eq_true,
    Bool.and_eq_true, beq_iff_eq]

/-- C12, as stated, fails on a trace with a repeated identifier: the first of
two spans with identifier `a` names a parent that no span has, and the root
list holds the node of the second span twice and no node that wraps the first
span. -/
theorem C12_duplicate_id_orphan_counterexample :
    ¬ (∀ (i : Nat) (s : span), traceDuplicateOrphan.Spans[i]? = some s →
        (∃ tgt, firstChildOf s = some tgt ∧
          ∀ s2 ∈ traceDuplicateOrphan.Spans, s2.SpanID ≠ tgt) →
        ∃ a ∈ (buildTree traceDuplicateOrphan).roots,
          ∃ c, (buildTree traceDuplicateOrphan).heap[a]? = some c ∧ c.span = s) ∧
    (buildTree traceDuplicateOrphan).roots = [1, 1] ∧
    ((buildTree traceDuplicateOrphan).heap.map Cell.span)[1]? = some (spanAt "a" 2000 []) := by
  refine ⟨?_, by decide, by decide⟩
  intro h
  obtain ⟨a, ha, c, hc, hs⟩ :=
    h 0 (spanAt "a" 1000 [childOf "nonexistent"]) rfl ⟨"nonexistent", rfl, by decide⟩
  have hroots : (buildTree traceDuplicateOrphan).roots = [1, 1] := by decide
  rw [hroots] at ha
  have ha1 : a = 1 := by simpa using ha
  subst ha1
  have h1 : (buildTree traceDuplicateOrphan).heap[1]? =
      some ⟨spanAt "a" 2000 [], "svc", []⟩ := by decide
  rw [h1] at hc
  simp only [Option.some.injEq] at hc
  subst hc
  revert hs
  decide

/-- C12, amended: for a trace with pairwise distinct span identifiers, a span
whose first `CHILD_OF` reference names an identifier that no span of the trace
has is wrapped by the node at its index, and that node is in the root list. -/
theorem C12_orphan_promotion (t : trace) (hnd : (t.Spans.map span.SpanID).Nodup)
    (i : Nat) (s : span) (hs : t.Spans[i]? = some s)
    (horphan : ∃ tgt, firstChildOf s = some tgt ∧ ∀ s2 ∈ t.Spans, s2.SpanID ≠ tgt) :
    i ∈ (buildTree t).roots ∧ ∃ c, (buildTree t).heap[i]? = some c ∧ c.span = s :=
  ⟨(mem_roots_iff t hnd i).mpr ⟨s, hs, attachTarget_none_of t s (Or.inr (Or.inr horphan))⟩,
    buildTree_heap_getElem? t i s hs⟩

/-- C12, amended, at a single span with a `CHILD_OF` reference to
`nonexistent`: the root list is that one span. -/
theorem C12_orphan_promotion_witness :
    (traceSingleOrphan.Spans.map span.SpanID).Nodup ∧
    (∃ tgt, firstChildOf (spanAt "orphan" 1000 [childOf "nonexistent"]) = some tgt ∧
      ∀ s2 ∈ traceSingleOrphan.Spans, s2.SpanID ≠ tgt) ∧
    (0 ∈ (buildTree traceSingleOrphan).roots ∧
      ∃ c, (buildTree traceSingleOrphan).heap[0]? = some c ∧
        c.span = spanAt "orphan" 1000 [childOf "nonexistent"]) ∧
    (buildTree traceSingleOrphan).roots = [0] :=
  have ho : ∃ tgt, firstChildOf (spanAt "orphan" 1000 [childOf "nonexistent"]) = some tgt ∧
      ∀ s2 ∈ traceSingleOrphan.Spans, s2.SpanID ≠ tgt := ⟨"nonexistent", rfl, by decide⟩
  ⟨by decide, ho,
    C12_orphan_promotion traceSingleOrphan (by decide) 0
      (spanAt "orphan" 1000 [childOf "nonexistent"]) rfl ho,
    by decide⟩

/-- C13: for a trace in which no span carries a `CHILD_OF` reference, whatever
other references the spans carry, the root list of `buildTree` has one entry
per input span (it has as many entries as there are spans and is a
rearrangement of the nodes `spanMap` holds for the spans, taken span by span)
and every node has an empty child list; when the span identifiers are pairwise
distinct the entries are the nodes of the spans, each once. -/
theorem C13_only_child_of_creates_edges (t : trace) (h : NoChildOf t) :
    (buildTree t).roots.length = t.Spans.length ∧
    (buildTree t).roots.Perm (t.Spans.filterMap (fun s => (spanMapOf t).get s.SpanID)) ∧
    (∀ c ∈ (buildTree t).heap, c.children = []) ∧
    ((t.Spans.map span.SpanID).Nodup →
      (buildTree t).roots.Perm (List.range t.Spans.length)) := by
  obtain ⟨hperm, hch⟩ := buildTree_noChildOf t h
  refine ⟨?_, hperm, children_nil_of_childrenOf t hch, ?_⟩
  · rw [hperm.length_eq]
    exact length_filterMap_of_isSome _ _ (fun s hs => spanMapOf_get_isSome t s hs)
  · intro hnd
    rw [List.perm_ext_iff_of_nodup (buildTree_roots_nodup t hnd) (List.nodup_range _)]
    intro i
    rw [mem_roots_iff t hnd i, List.mem_range]
    constructor
    · rintro ⟨s, hs, _⟩
      exact (List.getElem?_eq_some.mp hs).1
    · intro hi
      refine ⟨t.Spans[i], List.getElem?_eq_getElem hi, ?_⟩
      exact attachTarget_none_of t _
        (Or.inl (firstChildOf_none_of_noChildOf _ (h _ (List.getElem_mem _))))

/-- C13, at two spans of which the second has a `FOLLOWS_FROM` reference to
the first: two roots, no children. -/
theorem C13_only_child_of_creates_edges_witness :
    NoChildOf traceFollowsFrom ∧ (traceFollowsFrom.Spans.map span.SpanID).Nodup ∧
    (buildTree traceFollowsFrom).roots.length = traceFollowsFrom.Spans.length ∧
    (∀ c ∈ (buildTree traceFollowsFrom).heap, c.children = []) ∧
    (buildTree traceFollowsFrom).roots.Perm (List.range traceFollowsFrom.Spans.length) ∧
    (buildTree traceFollowsFrom).roots = [0, 1] ∧
    (buildTree traceFollowsFrom).childrenOf 0 = [] ∧
    (buildTree traceFollowsFrom).childrenOf 1 = [] :=
  have hno : NoChildOf traceFollowsFrom := by
    intro s hs r hr
    simp only [traceFollowsFrom, traceOf, List.mem_cons, List.mem_singleton,
      List.not_mem_nil, or_false] at hs
    rcases hs with rfl | rfl
    · simp [spanAt] at hr
    · simp only [spanAt, List.mem_singleton] at hr
      subst hr
      decide
  ⟨hno, by decide, (C13_only_child_of_creates_edges traceFollowsFrom hno).1,
    (C13_only_child_of_creates_edges traceFollowsFrom hno).2.2.1,
    (C13_only_child_of_creates_edges traceFollowsFrom hno).2.2.2 (by decide),
    by decide, by decide, by decide⟩

/-- C14: construction does not depend on input order. For a trace `t` with
pairwise distinct span IDs and pairwise distinct start times and a trace `t2`
whose span list is a permutation of that of `t` (same process map),
`buildTree` returns the same forest for both: the same roots in the same order
and, under every node, the same children in the same order. The node of a span
is in the child list of the node of another span in one build iff it is in the
other, and a span whose first `CHILD_OF` reference names a (non-empty) span ID
of the trace is attached to that span at whatever positions the two stand in
the input. -/
theorem C14_buildTree_order_independent (t t2 : trace)
    (hperm : t2.Spans.Perm t.Spans) (hproc : t2.Processes = t.Processes)
    (hid : (t.Spans.map span.SpanID).Nodup) (hst : (t.Spans.map span.StartTime).Nodup) :
    (∃ f, (buildTree t).forest = some f ∧ (buildTree t2).forest = some f) ∧
    (∀ (i a i2 a2 : Nat) (s p : span), t.Spans[i]? = some s → t.Spans[a]? = some p →
      t2.Spans[i2]? = some s → t2.Spans[a2]? = some p →
      (i ∈ (buildTree t).childrenOf a ↔ i2 ∈ (buildTree t2).childrenOf a2)) ∧
    (∀ (i a : Nat) (s p : span), t.Spans[i]? = some s → t.Spans[a]? = some p →
      getParentID s = p.SpanID → p.SpanID ≠ "" → i ∈ (buildTree t).childrenOf a) := by
  have hid2 : (t2.Spans.map span.SpanID).Nodup := ((hperm.map span.SpanID).nodup_iff).mpr hid
  refine ⟨?_, ?_, ?_⟩
  · obtain ⟨f, hf⟩ := buildTree_forest_isSome t hid
    exact ⟨f, hf, by rw [forest_agree t t2 hperm hproc hid hst]; exact hf⟩
  · intro i a i2 a2 s p hs hp hs2 hp2
    rw [mem_childrenOf_iff t hid a i, mem_childrenOf_iff t2 hid2 a2 i2]
    constructor
    · rintro ⟨s', hs', htgt⟩
      rw [hs] at hs'
      simp only [Option.some.injEq] at hs'
      subst hs'
      exact ⟨s, hs2, (attachTarget_eq_some_iff t2 hid2 s a2 p hp2).mpr
        ((attachTarget_eq_some_iff t hid s a p hp).mp htgt)⟩
    · rintro ⟨s', hs', htgt⟩
      rw [hs2] at hs'
      simp only [Option.some.injEq] at hs'
      subst hs'
      exact ⟨s, hs, (attachTarget_eq_some_iff t hid s a p hp).mpr
        ((attachTarget_eq_some_iff t2 hid2 s a2 p hp2).mp htgt)⟩
  · intro i a s p hs hp hpid hne
    exact child_attached t hid i a s p hs hp hpid hne

/-- C14 on a trace that gives the child before its parent and on the same
spans with the parent first: both builds return the same forest, and in the
first the child (index 0) is in the child list of the parent (index 1). -/
theorem C14_buildTree_order_independent_witness :
    traceParentFirst.Spans.Perm traceParentChildOrphan.Spans ∧
    traceParentFirst.Processes = traceParentChildOrphan.Processes ∧
    (traceParentChildOrphan.Spans.map span.SpanID).Nodup ∧
    (traceParentChildOrphan.Spans.map span.StartTime).Nodup ∧
    (∃ f, (buildTree traceParentChildOrphan).forest = some f ∧
      (buildTree traceParentFirst).forest = some f) ∧
    0 ∈ (buildTree traceParentChildOrphan).childrenOf 1 :=
  ⟨by decide, rfl, by decide, by decide,
    (C14_buildTree_order_independent traceParentChildOrphan traceParentFirst
      (by decide) rfl (by decide) (by decide)).1,
    (C14_buildTree_order_independent traceParentChildOrphan traceParentFirst
      (by decide) rfl (by decide) (by decide)).2.2 0 1 _ _ rfl rfl rfl (by decide)⟩

/-- C15: every node `buildTree` allocates, and so every node of the forest it
returns, has as `service` the `ServiceName` of `Processes[span.ProcessID]`
when the process identifier is a key of the process map and the empty string
otherwise; the nodes allocated wrap the spans of the trace one by one, so an
unknown process identifier removes no span. -/
theorem C15_service_resolution (t : trace) :
    (∀ c ∈ (buildTree t).heap,
      c.service = match t.Processes c.span.ProcessID with
        | some p => p.ServiceName
        | none => "") ∧
    (buildTree t).heap.map Cell.span = t.Spans ∧
    (∀ f, (buildTree t).forest = some f → ∀ n ∈ preorderList f,
      n.service = match t.Processes n.span.ProcessID with
        | some p => p.ServiceName
        | none => "") := by
  refine ⟨buildTree_service t, buildTree_map_span t, ?_⟩
  intro f hf n hn
  obtain ⟨c, hc, hspan, hsvc⟩ := forest_nodes (buildTree t) f hf n hn
  rw [hsvc, hspan]
  exact buildTree_service t c hc

/-- C15, at a span of process `p999` against a process map that holds only
`p1`: one root, with the empty service; and at a root of process `p1` with a
child of process `p2`: services `frontend` and `backend`. -/
theorem C15_service_resolution_witness :
    (buildTree traceUnknownProcess).forest = some [.mk spanUnknownProcess "" []] ∧
    (∀ n ∈ preorderList [spanNode.mk spanUnknownProcess "" []],
      n.service = match traceUnknownProcess.Processes n.span.ProcessID with
        | some p => p.ServiceName
        | none => "") ∧
    ((buildTree traceTwoServices).forest.map (fun f => f.map spanNode.service)) =
      some ["frontend"] ∧
    ((buildTree traceTwoServices).forest.map
      (fun f => f.map (fun n => n.children.map spanNode.service))) = some [["backend"]] :=
  ⟨rfl, (C15_service_resolution traceUnknownProcess).2.2 _ rfl, by decide, by decide⟩

/-- C16, as stated, fails for an identifier with a percent-escape: the input
`http://jaeger:16686/trace/a%2Fb` has the form `<scheme>://<host>/trace/<id>`
with the non-empty `<id>` `a%2Fb`, which contains no slash; `url.Parse` stores
the path decoded, `/trace/a/b`, and `parseInput` returns the trace ID `a`. -/
theorem C16_percent_escape_counterexample :
    "http" ++ "://" ++ "jaeger:16686" ++ "/trace/" ++ "a%2Fb" = "http://jaeger:16686/trace/a%2Fb" ∧
    "http" ≠ "" ∧ "a%2Fb" ≠ "" ∧ '/' ∉ "a%2Fb".data ∧
    parseInput urlParseExcerpt "http://jaeger:16686/trace/a%2Fb" "http://localhost:16686" =
      ("http://jaeger:16686", "a") ∧
    parseInput urlParseExcerpt "http://jaeger:16686/trace/a%2Fb" "http://localhost:16686" ≠
      ("http" ++ "://" ++ "jaeger:16686", "a%2Fb") := by
  refine ⟨by decide, by decide, by decide, by decide, by decide, by decide⟩

/-- C16, amended: for every input that `url.Parse` accepts with a non-empty
scheme and whose decoded path is `/trace/<id>` or `/trace/<id>/`, with `<id>`
not empty and without a slash, `parseInput` returns the base URL
`<scheme>://<host>` of the parsed URL, in place of the default one, and the
trace ID `<id>`. -/
theorem C16_parseInput_trace_url (urlParse : String → Option URL)
    (input defaultURL : String) (u : URL) (id : String)
    (hparse : urlParse input = some u) (hscheme : u.Scheme ≠ "")
    (hid : id ≠ "") (hno : '/' ∉ id.data)
    (hpath : u.Path = "/trace/" ++ id ∨ u.Path = "/trace/" ++ id ++ "/") :
    parseInput urlParse input defaultURL = (u.Scheme ++ "://" ++ u.Host, id) := by
  unfold parseInput
  rw [hparse]
  have hs : (u.Scheme == "") = false := by simpa using hscheme
  simp only [hs, Bool.false_eq_true, if_false]
  rw [split_trim_trace_path u.Path id hid hno hpath]
  simp

/-- C16, amended, at the three example inputs: a host with a port, a trailing
slash, a query. -/
theorem C16_parseInput_trace_url_witness :
    parseInput urlParseExcerpt "http://jaeger:16686/trace/xyz789" "http://localhost:16686" =
      ("http://jaeger:16686", "xyz789") ∧
    parseInput urlParseExcerpt "http://localhost:16686/trace/abc123/" "http://other:1" =
      ("http://localhost:16686", "abc123") ∧
    parseInput urlParseExcerpt "http://localhost:16686/trace/abc123?uiEmbed=v0" "http://other:1" =
      ("http://localhost:16686", "abc123") :=
  ⟨C16_parseInput_trace_url urlParseExcerpt "http://jaeger:16686/trace/xyz789"
      "http://localhost:16686" ⟨"http", "jaeger:16686", "/trace/xyz789"⟩ "xyz789"
      (by decide) (by decide) (by decide) (by decide) (Or.inl (by decide)),
    C16_parseInput_trace_url urlParseExcerpt "http://localhost:16686/trace/abc123/"
      "http://other:1" ⟨"http", "localhost:16686", "/trace/abc123/"⟩ "abc123"
      (by decide) (by decide) (by decide) (by decide) (Or.inr (by decide)),
    C16_parseInput_trace_url urlParseExcerpt "http://localhost:16686/trace/abc123?uiEmbed=v0"
      "http://other:1" ⟨"http", "localhost:16686", "/trace/abc123"⟩ "abc123"
      (by decide) (by decide) (by decide) (by decide) (Or.inl (by decide))⟩

/-- C17, as stated, fails for a path with more than two segments: the path
`/trace/abc/def` is not the two segments `trace`, `<id>`, and `parseInput`
still takes the input for a trace URL and returns the second segment. -/
theorem C17_extra_segments_counterexample :
    urlParseExcerpt "http://localhost:16686/trace/abc/def" =
      some ⟨"http", "localhost:16686", "/trace/abc/def"⟩ ∧
    splitSlash (trimSlashes "/trace/abc/def") = ["trace", "abc", "def"] ∧
    (∀ id : String, splitSlash (trimSlashes "/trace/abc/def") ≠ ["trace", id]) ∧
    parseInput urlParseExcerpt "http://localhost:16686/trace/abc/def" "http://default:1" =
      ("http://localhost:16686", "abc") ∧
    parseInput urlParseExcerpt "http://localhost:16686/trace/abc/def" "http://default:1" ≠
      ("http://default:1", "http://localhost:16686/trace/abc/def") := by
  refine ⟨by decide, by decide, ?_, by decide, by decide⟩
  intro id h
  have h3 : splitSlash (trimSlashes "/trace/abc/def") = ["trace", "abc", "def"] := by decide
  rw [h3] at h
  simp at h

/-- C17, amended: for every input that `url.Parse` accepts with a non-empty
scheme and whose path, after trimming slashes and splitting on the slash, has
fewer than two segments or a first segment other than `trace`, `parseInput`
returns the default base URL and the whole input as trace ID. -/
theorem C17_parseInput_other_url (urlParse : String → Option URL)
    (input defaultURL : String) (u : URL)
    (hparse : urlParse input = some u) (_hscheme : u.Scheme ≠ "")
    (hpath : (splitSlash (trimSlashes u.Path)).length < 2 ∨
      (splitSlash (trimSlashes u.Path)).head? ≠ some "trace") :
    parseInput urlParse input defaultURL = (defaultURL, input) := by
  unfold parseInput
  rw [hparse]
  dsimp only
  split
  · rfl
  · split
    · rename_i p0 p1 rest heq
      rw [heq] at hpath
      rcases hpath with h | h
      · simp only [List.length_cons] at h
        omega
      · have : (p0 == "trace") = false := by
          simp only [List.head?_cons, ne_eq, Option.some.injEq] at h
          simpa using h
        simp [this]
    · rfl

/-- C17, amended, at `http://localhost:16686/something/else`. -/
theorem C17_parseInput_other_url_witness :
    parseInput urlParseExcerpt "http://localhost:16686/something/else" "http://localhost:16686" =
      ("http://localhost:16686", "http://localhost:16686/something/else") :=
  C17_parseInput_other_url urlParseExcerpt "http://localhost:16686/something/else"
    "http://localhost:16686" ⟨"http", "localhost:16686", "/something/else"⟩
    (by decide) (by decide) (Or.inr (by decide))

/-- C18: for every input that `url.Parse` rejects or parses with an empty
scheme, `parseInput` returns the default base URL and the input, unchanged, as
trace ID. -/
theorem C18_parseInput_no_url (urlParse : String → Option URL) (input defaultURL : String)
    (h : urlParse input = none ∨ ∃ u, urlParse input = some u ∧ u.Scheme = "") :
    parseInput urlParse input defaultURL = (defaultURL, input) := by
  unfold parseInput
  rcases h with h | ⟨u, hu, hs⟩
  · rw [h]
  · rw [hu]
    simp [hs]

/-- C18, at a bare trace ID, the empty string and the malformed `://invalid`. -/
theorem C18_parseInput_no_url_witness :
    parseInput urlParseExcerpt "abc-123-def-456" "http://localhost:16686" =
      ("http://localhost:16686", "abc-123-def-456") ∧
    parseInput urlParseExcerpt "" "http://localhost:16686" = ("http://localhost:16686", "") ∧
    parseInput urlParseExcerpt "://invalid" "http://localhost:16686" =
      ("http://localhost:16686", "://invalid") :=
  ⟨C18_parseInput_no_url urlParseExcerpt "abc-123-def-456" "http://localhost:16686"
      (Or.inr ⟨⟨"", "", "abc-123-def-456"⟩, by decide, rfl⟩),
    C18_parseInput_no_url urlParseExcerpt "" "http://localhost:16686"
      (Or.inr ⟨⟨"", "", ""⟩, by decide, rfl⟩),
    C18_parseInput_no_url urlParseExcerpt "://invalid" "http://localhost:16686"
      (Or.inl (by decide))⟩

/-- C19: `formatDuration` chooses its tier by strict comparison. Below 1000 the
result is the decimal integer followed by "us"; from 1000 and below 1 000 000 it
ends with "ms"; from 1 000 000 on it ends with "s" and with neither "ms" nor
"us". 999 gives "999us", 1000 and 999 999 are printed as milliseconds and
1 000 000 as seconds. -/
theorem C19_formatDuration_tiers (us : Int) :
    (us < 1000 → formatDuration us = toString us ++ "us") ∧
    (1000 ≤ us → us < 1000000 → "ms".data <:+ (formatDuration us).data) ∧
    (1000000 ≤ us →
      "s".data <:+ (formatDuration us).data ∧
      ¬ "ms".data <:+ (formatDuration us).data ∧
      ¬ "us".data <:+ (formatDuration us).data) ∧
    formatDuration 999 = "999us" ∧ formatDuration 1000 = "1.00ms" ∧
    formatDuration 999999 = "1000.00ms" ∧ formatDuration 1000000 = "1.00s" := by
  refine ⟨formatDuration_us us, ?_, ?_, by decide, by decide, by decide, by decide⟩
  · intro h1 h2
    rw [formatDuration_ms us h1 h2, String.data_append]
    exact List.suffix_append _ _
  · intro h1
    rw [formatDuration_s us h1]
    refine ⟨?_, ?_, ?_⟩
    · rw [String.data_append]
      exact List.suffix_append _ _
    · rw [fixed2_data]
      intro h
      have h2 := (suffix_pair_iff _ _ _ _ _).1 h
      exact (digitChar_ne_letter _ (Nat.mod_lt _ (by decide))).1 h2.1.symm
    · rw [fixed2_data]
      intro h
      have h2 := (suffix_pair_iff _ _ _ _ _).1 h
      exact (digitChar_ne_letter _ (Nat.mod_lt _ (by decide))).2 h2.1.symm

/-- C19 at 1500 (milliseconds), 2 500 000 (seconds) and -5 (microseconds). -/
theorem C19_formatDuration_tiers_witness :
    ((-5 : Int) < 1000 ∧ formatDuration (-5) = toString (-5 : Int) ++ "us") ∧
    ((1000 : Int) ≤ 1500 ∧ (1500 : Int) < 1000000 ∧
      "ms".data <:+ (formatDuration 1500).data) ∧
    ((1000000 : Int) ≤ 2500000 ∧ "s".data <:+ (formatDuration 2500000).data ∧
      ¬ "ms".data <:+ (formatDuration 2500000).data ∧
      ¬ "us".data <:+ (formatDuration 2500000).data) :=
  ⟨⟨by decide, (C19_formatDuration_tiers (-5)).1 (by decide)⟩,
   ⟨by decide, by decide, (C19_formatDuration_tiers 1500).2.1 (by decide) (by decide)⟩,
   ⟨by decide, (C19_formatDuration_tiers 2500000).2.2.1 (by decide)⟩⟩

/-- C20, counterexample: from `2 ^ 53` on the conversion to `float64` is no
longer exact and the printed hundredths drift from the exact quotient.
6180028199187154762 (exactly 6180028199187.154762 s) is printed with .16, above
the nearest hundredth .15; 7457738136953885068 (exactly 7457738136953.885068 s)
is printed with .88, below the nearest hundredth .89. -/
theorem C20_large_value_counterexample :
    (1000000 : Int) ≤ 6180028199187154762 ∧ (6180028199187154762 : Int) < 2 ^ 63 ∧
    formatDuration 6180028199187154762 = "6180028199187.16s" ∧
    |10000 * (618002819918715 : Int) - 6180028199187154762| ≤ 5000 ∧
    ¬ |10000 * (618002819918716 : Int) - 6180028199187154762| ≤ 5000 ∧
    formatDuration 7457738136953885068 = "7457738136953.88s" ∧
    |10000 * (745773813695389 : Int) - 7457738136953885068| ≤ 5000 ∧
    ¬ |10000 * (745773813695388 : Int) - 7457738136953885068| ≤ 5000 := by
  refine ⟨by decide, by decide, by decide, by decide, by decide, by decide, by decide,
    by decide⟩

/-- C20, amended: for `1000 ≤ us < 1 000 000` the result is a number `H` of
hundredths nearest to `us / 1000` (`|10 * H - us| ≤ 5`, either neighbour at a
tie), written as integer part, point and exactly two digits, followed by "ms";
for `1 000 000 ≤ us < 2 ^ 53` it is a number of hundredths nearest to
`us / 1 000 000` written the same way, followed by "s". The nine examples of the
claim are evaluated. -/
theorem C20_formatDuration_two_decimals (us : Int) :
    (1000 ≤ us → us < 1000000 →
      ∃ H : Nat, |10 * (H : Int) - us| ≤ 5 ∧
        formatDuration us =
          toString (H / 100) ++ "." ++
            String.mk [Nat.digitChar (H / 10 % 10), Nat.digitChar (H % 10)] ++ "ms") ∧
    (1000000 ≤ us → us < 2 ^ 53 →
      ∃ H : Nat, |10000 * (H : Int) - us| ≤ 5000 ∧
        formatDuration us =
          toString (H / 100) ++ "." ++
            String.mk [Nat.digitChar (H / 10 % 10), Nat.digitChar (H % 10)] ++ "s") ∧
    formatDuration 0 = "0us" ∧ formatDuration 999 = "999us" ∧
    formatDuration 1000 = "1.00ms" ∧ formatDuration 1500 = "1.50ms" ∧
    formatDuration 150500 = "150.50ms" ∧ formatDuration 999999 = "1000.00ms" ∧
    formatDuration 1000000 = "1.00s" ∧ formatDuration 10123456 = "10.12s" ∧
    formatDuration 123456789 = "123.46s" := by
  refine ⟨?_, ?_, by decide, by decide, by decide, by decide, by decide, by decide,
    by decide, by decide, by decide⟩
  · intro h1 h2
    refine ⟨_, ?_, formatDuration_ms us h1 h2⟩
    have h := hundredths_near us.toNat 10 (Or.inl rfl) (by omega) (by omega)
    norm_num at h
    rw [abs_le]
    omega
  · intro h1 h2
    refine ⟨_, ?_, formatDuration_s us h1⟩
    have h := hundredths_near us.toNat 10000 (Or.inr rfl) (by omega) (by omega)
    norm_num at h
    rw [abs_le]
    omega

/-- C20 at 1375 (a tie, printed as 1.38 ms) and at 123 456 789. -/
theorem C20_formatDuration_two_decimals_witness :
    ((1000 : Int) ≤ 1375 ∧ (1375 : Int) < 1000000 ∧
      ∃ H : Nat, |10 * (H : Int) - 1375| ≤ 5 ∧
        formatDuration 1375 =
          toString (H / 100) ++ "." ++
            String.mk [Nat.digitChar (H / 10 % 10), Nat.digitChar (H % 10)] ++ "ms") ∧
    ((1000000 : Int) ≤ 123456789 ∧ (123456789 : Int) < 2 ^ 53 ∧
      ∃ H : Nat, |10000 * (H : Int) - 123456789| ≤ 5000 ∧
        formatDuration 123456789 =
          toString (H / 100) ++ "." ++
            String.mk [Nat.digitChar (H / 10 % 10), Nat.digitChar (H % 10)] ++ "s") :=
  ⟨⟨by decide, by decide,
      (C20_formatDuration_two_decimals 1375).1 (by decide) (by decide)⟩,
   ⟨by decide, by decide,
      (C20_formatDuration_two_decimals 123456789).2.1 (by decide) (by decide)⟩⟩

/-- C21, counterexample: the span `x` carries a `CHILD_OF` reference to the
span with the empty identifier; the identifiers are distinct and the
references form a tree, yet `x` is written at depth 0, like that span, not one
level deeper: `buildTree` reads an empty target as "no parent". -/
theorem C21_empty_parent_id_counterexample :
    (traceEmptyID.Spans.map span.SpanID).Nodup ∧ Acyclic traceEmptyID ∧
    traceEmptyID.Spans = [spanAt "" 1000 [], spanAt "x" 2000 [childOf ""]] ∧
    getParentID (spanAt "x" 2000 [childOf ""]) = (spanAt "" 1000 []).SpanID ∧
    (printRoots (buildTree traceEmptyID).forestD (buildTree traceEmptyID).startTime
        cfgZero).map (fun l => (l.node.span.SpanID, l.depth)) = [("", 0), ("x", 0)] :=
  ⟨by decide, acyclic_of_chains_end traceEmptyID (by decide), rfl, by decide, by decide⟩

/-- C21, amended: end to end, `buildTree` followed by `printRoots` without
filter and depth limit. For a trace with pairwise distinct span IDs whose
resolved `CHILD_OF` references have no cycle, the forest exists and
`printRoots` writes a line for every span, exactly once. A span whose first
`CHILD_OF` reference is the non-empty ID of a span `p` of the trace is written
after `p`, one level deeper than `p`; of two such spans with the same parent
the one that starts earlier is written first, at the same depth; spans without
resolved parent are written at depth 0, the one that starts earlier first. -/
theorem C21_end_to_end (t : trace) (hnd : (t.Spans.map span.SpanID).Nodup) (hac : Acyclic t)
    (cfg : config) (hcfg : cfg.unfiltered) :
    ∃ f, (buildTree t).forest = some f ∧
      ((printRoots f (buildTree t).startTime cfg).map (fun l => l.node.span)).Perm t.Spans ∧
      (∀ s p : span, s ∈ t.Spans → p ∈ t.Spans → getParentID s = p.SpanID →
        p.SpanID ≠ "" →
        ∃ (d : Nat) (np ns : spanNode), np.span = p ∧ ns.span = s ∧
          [(⟨d, np⟩ : Line), ⟨d + 1, ns⟩].Sublist
            (printRoots f (buildTree t).startTime cfg)) ∧
      (∀ s1 s2 p : span, s1 ∈ t.Spans → s2 ∈ t.Spans → p ∈ t.Spans →
        getParentID s1 = p.SpanID → getParentID s2 = p.SpanID → p.SpanID ≠ "" →
        s1.StartTime < s2.StartTime →
        ∃ (d : Nat) (np n1 n2 : spanNode), np.span = p ∧ n1.span = s1 ∧ n2.span = s2 ∧
          [(⟨d, np⟩ : Line), ⟨d + 1, n1⟩, ⟨d + 1, n2⟩].Sublist
            (printRoots f (buildTree t).startTime cfg)) ∧
      (∀ s1 s2 : span, s1 ∈ t.Spans → s2 ∈ t.Spans →
        (getParentID s1 = "" ∨ ∀ q ∈ t.Spans, q.SpanID ≠ getParentID s1) →
        (getParentID s2 = "" ∨ ∀ q ∈ t.Spans, q.SpanID ≠ getParentID s2) →
        s1.StartTime < s2.StartTime →
        ∃ n1 n2 : spanNode, n1.span = s1 ∧ n2.span = s2 ∧
          [(⟨0, n1⟩ : Line), ⟨0, n2⟩].Sublist
            (printRoots f (buildTree t).startTime cfg)) := by
  obtain ⟨f, hf, hperm⟩ := buildTree_forest_perm t hnd hac
  refine ⟨f, hf, ?_, ?_, ?_, ?_⟩
  · rw [printRoots_unfiltered f _ cfg hcfg]
    have h : (preorderListAt f 0).map (fun l => l.node.span) = forestSpans f := by
      unfold forestSpans
      rw [← preorderListAt_map_node f 0, List.map_map]
      rfl
    rw [h]
    exact hperm
  · intro s p hs hp hid hne
    rw [printRoots_unfiltered f _ cfg hcfg]
    obtain ⟨lp, hlp, ns, hns, hlpp, hnss⟩ := child_line t hnd f hf hperm s p hs hp hid hne
    exact ⟨lp.depth, lp.node, ns, hlpp, hnss,
      children_lines_sublist f 0 lp hlp [ns] (List.singleton_sublist.mpr hns)⟩
  · intro s1 s2 p hs1 hs2 hp hid1 hid2 hne hlt
    rw [printRoots_unfiltered f _ cfg hcfg]
    obtain ⟨lp, _, n1, n2, hlpp, h1, h2, hsub⟩ :=
      sibling_lines t hnd f hf hperm s1 s2 p hs1 hs2 hp hid1 hid2 hne hlt
    exact ⟨lp.depth, lp.node, n1, n2, hlpp, h1, h2, hsub⟩
  · intro s1 s2 hs1 hs2 hr1 hr2 hlt
    rw [printRoots_unfiltered f _ cfg hcfg]
    exact root_lines t hnd f hf hperm s1 s2 hs1 hs2
      ((attachTarget_eq_none_iff t s1).mpr hr1) ((attachTarget_eq_none_iff t s2).mpr hr2) hlt

/-- C21, amended, on the four spans of `TestBuildTree_MultiLevelNesting`: root at depth
0, child1 at depth 1, grandchild at depth 2, child2 at depth 1, in that order. -/
theorem C21_end_to_end_witness :
    (traceMultiLevel.Spans.map span.SpanID).Nodup ∧ Acyclic traceMultiLevel ∧
    cfgZero.unfiltered ∧
    (∃ f, (buildTree traceMultiLevel).forest = some f ∧
      ((printRoots f (buildTree traceMultiLevel).startTime cfgZero).map
        (fun l => l.node.span)).Perm traceMultiLevel.Spans) ∧
    (printRoots (buildTree traceMultiLevel).forestD (buildTree traceMultiLevel).startTime
        cfgZero).map (fun l => (l.node.span.OperationName, l.depth)) =
      [("root", 0), ("child1", 1), ("grandchild", 2), ("child2", 1)] :=
  have hac : Acyclic traceMultiLevel := acyclic_of_chains_end traceMultiLevel (by decide)
  have h := C21_end_to_end traceMultiLevel (by decide) hac cfgZero ⟨rfl, rfl, rfl, rfl⟩
  ⟨by decide, hac, ⟨rfl, rfl, rfl, rfl⟩,
    h.elim (fun f hf => ⟨f, hf.1, hf.2.1⟩), by decide⟩

/-- C22: in text mode with relative timestamps, the text `printRoots` writes
is, for every emitted node at depth `k`, one line made of `2 * k` spaces, the
operation name, a space, the resolved service name in square brackets, a
space, "+" followed by `formatDuration` of the `int64` difference
`span.StartTime - startTime`, a space, `formatDuration(span.Duration)` and the
newline; `startTime` is the value `printRoots` is called with, in `main` the
start time returned by `buildTree`. The difference is the exact one whenever
it is in the `int64` range. -/
theorem C22_text_line_relative (lib : Library) (roots : List spanNode) (st : Int)
    (cfg : config) (hj : cfg.jsonOutput = false) (hr : cfg.relativeTime = true) :
    printRootsText lib roots st cfg =
      (printRoots roots st cfg).map (fun l =>
        String.mk (List.replicate (2 * l.depth) ' ') ++ l.node.span.OperationName ++ " " ++
          "[" ++ l.node.service ++ "]" ++ " " ++
          "+" ++ formatDuration (relOffset l.node st) ++ " " ++
          formatDuration l.node.span.Duration ++ "\n") ∧
    (∀ node : spanNode, relOffset node st = wrap64 (node.span.StartTime - st)) ∧
    (∀ node : spanNode, isInt64 (node.span.StartTime - st) →
      relOffset node st = node.span.StartTime - st) := by
  refine ⟨?_, fun _ => rfl, fun node h => wrap64_of_isInt64 _ h⟩
  rw [printRootsText_eq_map]
  apply List.map_congr_left
  intro l _
  exact lineOf_relative lib l.node l.depth st cfg hj hr

/-- C22 on the trace of `TestBuildTree_MultiLevelNesting`, built by
`buildTree` and printed with `-relative`. -/
theorem C22_text_line_relative_witness :
    cfgRelative.jsonOutput = false ∧ cfgRelative.relativeTime = true ∧
    (buildTree traceMultiLevel).startTime = 1000 ∧
    printRootsText libStub (buildTree traceMultiLevel).forestD
        (buildTree traceMultiLevel).startTime cfgRelative =
      ["root [service1] +0us 300us\n", "  child1 [service1] +50us 150us\n",
        "    grandchild [service1] +100us 50us\n", "  child2 [service1] +250us 30us\n"] ∧
    printRootsText libStub (buildTree traceMultiLevel).forestD
        (buildTree traceMultiLevel).startTime cfgRelative =
      (printRoots (buildTree traceMultiLevel).forestD
          (buildTree traceMultiLevel).startTime cfgRelative).map (fun l =>
        String.mk (List.replicate (2 * l.depth) ' ') ++ l.node.span.OperationName ++ " " ++
          "[" ++ l.node.service ++ "]" ++ " " ++
          "+" ++ formatDuration (relOffset l.node (buildTree traceMultiLevel).startTime) ++
          " " ++ formatDuration l.node.span.Duration ++ "\n") :=
  ⟨rfl, rfl, by decide, by decide,
    (C22_text_line_relative libStub (buildTree traceMultiLevel).forestD
      (buildTree traceMultiLevel).startTime cfgRelative rfl rfl).1⟩

/-- C23: in JSON mode the text `printRoots` writes is, for every emitted node
at depth `k`, one line made of `2 * k` spaces, the operation name, a space and
the serialised record `out`, then the newline. The record has exactly the four
fields `span_id` (the span identifier), `service` (the resolved service name),
`duration` (`formatDuration` of the span duration) and `tags`; `tags` has one
entry per distinct tag key of the span and maps each key to the value of the
last tag of the tag sequence that carries that key. -/
theorem C23_json_line (lib : Library) (roots : List spanNode) (st : Int) (cfg : config)
    (hj : cfg.jsonOutput = true) :
    printRootsText lib roots st cfg =
      (printRoots roots st cfg).map (fun l =>
        String.mk (List.replicate (2 * l.depth) ' ') ++ l.node.span.OperationName ++ " " ++
          lib.jsonMarshal (outRecord l.node (formatDuration l.node.span.Duration)) ++ "\n") ∧
    (∀ (node : spanNode) (dur : String),
      (outRecord node dur).map Prod.fst = ["span_id", "service", "duration", "tags"] ∧
      List.lookup "span_id" (outRecord node dur) = some (.str node.span.SpanID) ∧
      List.lookup "service" (outRecord node dur) = some (.str node.service) ∧
      List.lookup "duration" (outRecord node dur) = some (.str dur) ∧
      List.lookup "tags" (outRecord node dur) = some (.tags (collectTags node.span.Tags))) ∧
    (∀ ts : List tag,
      ((collectTags ts).map Prod.fst).Nodup ∧
      (∀ k, k ∈ (collectTags ts).map Prod.fst ↔ ∃ t ∈ ts, t.Key = k) ∧
      (∀ k, (collectTags ts).get k =
        (ts.reverse.find? (fun t => t.Key == k)).map tag.Value)) := by
  refine ⟨?_, fun node dur => ⟨rfl, rfl, rfl, rfl, rfl⟩, fun ts => ⟨?_, ?_, ?_⟩⟩
  · rw [printRootsText_eq_map]
    apply List.map_congr_left
    intro l _
    exact lineOf_json lib l.node l.depth st cfg hj
  · exact tagFold_nodup ts [] List.nodup_nil
  · intro k
    unfold collectTags
    rw [tagFold_mem_keys]
    simp
  · intro k
    unfold collectTags
    rw [tagFold_get]
    cases ts.reverse.find? (fun t => t.Key == k) <;> rfl

/-- C23 on a node that carries the key `a` twice: the tag map keeps the later
value. -/
theorem C23_json_line_witness :
    cfgJson.jsonOutput = true ∧
    printRootsText libStub [nodeRepeatedTag] 0 cfgJson =
      (printRoots [nodeRepeatedTag] 0 cfgJson).map (fun l =>
        String.mk (List.replicate (2 * l.depth) ' ') ++ l.node.span.OperationName ++ " " ++
          libStub.jsonMarshal (outRecord l.node (formatDuration l.node.span.Duration)) ++
          "\n") ∧
    printRootsText libStub [nodeRepeatedTag] 0 cfgJson = ["op <json>\n"] ∧
    outRecord nodeRepeatedTag (formatDuration nodeRepeatedTag.span.Duration) =
      [("span_id", .str "s1"), ("service", .str "svc"), ("duration", .str "1.50ms"),
        ("tags", .tags [("a", TagValue.other "2"), ("b", TagValue.bool true)])] :=
  ⟨rfl, (C23_json_line libStub [nodeRepeatedTag] 0 cfgJson rfl).1, by decide, by decide⟩

/-- C24: for every trace with pairwise distinct span IDs, cyclic `CHILD_OF`
references included, the nodes reachable from the root list of `buildTree`
through child lists form a finite acyclic forest. The pointer structure below
the roots unfolds to a finite forest of trees, the same for every amount of
fuel from the number of nodes on, so the recursions `matchesFilter` and
`printRoots`, total functions on that forest, terminate. No address is met
twice when child pointers are followed from the roots (no node is reachable
along two paths), and a node met from the roots is not met again below itself
(no node is reachable from itself). -/
theorem C24_reachable_nodes_form_forest (t : trace) (hnd : (t.Spans.map span.SpanID).Nodup) :
    (∃ f, (buildTree t).forest = some f ∧
      ∀ e, allSome ((buildTree t).roots.map
        ((buildTree t).heap.toTree ((buildTree t).heap.length + e))) = some f) ∧
    (∀ fuel, ((buildTree t).roots.flatMap ((buildTree t).heap.reach fuel)).Nodup) ∧
    (∀ fuel fuel2 a, a ∈ (buildTree t).roots.flatMap ((buildTree t).heap.reach fuel) →
      a ∉ ((buildTree t).childrenOf a).flatMap ((buildTree t).heap.reach fuel2)) := by
  have hroots : ∀ j ∈ (buildTree t).roots, parentIndex t j = none :=
    fun j hj => ((buildTree_roots_iff_parentIndex t hnd j).mp hj).2
  refine ⟨?_, ?_, ?_⟩
  · obtain ⟨f, hf⟩ := buildTree_forest_isSome t hnd
    exact ⟨f, hf, forest_add_fuel t f hf⟩
  · intro fuel
    exact nodup_reach_roots (buildTree t).heap (parentIndex t) (buildTree t).roots hroots
      (buildTree_roots_nodup t hnd) (buildTree_childrenAt_iff_parentIndex t hnd)
      (fun a => buildTree_children_nodup t hnd a) fuel
  · intro fuel fuel2 a ha
    exact not_mem_reach_self (buildTree t).heap (parentIndex t) (buildTree t).roots hroots
      (buildTree_childrenAt_iff_parentIndex t hnd) fuel fuel2 a ha

/-- C24 on a trace with a parentless span and two spans that name each other
as parent, and on a span that names itself: the forest is the parentless span
alone, respectively empty; the nodes on the cycle are in each other's child
lists and are not reachable from the root list. -/
theorem C24_reachable_nodes_form_forest_witness :
    (traceCycle.Spans.map span.SpanID).Nodup ∧
    (∃ f, (buildTree traceCycle).forest = some f ∧
      ∀ e, allSome ((buildTree traceCycle).roots.map
        ((buildTree traceCycle).heap.toTree ((buildTree traceCycle).heap.length + e))) =
          some f) ∧
    (buildTree traceCycle).roots = [0] ∧
    (buildTree traceCycle).childrenOf 1 = [2] ∧ (buildTree traceCycle).childrenOf 2 = [1] ∧
    (buildTree traceCycle).forestD.map (fun n => (n.span.SpanID, n.children.length)) =
      [("r", 0)] ∧
    (printRoots (buildTree traceCycle).forestD (buildTree traceCycle).startTime cfgZero).length
      = 1 ∧
    (buildTree traceSelfParent).forest = some [] :=
  ⟨by decide, (C24_reachable_nodes_form_forest traceCycle (by decide)).1,
    by decide, by decide, by decide, by decide, by decide, rfl⟩

/-- C25: for a trace with pairwise distinct span IDs in which following
resolved first-`CHILD_OF` references from a span never leads back to that
span, the forest of `buildTree` exists, its nodes wrap the spans of the trace,
each once, and it has as many nodes as there are spans; the nodes met from the
root list are all the allocated nodes, each once; node `j` wraps span `j`; and
every node has exactly one position: it occurs once in the root list and in no
child list, or once in exactly one child list and not in the root list. -/
theorem C25_each_span_one_node_one_position (t : trace)
    (hnd : (t.Spans.map span.SpanID).Nodup) (hac : Acyclic t) :
    (∃ f, (buildTree t).forest = some f ∧ (forestSpans f).Perm t.Spans ∧
      (preorderList f).length = t.Spans.length) ∧
    ((buildTree t).roots.flatMap ((buildTree t).heap.reach t.Spans.length)).Perm
      (List.range t.Spans.length) ∧
    ((buildTree t).roots.flatMap ((buildTree t).heap.reach t.Spans.length)).length =
      t.Spans.length ∧
    (buildTree t).heap.map Cell.span = t.Spans ∧
    (buildTree t).roots.Nodup ∧ (∀ a, ((buildTree t).childrenOf a).Nodup) ∧
    (∀ j, j < t.Spans.length →
      (j ∈ (buildTree t).roots ∧ ∀ a, j ∉ (buildTree t).childrenOf a) ∨
      (j ∉ (buildTree t).roots ∧
        ∃ a, j ∈ (buildTree t).childrenOf a ∧
          ∀ b, j ∈ (buildTree t).childrenOf b → b = a)) := by
  have hreach := buildTree_reach_perm t hnd hac
  refine ⟨?_, hreach, by simpa using hreach.length_eq, buildTree_map_span t,
    buildTree_roots_nodup t hnd, fun a => buildTree_children_nodup t hnd a,
    fun j hj => buildTree_position t hnd j hj⟩
  obtain ⟨f, hf, hp⟩ := buildTree_forest_perm t hnd hac
  refine ⟨f, hf, hp, ?_⟩
  have := hp.length_eq
  unfold forestSpans at this
  simpa using this

/-- C25 on the trace of `TestBuildTree_MultiLevelNesting`: four spans, four
nodes reachable from the single root. -/
theorem C25_each_span_one_node_one_position_witness :
    (traceMultiLevel.Spans.map span.SpanID).Nodup ∧ Acyclic traceMultiLevel ∧
    (∃ f, (buildTree traceMultiLevel).forest = some f ∧
      (forestSpans f).Perm traceMultiLevel.Spans ∧
      (preorderList f).length = traceMultiLevel.Spans.length) ∧
    (buildTree traceMultiLevel).roots = [0] ∧
    (buildTree traceMultiLevel).roots.flatMap
      ((buildTree traceMultiLevel).heap.reach traceMultiLevel.Spans.length) = [0, 1, 2, 3] :=
  have hac : Acyclic traceMultiLevel := acyclic_of_chains_end traceMultiLevel (by decide)
  ⟨by decide, hac,
    (C25_each_span_one_node_one_position traceMultiLevel (by decide) hac).1,
    by decide, by decide⟩

/-- C26, counterexample: the offset is an `int64` difference. For two spans
that start at -1 and at 9223372036854775807 (no start time is 0), `buildTree`
returns the start time -1, the minimum, and the offset of the second span,
`2 ^ 63` as an integer, wraps to -9223372036854775808: the line written for it
with `-relative` shows a negative offset. -/
theorem C26_offset_wraps_counterexample :
    traceFarApart.Spans ≠ [] ∧
    (∀ s ∈ traceFarApart.Spans, s.StartTime ≠ 0 ∧ isInt64 s.StartTime) ∧
    (buildTree traceFarApart).startTime = -1 ∧
    (∀ n ∈ (buildTree traceFarApart).forestD,
      n.span.SpanID = "b" → relOffset n (buildTree traceFarApart).startTime < 0) ∧
    printRootsText libStub (buildTree traceFarApart).forestD
        (buildTree traceFarApart).startTime cfgRelative =
      ["a [svc] +0us 10us\n", "b [svc] +-9223372036854775808us 10us\n"] := by
  refine ⟨by decide, by decide, by decide, ?_, by decide⟩
  have hf : (buildTree traceFarApart).forestD =
      [.mk (spanAt "a" (-1) []) "svc" [], .mk (spanAt "b" 9223372036854775807 []) "svc" []] := by
    rfl
  rw [hf]
  intro n hn hid
  simp only [List.mem_cons, List.mem_singleton, List.not_mem_nil, or_false] at hn
  rcases hn with rfl | rfl
  · exact absurd hid (by decide)
  · decide

/-- C26, amended: for a non-empty trace in which no span starts at 0, the
start time `buildTree` returns is the start time of one of the spans and is at
most the start time of every span (the minimum), and it is the same for every
permutation of the span list. Every exact difference `span.StartTime - start`
is therefore `≥ 0`, and the offset `printNode` renders, an `int64` difference,
is `≥ 0` for every span whose difference is below `2 ^ 63` (always the case
when the start times are non-negative `int64` values). -/
theorem C26_startTime_is_minimum (t : trace) (hne : t.Spans ≠ [])
    (hs : ∀ s ∈ t.Spans, s.StartTime ≠ 0) :
    (∃ s ∈ t.Spans, (buildTree t).startTime = s.StartTime) ∧
    (∀ s ∈ t.Spans, (buildTree t).startTime ≤ s.StartTime) ∧
    (∀ t2 : trace, t2.Spans.Perm t.Spans →
      (buildTree t2).startTime = (buildTree t).startTime) ∧
    (∀ n : spanNode, n.span ∈ t.Spans →
      n.span.StartTime - (buildTree t).startTime < 2 ^ 63 →
      0 ≤ relOffset n (buildTree t).startTime ∧
      relOffset n (buildTree t).startTime = n.span.StartTime - (buildTree t).startTime) ∧
    ((∀ s ∈ t.Spans, 0 ≤ s.StartTime ∧ s.StartTime < 2 ^ 63) →
      ∀ n : spanNode, n.span ∈ t.Spans → 0 ≤ relOffset n (buildTree t).startTime) := by
  obtain ⟨hex, hmin⟩ := buildTree_startTime_min t hne hs
  have key : ∀ n : spanNode, n.span ∈ t.Spans →
      n.span.StartTime - (buildTree t).startTime < 2 ^ 63 →
      0 ≤ relOffset n (buildTree t).startTime ∧
      relOffset n (buildTree t).startTime = n.span.StartTime - (buildTree t).startTime := by
    intro n hn hlt
    have hle := hmin n.span hn
    have hw : relOffset n (buildTree t).startTime =
        n.span.StartTime - (buildTree t).startTime :=
      wrap64_of_isInt64 _ ⟨by omega, hlt⟩
    rw [hw]
    exact ⟨by omega, rfl⟩
  refine ⟨hex, hmin, fun t2 hp => buildTree_startTime_perm t t2 hp hne hs, key, ?_⟩
  intro hrange n hn
  obtain ⟨s, hsm, hse⟩ := hex
  have h1 := hrange s hsm
  have h2 := hrange n.span hn
  exact (key n hn (by omega)).1

/-- C26, amended, on the trace of `TestBuildTree_MultiLevelNesting` and on its
span list reversed: the start time is 1000 for both. -/
theorem C26_startTime_is_minimum_witness :
    traceMultiLevel.Spans ≠ [] ∧ (∀ s ∈ traceMultiLevel.Spans, s.StartTime ≠ 0) ∧
    (buildTree traceMultiLevel).startTime = 1000 ∧
    (∀ s ∈ traceMultiLevel.Spans, (buildTree traceMultiLevel).startTime ≤ s.StartTime) ∧
    (buildTree { traceMultiLevel with Spans := traceMultiLevel.Spans.reverse }).startTime =
      (buildTree traceMultiLevel).startTime :=
  ⟨by decide, by decide, by decide,
    (C26_startTime_is_minimum traceMultiLevel (by decide) (by decide)).2.1,
    (C26_startTime_is_minimum traceMultiLevel (by decide) (by decide)).2.2.1
      { traceMultiLevel with Spans := traceMultiLevel.Spans.reverse }
      (List.reverse_perm _)⟩

/-- C27, counterexample: the path `/trace//abc` has an empty second segment.
`parseInput` recognises `http://jaeger:16686/trace//abc` as a trace URL (it
returns the base URL `http://jaeger:16686`, not the default) and returns the
empty string as trace ID. -/
theorem C27_empty_segment_counterexample :
    urlParseExcerpt "http://jaeger:16686/trace//abc" =
      some ⟨"http", "jaeger:16686", "/trace//abc"⟩ ∧
    splitSlash (trimSlashes "/trace//abc") = ["trace", "", "abc"] ∧
    parseInput urlParseExcerpt "http://jaeger:16686/trace//abc" "http://localhost:16686" =
      ("http://jaeger:16686", "") := by
  refine ⟨by decide, by decide, by decide⟩

/-- C27, amended: whenever `parseInput` recognises its input as a trace URL
(`url.Parse` succeeds with a non-empty scheme and the trimmed path splits into
at least two segments of which the first is `trace`), it returns the base URL
built from the scheme and host and, as trace ID, the second segment of the
path; this string contains no "/" (it is empty when the path has two slashes
in a row after `trace`). -/
theorem C27_recognised_id_has_no_slash (urlParse : String → Option URL)
    (input defaultURL : String) (u : URL) (p1 : String) (rest : List String)
    (hu : urlParse input = some u) (hs : u.Scheme ≠ "")
    (hp : splitSlash (trimSlashes u.Path) = "trace" :: p1 :: rest) :
    parseInput urlParse input defaultURL = (u.Scheme ++ "://" ++ u.Host, p1) ∧
    '/' ∉ (parseInput urlParse input defaultURL).2.data := by
  have h := parseInput_recognised urlParse input defaultURL u p1 rest hu hs hp
  refine ⟨h, ?_⟩
  rw [h]
  apply splitSlash_no_slash (trimSlashes u.Path) p1
  rw [hp]
  simp

/-- C27, amended, at `http://localhost:16686/trace/abc/def`: the trace ID is
`abc`. -/
theorem C27_recognised_id_has_no_slash_witness :
    urlParseExcerpt "http://localhost:16686/trace/abc/def" =
      some ⟨"http", "localhost:16686", "/trace/abc/def"⟩ ∧
    ("http" : String) ≠ "" ∧
    splitSlash (trimSlashes "/trace/abc/def") = ["trace", "abc", "def"] ∧
    parseInput urlParseExcerpt "http://localhost:16686/trace/abc/def" "http://other:1" =
      ("http://localhost:16686", "abc") ∧
    '/' ∉ (parseInput urlParseExcerpt "http://localhost:16686/trace/abc/def"
      "http://other:1").2.data :=
  ⟨by decide, by decide, by decide,
    C27_recognised_id_has_no_slash urlParseExcerpt "http://localhost:16686/trace/abc/def"
      "http://other:1" ⟨"http", "localhost:16686", "/trace/abc/def"⟩ "abc" ["def"]
      (by decide) (by decide) (by decide)⟩

/-- C28: tightening the duration filter never reveals a span. For two configs
that differ only in `minDuration`, with thresholds `t1 ≤ t2` (in particular
`0 < t1 ≤ t2`), a node that satisfies `matchesFilter` under `t2` satisfies it
under `t1`, and the lines `printRoots` writes under `t2` (hence the nodes it
emits) are a subsequence of those it writes under `t1`. -/
theorem C28_tightening_minDuration (roots : List spanNode) (st : Int) (cfg : config)
    (t1 t2 : Int) (h : t1 ≤ t2) :
    (∀ n : spanNode, n.matchesFilter { cfg with minDuration := t2 } = true →
      n.matchesFilter { cfg with minDuration := t1 } = true) ∧
    (printRoots roots st { cfg with minDuration := t2 }).Sublist
      (printRoots roots st { cfg with minDuration := t1 }) ∧
    ((printRoots roots st { cfg with minDuration := t2 }).map Line.node).Sublist
      ((printRoots roots st { cfg with minDuration := t1 }).map Line.node) :=
  ⟨fun n => matchesFilter_mono n cfg t1 t2 h,
    printRoots_sublist_of_le roots st cfg t1 t2 h,
    (printRoots_sublist_of_le roots st cfg t1 t2 h).map Line.node⟩

/-- C28 on the chain of 50 ms, 60 ms and 200 ms with the thresholds 100 ms and
150 ms, and on the short tree, which 1 ns shows and 100 ms hides. -/
theorem C28_tightening_minDuration_witness :
    (100000000 : Int) ≤ 150000000 ∧
    ((printRoots [chainTree] 0 { cfgZero with minDuration := 150000000 }).map Line.node).Sublist
      ((printRoots [chainTree] 0 { cfgZero with minDuration := 100000000 }).map Line.node) ∧
    (printRoots [chainTree] 0 { cfgZero with minDuration := 150000000 }).length = 3 ∧
    (printRoots [shortTree] 0 { cfgZero with minDuration := 1 }).length ≠ 0 ∧
    (printRoots [shortTree] 0 { cfgZero with minDuration := 100000000 }).length = 0 :=
  ⟨by decide,
    (C28_tightening_minDuration [chainTree] 0 cfgZero 100000000 150000000 (by decide)).2.2,
    by decide, by decide, by decide⟩

end Jtree
